import Mathlib

/-!
# Relational operators of `buzzdb::operators`

A shallow embedding of `src/operators/operators.cc` (with the declarations of
`src/include/operators/operators.h`) and theorems about the pull-based operators:
`HashJoin`, `Sort`, the bag operators `UnionAll`, `IntersectAll`, `ExceptAll`, the set
operators `Union`, `Intersect`, `Except`, `HashAggregation`, `Select`, `Projection` and
`Print`, and about the comparison operators of `Register`.

Conventions of the embedding.

* A child operator is the finite stream of tuples it still has to deliver: a
  `List Tuple`.  `input->next()` pops the head, `input->get_output()` is that head.
* An operator is a state record with the fields of the C++ class, a `next` function
  and a `get_output` function.  `drive` is the consumer loop
  `while (op.next()) emit(op.get_output());`.
* What the C++ standard library leaves open is a parameter, `StdLib`: the two
  `std::hash` functions, `std::sort`, and the iteration order of
  `std::unordered_map`.  `StdLib.Conforms` states what the standard promises.
* `std::vector::at` throws on a bad index: the functions using it return `Option`.
  The unchecked `regs[i]` of `Select`, `Sort` and `HashAggregation` reads a default
  register out of range, and the theorems about them assume the indices in range; in
  `Projection` an index out of range ends in `Outcome.undefined`.
* `get_output` of `Projection` and of the six set operators returns pointers to
  registers that it then destroys: what a consumer reads through them is an `Outcome`,
  undefined for a string that the library keeps on the heap.  `driveRead` is the
  consumer loop that reads every returned handle.
* An `int` holds the 32-bit two's complement reduction `wrapInt32` of what is stored
  into it.
-/

namespace buzzdb.operators

/-! ## Registers -/

/-- One `char` of a `std::string`, compared as an unsigned byte. -/
abbrev Byte := Fin 256

/-- The bytes of an ASCII literal. -/
def ascii (s : String) : List Byte := s.data.map (fun c => Fin.ofNat c.toNat)

/-- The class `Register`: built only by `from_int` (sets `intVal`) or `from_string`
(sets `strVal`), so exactly one of the two optionals is engaged. -/
inductive Register where
  | int (v : Int)
  | str (s : List Byte)
  deriving DecidableEq, Repr

/-- The enum `Register::Type`. -/
inductive RegisterType where
  | INT64
  | CHAR16
  deriving DecidableEq, Repr

/-- A tuple is a `std::vector<Register>`. -/
abbrev Tuple := List Register

namespace Register

/-- `Register::from_int`. -/
def from_int (value : Int) : Register := Register.int value

/-- `Register::from_string`. -/
def from_string (value : List Byte) : Register := Register.str value

/-- `Register::get_type`: `INT64` when `intVal` is engaged, else `CHAR16`. -/
def get_type : Register → RegisterType
  | int _ => RegisterType.INT64
  | str _ => RegisterType.CHAR16

/-- `Register::as_int`: the integer, or `0` when `intVal` is empty. -/
def as_int : Register → Int
  | int v => v
  | str _ => 0

/-- `Register::as_string`: the string, or the empty string when `strVal` is empty. -/
def as_string : Register → List Byte
  | int _ => []
  | str s => s

end Register

/-- The sign of `std::string::compare`: the bytes are compared lexicographically as
unsigned chars, a proper initial segment being smaller. -/
def strCompare : List Byte → List Byte → Int
  | [], [] => 0
  | [], _ :: _ => -1
  | _ :: _, [] => 1
  | a :: as, b :: bs => if a < b then -1 else if b < a then 1 else strCompare as bs

/-! ## The standard library, as a parameter -/

/-- What the operators use from the C++ standard library and the standard does not
pin down: `std::hash<int64_t>`, `std::hash<std::string>`, `std::sort` (an in-place
sort of a vector with a comparator), the order in which a range-for visits the
entries of a `std::unordered_map` (as a function of the entries in insertion order),
and the length up to which a `std::string` is kept inside the string object. -/
structure StdLib where
  /-- The function `std::hash<int64_t>`. -/
  hashInt : Int → Nat
  /-- The function `std::hash<std::string>`. -/
  hashStr : List Byte → Nat
  /-- The function `std::sort(first, last, comp)`. -/
  sort : {α : Type} → (α → α → Bool) → List α → List α
  /-- The visiting order of `for (const auto& e : unordered_map)`. -/
  iter : {β : Type} → List (Register × β) → List (Register × β)
  /-- The longest `std::string` that the library keeps inside the string object (15
  bytes in libstdc++, 22 in libc++); a longer one is in a heap block, which the
  destructor of the string frees. -/
  inPlace : Nat

namespace Register

/-- `Register::get_hash`. -/
def get_hash (L : StdLib) : Register → Nat
  | int v => L.hashInt v
  | str s => L.hashStr s

/-- `operator==(const Register&, const Register&)`: equality of the hashes. -/
def eq (L : StdLib) (r1 r2 : Register) : Bool := r1.get_hash L == r2.get_hash L

/-- `operator!=(const Register&, const Register&)`: inequality of the hashes. -/
def ne (L : StdLib) (r1 r2 : Register) : Bool := r1.get_hash L != r2.get_hash L

/-- The assertion `r1.get_type() == r2.get_type()` made by the four order operators. -/
def sameType (r1 r2 : Register) : Bool := r1.get_type == r2.get_type

/-- `operator<`: the value computed when the assertion `sameType` holds. -/
def lt (r1 r2 : Register) : Bool :=
  if r1.get_type = RegisterType.INT64 then decide (r1.as_int < r2.as_int)
  else decide (strCompare r1.as_string r2.as_string < 0)

/-- `operator<=`: the value computed when the assertion `sameType` holds. -/
def le (r1 r2 : Register) : Bool :=
  if r1.get_type = RegisterType.INT64 then decide (r1.as_int ≤ r2.as_int)
  else decide (strCompare r1.as_string r2.as_string ≤ 0)

/-- `operator>`: the value computed when the assertion `sameType` holds. -/
def gt (r1 r2 : Register) : Bool :=
  if r1.get_type = RegisterType.INT64 then decide (r1.as_int > r2.as_int)
  else decide (strCompare r1.as_string r2.as_string > 0)

/-- `operator>=`: the value computed when the assertion `sameType` holds. -/
def ge (r1 r2 : Register) : Bool :=
  if r1.get_type = RegisterType.INT64 then decide (r1.as_int ≥ r2.as_int)
  else decide (strCompare r1.as_string r2.as_string ≥ 0)

end Register

/-! ## Undefined behaviour, and registers read after their destruction -/

/-- How a call or a read ends in C++: with a value, with an error that the program
detects and reports (an exception, a failed assertion), or in undefined behaviour, of
which the standard requires nothing and which nothing reports. -/
inductive Outcome (α : Type) where
  | value (a : α)
  | reported
  | undefined
  deriving DecidableEq, Repr

/-- Whether a `Register` is read back intact after `std::vector::clear` has destroyed
it.  By the standard every read of a destroyed object is undefined; what the
implementations do is this: `clear` keeps the buffer of the vector, and the destructors
of the two optionals and of the string write nothing, so the flags and the integer stay
in place, and so do the bytes of a string of at most `L.inPlace` bytes, which are inside
the string object; a longer string is in a heap block that the destructor frees. -/
def Register.survives (L : StdLib) : Register → Bool
  | Register.int _ => true
  | Register.str s => decide (s.length ≤ L.inPlace)

/-- What is read through a pointer to a register that was destroyed after the pointer
was taken: reading freed memory is undefined. -/
def Register.afterDestroy (L : StdLib) (r : Register) : Outcome Register :=
  if r.survives L then Outcome.value r else Outcome.undefined

/-- The tuple a consumer reads through the handles that `get_output` returned, when
every read is defined. -/
def readHandles : List (Outcome Register) → Option Tuple
  | [] => some []
  | Outcome.value r :: handles => (readHandles handles).map (fun regs => r :: regs)
  | Outcome.reported :: _ => none
  | Outcome.undefined :: _ => none

/-- Every register of the tuples of `input` survives its destruction: the strings are
short enough to be kept in place. -/
def Survives (L : StdLib) (input : List Tuple) : Prop :=
  ∀ regs ∈ input, ∀ r ∈ regs, Register.survives L r = true

/-- `operator==` of `std::vector<Register>`: same size and `==` on every column. -/
def Tuple.eq (L : StdLib) : Tuple → Tuple → Bool
  | [], [] => true
  | a :: as, b :: bs => Register.eq L a b && Tuple.eq L as bs
  | _, _ => false

/-! ## `std::unordered_map<Register, β, RegisterHasher>`

Keys are compared with `operator==`, so two registers with the same hash are one key.
The entries are kept in insertion order; the key stored is the first one inserted. -/

/-- The entries of a `std::unordered_map<Register, β, RegisterHasher>`. -/
abbrev UMap (β : Type) := List (Register × β)

namespace UMap

/-- `m.find(k)`: the entry whose key is `==` to `k`, if any. -/
def find {β : Type} (L : StdLib) (m : UMap β) (k : Register) : Option (Register × β) :=
  List.find? (fun e => Register.eq L e.1 k) m

/-- `m[k] = v`: overwrites the value of the entry with key `==` to `k`, or inserts
`(k, v)`. -/
def assign {β : Type} (L : StdLib) : UMap β → Register → β → UMap β
  | [], k, v => [(k, v)]
  | e :: m, k, v => if Register.eq L e.1 k then (e.1, v) :: m else e :: assign L m k v

/-- No two entries of the map have `==` keys. -/
def Distinct {β : Type} (L : StdLib) (m : UMap β) : Prop :=
  m.Pairwise (fun e1 e2 => Register.eq L e1.1 e2.1 = false)

end UMap

/-! ## The consumer loop -/

/-- The loop `while (op.next()) emit(op.get_output());` run for at most `fuel` calls of
`next`.  The result is `some` only if a call of `next` returned false within the fuel
and no call failed; it then lists the emitted tuples. -/
def drive {σ : Type} (next : σ → Option (Bool × σ)) (get_output : σ → Tuple × σ) :
    Nat → σ → Option (List Tuple)
  | 0, _ => none
  | fuel + 1, st =>
    match next st with
    | none => none
    | some (false, _) => some []
    | some (true, st1) =>
      match drive next get_output fuel (get_output st1).2 with
      | none => none
      | some outs => some ((get_output st1).1 :: outs)

/-- The same loop over an operator whose `get_output` returns handles to destroyed
registers and whose `next` can be undefined: the consumer reads every handle of every
tuple.  The result is `some` only if, within the fuel, a call of `next` returned false
and every call and every read before it was defined. -/
def driveRead {σ : Type} (next : σ → Outcome (Bool × σ))
    (get_output : σ → List (Outcome Register) × σ) : Nat → σ → Option (List Tuple)
  | 0, _ => none
  | fuel + 1, st =>
    match next st with
    | Outcome.value (false, _) => some []
    | Outcome.value (true, st1) =>
      match readHandles (get_output st1).1, driveRead next get_output fuel (get_output st1).2 with
      | some regs, some outs => some (regs :: outs)
      | _, _ => none
    | Outcome.reported => none
    | Outcome.undefined => none

/-! ## HashJoin -/

/-- The class `HashJoin`; `input_left` and `input_right` are the children. -/
structure HashJoin where
  input_left : List Tuple
  input_right : List Tuple
  attr_index_left : Nat
  attr_index_right : Nat
  regs_map : UMap Tuple
  output_regs : Tuple

namespace HashJoin

/-- The constructor `HashJoin::HashJoin`. -/
def mk0 (input_left input_right : List Tuple) (attr_index_left attr_index_right : Nat) :
    HashJoin :=
  ⟨input_left, input_right, attr_index_left, attr_index_right, [], []⟩

/-- The loop of `HashJoin::open`: `regs_map[registers.at(attr_index_left)] = registers`
for every tuple of the left child; `at` throws on a bad index. -/
def build (L : StdLib) (attr_index_left : Nat) : List Tuple → UMap Tuple → Option (UMap Tuple)
  | [], m => some m
  | registers :: rest, m =>
    match registers[attr_index_left]? with
    | none => none
    | some k => build L attr_index_left rest (UMap.assign L m k registers)

/-- `HashJoin::open`. -/
def «open» (L : StdLib) (s : HashJoin) : Option HashJoin :=
  match build L s.attr_index_left s.input_left s.regs_map with
  | none => none
  | some m => some { s with input_left := [], regs_map := m }

/-- The loop of `HashJoin::next` over the right child: the first tuple whose key is in
`regs_map` gives `leftTuple ++ inputs`; the result carries what is left of the child. -/
def probe (L : StdLib) (attr_index_right : Nat) (m : UMap Tuple) :
    List Tuple → Option (Option Tuple × List Tuple)
  | [] => some (none, [])
  | inputs :: rest =>
    match inputs[attr_index_right]? with
    | none => none
    | some k =>
      match UMap.find L m k with
      | some e => some (some (e.2 ++ inputs), rest)
      | none => probe L attr_index_right m rest

/-- `HashJoin::next`. -/
def next (L : StdLib) (s : HashJoin) : Option (Bool × HashJoin) :=
  match probe L s.attr_index_right s.regs_map s.input_right with
  | none => none
  | some (some leftTuple, rest) =>
    some (true, { s with input_right := rest, output_regs := leftTuple })
  | some (none, rest) => some (false, { s with input_right := rest })

/-- `HashJoin::get_output`. -/
def get_output (s : HashJoin) : Tuple × HashJoin := (s.output_regs, s)

/-- The tuples a consumer receives from a `HashJoin` over the two inputs: `open`, then
`next` until it returns false.  One call of `next` per right tuple and a last one
suffice. -/
def run (L : StdLib) (left right : List Tuple) (attr_index_left attr_index_right : Nat) :
    Option (List Tuple) :=
  match «open» L (mk0 left right attr_index_left attr_index_right) with
  | none => none
  | some s => drive (next L) get_output (right.length + 1) s

/-- Whether the join keys of a left tuple `l` and a right tuple `r` are `==`. -/
def keyMatch (L : StdLib) (attr_index_left attr_index_right : Nat) (l r : Tuple) : Bool :=
  match l[attr_index_left]?, r[attr_index_right]? with
  | some a, some b => Register.eq L a b
  | _, _ => false

/-- Whether the join key of a left tuple is `==` to the register `k`. -/
def keyIs (L : StdLib) (attr_index_left : Nat) (k : Register) (l : Tuple) : Bool :=
  match l[attr_index_left]? with
  | some a => Register.eq L a k
  | none => false

/-- What one round of the loop of `HashJoin::next` makes of the right tuple `r` under
the map `m`: the joined tuple when the key of `r` is in the map. -/
def joined (L : StdLib) (attr_index_right : Nat) (m : UMap Tuple) (r : Tuple) : Option Tuple :=
  match r[attr_index_right]? with
  | some k => (UMap.find L m k).map (fun e => e.2 ++ r)
  | none => none

end HashJoin

/-! ## Sort -/

/-- The struct `Sort::Criterion`. -/
structure Criterion where
  /-- Attribute to be sorted. -/
  attr_index : Nat
  /-- Sort descending? -/
  desc : Bool
  deriving DecidableEq, Repr

/-- The class `Sort` (`Sort` is a reserved word of Lean); `input` is the child. -/
structure SortOp where
  input : List Tuple
  current_index : Nat
  isFinished : Bool
  output_regs : Tuple
  registers : List Tuple
  criteria : List Criterion

namespace SortOp

/-- The constructor `Sort::Sort`. -/
def mk0 (input : List Tuple) (criteria : List Criterion) : SortOp :=
  ⟨input, 0, false, [], [], criteria⟩

/-- The unchecked `regs[attr_index]` of a `std::vector<Register>`.  An index out of
range is undefined behaviour in C++; the embedding reads `Register.int 0` there, and
the theorems assume the indices in range. -/
def col (regs : Tuple) (attr_index : Nat) : Register := regs.getD attr_index (Register.int 0)

/-- The comparator of `Sort::next`: `regs1[c.attr_index] > regs2[c.attr_index]`. -/
def comp (c : Criterion) (regs1 regs2 : Tuple) : Bool :=
  Register.gt (col regs1 c.attr_index) (col regs2 c.attr_index)

/-- The loop `for (const auto& c : criteria) if (c.desc) std::sort(..)` of
`Sort::next`: one pass of `std::sort` per descending criterion, in list order. -/
def sortPasses (L : StdLib) : List Criterion → List Tuple → List Tuple
  | [], registers => registers
  | c :: cs, registers =>
    if c.desc then sortPasses L cs (L.sort (comp c) registers) else sortPasses L cs registers

/-- The first part of `Sort::next`: clears `output_regs` and, on the first call,
drains the child into `registers` and sorts. -/
def materialize (L : StdLib) (s : SortOp) : SortOp :=
  if s.isFinished then { s with output_regs := [] }
  else
    { s with
      output_regs := []
      input := []
      registers := sortPasses L s.criteria (s.registers ++ s.input)
      isFinished := true }

/-- `Sort::next`. -/
def next (L : StdLib) (s : SortOp) : Bool × SortOp :=
  let s1 := materialize L s
  match s1.registers[s1.current_index]? with
  | some regs => (true, { s1 with output_regs := regs, current_index := s1.current_index + 1 })
  | none => (false, s1)

/-- `Sort::get_output`. -/
def get_output (s : SortOp) : Tuple × SortOp := (s.output_regs, s)

/-- The tuples a consumer receives from a `Sort` over `input`: `next` until it returns
false.  One call per input tuple and a last one suffice. -/
def run (L : StdLib) (criteria : List Criterion) (input : List Tuple) : Option (List Tuple) :=
  drive (fun s => some (next L s)) get_output (input.length + 1) (mk0 input criteria)

/-- The state of a `Sort` after `n` calls of `next` (`get_output` leaves the state as it
is). -/
def after (L : StdLib) : Nat → SortOp → SortOp
  | 0, s => s
  | n + 1, s => after L n (next L s).2

/-- The input is well-typed for the columns `Sort::next` compares, those of the
descending criteria: every tuple has the column, and the column holds one variant (the
assertion of `operator>`). -/
def WellTyped (criteria : List Criterion) (input : List Tuple) : Prop :=
  ∀ c ∈ criteria, c.desc = true →
    (∀ t ∈ input, c.attr_index < t.length) ∧
    ∀ t1 ∈ input, ∀ t2 ∈ input,
      Register.sameType (col t1 c.attr_index) (col t2 c.attr_index) = true

/-- The tuples `t1` and `t2` tie on every criterion column: on none of them is one
greater than the other. -/
def ties (criteria : List Criterion) (t1 t2 : Tuple) : Bool :=
  criteria.all (fun c => !comp c t1 t2 && !comp c t2 t1)

/-- The order the specification asks of `Sort` (section 4.5), written from its words:
the criteria are compared in list order, the leftmost being the primary key; a
descending criterion puts the greater value first, an ascending one the smaller; a tie
on every criterion allows both orders.  `specBefore criteria t1 t2` says that `t1` may
be emitted before `t2`. -/
def specBefore : List Criterion → Tuple → Tuple → Bool
  | [], _, _ => true
  | c :: cs, t1, t2 =>
    if c.desc then
      if Register.gt (col t1 c.attr_index) (col t2 c.attr_index) then true
      else if Register.gt (col t2 c.attr_index) (col t1 c.attr_index) then false
      else specBefore cs t1 t2
    else
      if Register.lt (col t1 c.attr_index) (col t2 c.attr_index) then true
      else if Register.lt (col t2 c.attr_index) (col t1 c.attr_index) then false
      else specBefore cs t1 t2

end SortOp

/-! ## The bag operators `UnionAll`, `IntersectAll`, `ExceptAll` -/

/-- The value of an `int` after an arithmetic result `x`: reduced to 32 bits, two's
complement. -/
def wrapInt32 (x : Int) : Int := Int.bmod x 4294967296

/-- `m[k]++` on a `std::unordered_map<Register, int, RegisterHasher>`: increments the
count of the entry with key `==` to `k`, or inserts `(k, 1)`. -/
def UMap.incr (L : StdLib) : UMap Int → Register → UMap Int
  | [], k => [(k, wrapInt32 (0 + 1))]
  | e :: m, k =>
    if Register.eq L e.1 k then (e.1, wrapInt32 (e.2 + 1)) :: m else e :: UMap.incr L m k

/-- The count a map holds for the key `k`, `0` when it has no entry for it. -/
def UMap.countOf (L : StdLib) (m : UMap Int) (k : Register) : Int :=
  match UMap.find L m k with
  | some e => e.2
  | none => 0

/-- The loop `while (input->next()) for (reg : input->get_output()) m[*reg]++;`: every
register of every tuple of the child is counted. -/
def countRegisters (L : StdLib) (input : List Tuple) (m : UMap Int) : UMap Int :=
  input.foldl (fun acc regs => regs.foldl (UMap.incr L) acc) m

/-- The loop `for (int i = lo; i < hi; i++) registers.emplace_back(r);`. -/
def pushTimes (lo hi : Int) (r : Register) : List Register := List.replicate (hi - lo).toNat r

/-- The fields shared by the classes `Union`, `UnionAll`, `Intersect`, `IntersectAll`,
`Except` and `ExceptAll`; `input_left` and `input_right` are the children. -/
structure SetOp where
  input_left : List Tuple
  input_right : List Tuple
  counter : Int
  isFinished : Bool
  output_regs : List Register
  registers : List Register

namespace SetOp

/-- The constructor of each of the six classes. -/
def mk0 (input_left input_right : List Tuple) : SetOp := ⟨input_left, input_right, 0, false, [], []⟩

/-- The comparator `[&](const Register& a, const Register& b) { return a < b; }`. -/
def comp (a b : Register) : Bool := Register.lt a b

/-- The first part of `next` in each class: on the first call the operator drains both
children, appends what `collect` computes from them to `registers` and sorts. -/
def materialize (L : StdLib) (collect : List Tuple → List Tuple → List Register) (s : SetOp) :
    SetOp :=
  if s.isFinished then s
  else
    { s with
      input_left := []
      input_right := []
      registers := L.sort comp (s.registers ++ collect s.input_left s.input_right)
      isFinished := true }

/-- The last part of `next` in each class:
`if (counter < static_cast<int>(registers.size())) { output_regs.emplace_back(registers[counter]); counter++; return true; } return false;` -/
def emit (s : SetOp) : Bool × SetOp :=
  if s.counter < wrapInt32 s.registers.length then
    (true, { s with
      output_regs := s.output_regs ++ [s.registers.getD s.counter.toNat (Register.int 0)]
      counter := wrapInt32 (s.counter + 1) })
  else (false, s)

/-- The `get_output` of each class: the pointers to the elements of `output_regs` are
collected and `output_regs` is then cleared, which destroys the registers they point
to.  The first component is what is read through the returned handles. -/
def get_output (L : StdLib) (s : SetOp) : List (Outcome Register) × SetOp :=
  (s.output_regs.map (Register.afterDestroy L), { s with output_regs := [] })

/-- The number of registers of an input, over all its tuples. -/
def size (input : List Tuple) : Nat := (input.map List.length).sum

/-- The `next` of each class: materialise on the first call, then emit. -/
def next (L : StdLib) (collect : List Tuple → List Tuple → List Register) (s : SetOp) :
    Bool × SetOp :=
  emit (materialize L collect s)

/-- The tuples a consumer reads from a set operator: `next` until it returns false,
reading the handles of `get_output` after every successful call.  One call per register
of the two inputs and a last one suffice. -/
def run (L : StdLib) (collect : List Tuple → List Tuple → List Register)
    (left right : List Tuple) : Option (List Tuple) :=
  driveRead (fun s => Outcome.value (next L collect s)) (get_output L)
    (size left + size right + 1) (mk0 left right)

/-- The inputs of a set operator have a single column of one variant: every tuple has
one register, and all registers are of the same type (the assertion of `operator<`). -/
def SingleColumn (left right : List Tuple) : Prop :=
  (∀ t ∈ left ++ right, t.length = 1) ∧
  ∀ t1 ∈ left ++ right, ∀ t2 ∈ left ++ right, ∀ r1 ∈ t1, ∀ r2 ∈ t2,
    Register.sameType r1 r2 = true

/-- The number of tuples of `input` that are `==` to `t`. -/
def mult (L : StdLib) (input : List Tuple) (t : Tuple) : Nat :=
  input.countP (fun u => Tuple.eq L u t)

/-- No two different registers of `input` are `==`: the hashes of its values do not
collide. -/
def NoCollision (L : StdLib) (input : List Tuple) : Prop :=
  ∀ t1 ∈ input, ∀ t2 ∈ input, ∀ r1 ∈ t1, ∀ r2 ∈ t2, Register.eq L r1 r2 = true → r1 = r2

end SetOp

namespace UnionAll

/-- The body of `UnionAll::next` between draining and sorting: one map counts the
registers of both children, and every key is pushed as many times as it was counted. -/
def collect (L : StdLib) (left right : List Tuple) : List Register :=
  let registers_map := countRegisters L right (countRegisters L left [])
  (L.iter registers_map).flatMap (fun reg => pushTimes 0 reg.2 reg.1)

/-- `UnionAll::next`. -/
def next (L : StdLib) (s : SetOp) : Bool × SetOp := SetOp.next L (collect L) s

/-- The tuples `UnionAll` emits over the two inputs. -/
def run (L : StdLib) (left right : List Tuple) : Option (List Tuple) :=
  SetOp.run L (collect L) left right

end UnionAll

namespace IntersectAll

/-- One round of the loop over `left_registers` in `IntersectAll::next`. -/
def pushEntry (L : StdLib) (right_registers : UMap Int) (reg : Register × Int) : List Register :=
  match UMap.find L right_registers reg.1 with
  | some found =>
    if reg.2 ≤ found.2 then pushTimes 0 reg.2 reg.1 else pushTimes 0 found.2 found.1
  | none => []

/-- The body of `IntersectAll::next` between draining and sorting. -/
def collect (L : StdLib) (left right : List Tuple) : List Register :=
  let left_registers := countRegisters L left []
  let right_registers := countRegisters L right []
  (L.iter left_registers).flatMap (pushEntry L right_registers)

/-- `IntersectAll::next`. -/
def next (L : StdLib) (s : SetOp) : Bool × SetOp := SetOp.next L (collect L) s

/-- The tuples `IntersectAll` emits over the two inputs. -/
def run (L : StdLib) (left right : List Tuple) : Option (List Tuple) :=
  SetOp.run L (collect L) left right

end IntersectAll

namespace ExceptAll

/-- One round of the loop over `left_registers` in `ExceptAll::next`. -/
def pushEntry (L : StdLib) (right_registers : UMap Int) (reg : Register × Int) : List Register :=
  match UMap.find L right_registers reg.1 with
  | some found => if reg.2 > found.2 then pushTimes found.2 reg.2 reg.1 else []
  | none => pushTimes 0 reg.2 reg.1

/-- The body of `ExceptAll::next` between draining and sorting. -/
def collect (L : StdLib) (left right : List Tuple) : List Register :=
  let left_registers := countRegisters L left []
  let right_registers := countRegisters L right []
  (L.iter left_registers).flatMap (pushEntry L right_registers)

/-- `ExceptAll::next`. -/
def next (L : StdLib) (s : SetOp) : Bool × SetOp := SetOp.next L (collect L) s

/-- The tuples `ExceptAll` emits over the two inputs. -/
def run (L : StdLib) (left right : List Tuple) : Option (List Tuple) :=
  SetOp.run L (collect L) left right

end ExceptAll

/-! ## What the standard promises of the library -/

/-- The comparator `comp` induces a strict weak ordering on the elements of `l`: it is
irreflexive and transitive, and so is the equivalence "neither is smaller". -/
structure StrictWeak {α : Type} (comp : α → α → Bool) (l : List α) : Prop where
  irrefl : ∀ a ∈ l, comp a a = false
  trans : ∀ a ∈ l, ∀ b ∈ l, ∀ c ∈ l, comp a b = true → comp b c = true → comp a c = true
  equiv_trans : ∀ a ∈ l, ∀ b ∈ l, ∀ c ∈ l, comp a b = false → comp b a = false →
    comp b c = false → comp c b = false → comp a c = false ∧ comp c a = false

/-- A sequence is sorted with respect to `comp` when no element is smaller than an
element before it. -/
def SortedBy {α : Type} (comp : α → α → Bool) (l : List α) : Prop :=
  List.Pairwise (fun a b => comp b a = false) l

/-- The guarantees of the C++ standard: on a comparator that is a strict weak ordering
of the elements, `std::sort` permutes the sequence into a sorted one; iterating over an
`unordered_map` visits every entry once. -/
structure StdLib.Conforms (L : StdLib) : Prop where
  sort_perm : ∀ {α : Type} (comp : α → α → Bool) (l : List α), StrictWeak comp l →
    (L.sort comp l).Perm l
  sort_sorted : ∀ {α : Type} (comp : α → α → Bool) (l : List α), StrictWeak comp l →
    SortedBy comp (L.sort comp l)
  iter_perm : ∀ {β : Type} (m : List (Register × β)), (L.iter m).Perm m

/-- The values of an `int64_t`. -/
def isInt64 (v : Int) : Prop := -9223372036854775808 ≤ v ∧ v < 9223372036854775808

/-- No two `int64_t` values have the same `std::hash<int64_t>`.  This holds of the
libraries whose hash of an integer is the integer itself; the standard does not
promise it. -/
def StdLib.IntHashInjective (L : StdLib) : Prop :=
  ∀ a b : Int, isInt64 a → isInt64 b → L.hashInt a = L.hashInt b → a = b

/-- The equivalence of a comparator: neither element is smaller than the other. -/
def equivBy {α : Type} (comp : α → α → Bool) (x y : α) : Bool := !comp x y && !comp y x

/-- A sort is stable when it keeps the elements of every equivalence class of `comp` in
their order.  The standard does not promise this of `std::sort`. -/
def StdLib.StableSort (L : StdLib) : Prop :=
  ∀ {α : Type} (comp : α → α → Bool) (l : List α), StrictWeak comp l → ∀ x ∈ l,
    (L.sort comp l).filter (equivBy comp x) = l.filter (equivBy comp x)

/-- The lexicographic comparator with `comp` as primary and `acc` as secondary key. -/
def lexComp {α : Type} (comp acc : α → α → Bool) (a b : α) : Bool :=
  comp a b || (!comp b a && acc a b)

/-- The comparator that the passes of `Sort::next` over `criteria` realise when every
pass is stable, starting from tuples ordered by `acc`: each descending criterion
becomes the primary key in its turn, so the last one is the most significant. -/
def SortOp.passComp : List Criterion → (Tuple → Tuple → Bool) → Tuple → Tuple → Bool
  | [], acc => acc
  | c :: cs, acc =>
    if c.desc then SortOp.passComp cs (lexComp (SortOp.comp c) acc) else SortOp.passComp cs acc

/-- The list `m` is the stable sort of `input` by `acc`: a permutation of it, sorted,
with every equivalence class in its input order. -/
def StableSorted {α : Type} (acc : α → α → Bool) (input m : List α) : Prop :=
  m.Perm input ∧ SortedBy acc m ∧
    ∀ x ∈ input, m.filter (equivBy acc x) = input.filter (equivBy acc x)

/-! ## Reference instance of the library -/

/-- Insertion of `x` into a sorted list, before the first element that is not smaller
than `x` under `comp`. -/
def orderedInsert {α : Type} (comp : α → α → Bool) (x : α) : List α → List α
  | [] => [x]
  | y :: ys => if comp y x then y :: orderedInsert comp x ys else x :: y :: ys

/-- Insertion sort: a sorting routine that keeps equivalent elements in their order. -/
def insertionSort {α : Type} (comp : α → α → Bool) : List α → List α
  | [] => []
  | x :: xs => orderedInsert comp x (insertionSort comp xs)

/-- A hash of byte strings without collisions: the bytes read as digits `1..256` in
base 257. -/
def polyHash (s : List Byte) : Nat := s.foldl (fun h b => h * 257 + (b.val + 1)) 0

/-- A reference library: integers hash to themselves as 64-bit unsigned values (as in
libstdc++ and libc++), strings hash without collisions, the sort is insertion sort, maps
are visited in insertion order, and strings of up to 15 bytes are kept in place (as in
libstdc++). -/
def refLib : StdLib where
  hashInt := fun v => (v % 18446744073709551616).toNat
  hashStr := polyHash
  sort := fun comp l => insertionSort comp l
  iter := fun m => m
  inPlace := 15


/-! ## The set operators `Union`, `Intersect`, `Except` -/

namespace Union

/-- The body of `Union::next` between draining and sorting: one map counts the registers
of both children, and every key is pushed once. -/
def collect (L : StdLib) (left right : List Tuple) : List Register :=
  let registers_map := countRegisters L right (countRegisters L left [])
  (L.iter registers_map).flatMap (fun reg => [reg.1])

/-- `Union::next`. -/
def next (L : StdLib) (s : SetOp) : Bool × SetOp := SetOp.next L (collect L) s

/-- The tuples `Union` emits over the two inputs. -/
def run (L : StdLib) (left right : List Tuple) : Option (List Tuple) :=
  SetOp.run L (collect L) left right

end Union

namespace Intersect

/-- One round of the loop over `left_registers` in `Intersect::next`: the key is pushed
when `right_registers.find` finds it. -/
def pushEntry (L : StdLib) (right_registers : UMap Int) (reg : Register × Int) : List Register :=
  match UMap.find L right_registers reg.1 with
  | some _ => [reg.1]
  | none => []

/-- The body of `Intersect::next` between draining and sorting. -/
def collect (L : StdLib) (left right : List Tuple) : List Register :=
  let left_registers := countRegisters L left []
  let right_registers := countRegisters L right []
  (L.iter left_registers).flatMap (pushEntry L right_registers)

/-- `Intersect::next`. -/
def next (L : StdLib) (s : SetOp) : Bool × SetOp := SetOp.next L (collect L) s

/-- The tuples `Intersect` emits over the two inputs. -/
def run (L : StdLib) (left right : List Tuple) : Option (List Tuple) :=
  SetOp.run L (collect L) left right

end Intersect

namespace Except

/-- One round of the loop over `left_registers` in `Except::next`: the key is pushed
when `right_registers.find` does not find it. -/
def pushEntry (L : StdLib) (right_registers : UMap Int) (reg : Register × Int) : List Register :=
  match UMap.find L right_registers reg.1 with
  | some _ => []
  | none => [reg.1]

/-- The body of `Except::next` between draining and sorting. -/
def collect (L : StdLib) (left right : List Tuple) : List Register :=
  let left_registers := countRegisters L left []
  let right_registers := countRegisters L right []
  (L.iter left_registers).flatMap (pushEntry L right_registers)

/-- `Except::next`. -/
def next (L : StdLib) (s : SetOp) : Bool × SetOp := SetOp.next L (collect L) s

/-- The tuples `Except` emits over the two inputs. -/
def run (L : StdLib) (left right : List Tuple) : Option (List Tuple) :=
  SetOp.run L (collect L) left right

end Except

/-! ## Projection -/

/-- The register at position `i` of a tuple, for `i` in range: what the unchecked
`*regs[i]` of `Select::next` reads, and what `Projection::next` reads when its reads are
defined.  An index out of range is undefined behaviour in C++; the embedding has
`Register.int 0` there, and the theorems about `Select` assume the indices in range. -/
def regAt (regs : Tuple) (i : Nat) : Register := regs.getD i (Register.int 0)

/-- The class `Projection`; `input` is the child. -/
structure Projection where
  input : List Tuple
  attr_indexes : List Nat
  output_regs : List Register
  deriving DecidableEq

namespace Projection

/-- The constructor `Projection::Projection`. -/
def mk0 (input : List Tuple) (attr_indexes : List Nat) : Projection := ⟨input, attr_indexes, []⟩

/-- The reads `*regs[attr_index]` of `Projection::next`, in the order of
`attr_indexes`, where `regs` holds what is read through each of the handles that the
`get_output` of the child returned.  The index is not checked: a read out of range is
undefined, and so is a read through a handle to a register that did not survive its
destruction. -/
def readColumns (regs : List (Outcome Register)) : List Nat → Outcome (List Register)
  | [] => Outcome.value []
  | attr_index :: attr_indexes =>
    match regs[attr_index]?, readColumns regs attr_indexes with
    | some (Outcome.value r), Outcome.value rs => Outcome.value (r :: rs)
    | _, _ => Outcome.undefined

/-- `Projection::next` over a child that hands out live registers: the registers at
`attr_indexes` are appended to `output_regs`. -/
def next (s : Projection) : Outcome (Bool × Projection) :=
  match s.input with
  | [] => Outcome.value (false, s)
  | regs :: rest =>
    match readColumns (regs.map Outcome.value) s.attr_indexes with
    | Outcome.value columns =>
      Outcome.value (true, { s with input := rest, output_regs := s.output_regs ++ columns })
    | Outcome.reported => Outcome.reported
    | Outcome.undefined => Outcome.undefined

/-- `Projection::get_output`: the pointers to the elements of `output_regs` are
collected and `output_regs` is then cleared, which destroys the registers they point
to.  The first component is what is read through the returned handles. -/
def get_output (L : StdLib) (s : Projection) : List (Outcome Register) × Projection :=
  (s.output_regs.map (Register.afterDestroy L), { s with output_regs := [] })

/-- The tuples a consumer reads from a `Projection` over `input`, reading the handles
of `get_output` once after every successful `next`. -/
def run (L : StdLib) (attr_indexes : List Nat) (input : List Tuple) : Option (List Tuple) :=
  driveRead next (get_output L) (input.length + 1) (mk0 input attr_indexes)

end Projection

/-! ## Select -/

/-- The enum `Select::PredicateType`. -/
inductive PredicateType where
  | EQ
  | NE
  | LT
  | LE
  | GT
  | GE
  deriving DecidableEq, Repr

/-- The predicate of a `Select`: one of the structs `PredicateAttributeInt64`,
`PredicateAttributeChar16` and `PredicateAttributeAttribute`, as chosen by the
constructor (the tag `predicateAttribute`). -/
inductive Predicate where
  | INT (attr_index : Nat) (constant : Int) (predicate_type : PredicateType)
  | CHAR (attr_index : Nat) (constant : List Byte) (predicate_type : PredicateType)
  | ATTRIBUTE (attr_left_index attr_right_index : Nat) (predicate_type : PredicateType)
  deriving DecidableEq, Repr

/-- The class `Select`; `input` is the child. -/
structure Select where
  input : List Tuple
  output_regs : List Register
  predicate : Predicate

namespace Select

/-- The constructors `Select::Select`. -/
def mk0 (input : List Tuple) (predicate : Predicate) : Select := ⟨input, [], predicate⟩

/-- The statement `if (cond) for (const auto& reg : regs) output_regs.emplace_back(*reg);`
on the cleared `output_regs`. -/
def pass (cond : Bool) (regs : Tuple) : List Register := if cond then regs else []

/-- The switch of `Select::next` over the three shapes and the six comparators, for the
tuple `regs` of the child: the new `output_regs`. -/
def filter (L : StdLib) (predicate : Predicate) (regs : Tuple) : List Register :=
  match predicate with
  | Predicate.INT attr_index constant predicate_type =>
    match predicate_type with
    | PredicateType.EQ =>
      pass (Register.eq L (regAt regs attr_index) (Register.from_int constant)) regs
    | PredicateType.NE =>
      pass (Register.ne L (regAt regs attr_index) (Register.from_int constant)) regs
    | PredicateType.LT =>
      pass (Register.lt (regAt regs attr_index) (Register.from_int constant)) regs
    | PredicateType.LE =>
      pass (Register.le (regAt regs attr_index) (Register.from_int constant)) regs
    | PredicateType.GT =>
      pass (Register.gt (regAt regs attr_index) (Register.from_int constant)) regs
    | PredicateType.GE =>
      pass (Register.ge (regAt regs attr_index) (Register.from_int constant)) regs
  | Predicate.CHAR attr_index constant predicate_type =>
    match predicate_type with
    | PredicateType.EQ =>
      pass (Register.eq L (regAt regs attr_index) (Register.from_string constant)) regs
    | PredicateType.NE =>
      pass (Register.ne L (regAt regs attr_index) (Register.from_string constant)) regs
    | PredicateType.LT =>
      pass (Register.lt (regAt regs attr_index) (Register.from_string constant)) regs
    | PredicateType.LE =>
      pass (Register.le (regAt regs attr_index) (Register.from_string constant)) regs
    | PredicateType.GT =>
      pass (Register.gt (regAt regs attr_index) (Register.from_string constant)) regs
    | PredicateType.GE =>
      pass (Register.ge (regAt regs attr_index) (Register.from_string constant)) regs
  | Predicate.ATTRIBUTE attr_left_index attr_right_index predicate_type =>
    match predicate_type with
    | PredicateType.EQ =>
      pass (Register.eq L (regAt regs attr_left_index) (regAt regs attr_right_index)) regs
    | PredicateType.NE =>
      pass (Register.ne L (regAt regs attr_left_index) (regAt regs attr_right_index)) regs
    | PredicateType.LT =>
      pass (Register.lt (regAt regs attr_left_index) (regAt regs attr_right_index)) regs
    | PredicateType.LE =>
      pass (Register.le (regAt regs attr_left_index) (regAt regs attr_right_index)) regs
    | PredicateType.GT =>
      pass (Register.gt (regAt regs attr_left_index) (regAt regs attr_right_index)) regs
    | PredicateType.GE =>
      pass (Register.ge (regAt regs attr_left_index) (regAt regs attr_right_index)) regs

/-- `Select::next`: true for every tuple of the child, with `output_regs` the tuple when
the predicate holds and empty otherwise; false, with `output_regs` untouched, when the
child is exhausted. -/
def next (L : StdLib) (s : Select) : Bool × Select :=
  match s.input with
  | [] => (false, s)
  | regs :: rest => (true, { s with input := rest, output_regs := filter L s.predicate regs })

/-- `Select::get_output`. -/
def get_output (s : Select) : Tuple × Select := (s.output_regs, s)

/-- The state of a `Select` after `n` calls of `next` (`get_output` leaves the state as
it is). -/
def after (L : StdLib) : Nat → Select → Select
  | 0, s => s
  | n + 1, s => after L n (next L s).2

/-- The outputs a consumer reads from a `Select` over `input`, one after every
successful `next`: the empty tuple stands for a filtered tuple. -/
def run (L : StdLib) (predicate : Predicate) (input : List Tuple) : Option (List Tuple) :=
  drive (fun s => some (next L s)) get_output (input.length + 1) (mk0 input predicate)

end Select

/-- The comparison `a ⊙ b` of two registers with the operators of `Register`. -/
def PredicateType.eval (L : StdLib) (predicate_type : PredicateType) (a b : Register) : Bool :=
  match predicate_type with
  | PredicateType.EQ => Register.eq L a b
  | PredicateType.NE => Register.ne L a b
  | PredicateType.LT => Register.lt a b
  | PredicateType.LE => Register.le a b
  | PredicateType.GT => Register.gt a b
  | PredicateType.GE => Register.ge a b

/-- The complementary comparator: `=` and `≠`, `<` and `≥`, `>` and `≤` are swapped. -/
def PredicateType.complement : PredicateType → PredicateType
  | PredicateType.EQ => PredicateType.NE
  | PredicateType.NE => PredicateType.EQ
  | PredicateType.LT => PredicateType.GE
  | PredicateType.GE => PredicateType.LT
  | PredicateType.GT => PredicateType.LE
  | PredicateType.LE => PredicateType.GT

/-- The complementary predicate: the same operands with the complementary comparator. -/
def Predicate.complement : Predicate → Predicate
  | Predicate.INT i c t => Predicate.INT i c t.complement
  | Predicate.CHAR i c t => Predicate.CHAR i c t.complement
  | Predicate.ATTRIBUTE i j t => Predicate.ATTRIBUTE i j t.complement

/-- Whether the predicate holds of the tuple `regs`: `regs[i] ⊙ c`, or
`regs[i] ⊙ regs[j]`. -/
def Predicate.holds (L : StdLib) (predicate : Predicate) (regs : Tuple) : Bool :=
  match predicate with
  | Predicate.INT i c t => t.eval L (regAt regs i) (Register.from_int c)
  | Predicate.CHAR i c t => t.eval L (regAt regs i) (Register.from_string c)
  | Predicate.ATTRIBUTE i j t => t.eval L (regAt regs i) (regAt regs j)

/-- The input of a `Select` is well-typed for the predicate: the compared columns exist
in every tuple, and an order comparator compares registers of one variant (the
assertion of the order operators). -/
def Predicate.WellTyped (predicate : Predicate) (input : List Tuple) : Prop :=
  match predicate with
  | Predicate.INT i _ t => ∀ regs ∈ input, i < regs.length ∧
      (t = PredicateType.EQ ∨ t = PredicateType.NE ∨
        (regAt regs i).get_type = RegisterType.INT64)
  | Predicate.CHAR i _ t => ∀ regs ∈ input, i < regs.length ∧
      (t = PredicateType.EQ ∨ t = PredicateType.NE ∨
        (regAt regs i).get_type = RegisterType.CHAR16)
  | Predicate.ATTRIBUTE i j t => ∀ regs ∈ input, i < regs.length ∧ j < regs.length ∧
      (t = PredicateType.EQ ∨ t = PredicateType.NE ∨
        Register.sameType (regAt regs i) (regAt regs j) = true)

/-! ## HashAggregation -/

/-- The enum `HashAggregation::AggrFunc::Func`. -/
inductive AggrFunc.Func where
  | MIN
  | MAX
  | SUM
  | COUNT
  deriving DecidableEq, Repr

/-- The struct `HashAggregation::AggrFunc`. -/
structure AggrFunc where
  func : AggrFunc.Func
  attr_index : Nat
  deriving DecidableEq, Repr

/-- The statement
`if (sumMap.find(k) != sumMap.end()) sumMap[k] += v; else sumMap.insert({k, v});` on a
`std::unordered_map<Register, int, RegisterHasher>`: the `int` sum is reduced to 32
bits. -/
def UMap.addTo (L : StdLib) : UMap Int → Register → Int → UMap Int
  | [], k, v => [(k, v)]
  | e :: m, k, v =>
    if Register.eq L e.1 k then (e.1, wrapInt32 (e.2 + v)) :: m else e :: UMap.addTo L m k v

/-- The class `HashAggregation`; `input` is the child. -/
structure HashAggregation where
  input : List Tuple
  isFinished : Bool
  counter : Int
  numberOfKeys : Int
  temp_sumcount_registers : List (List Register)
  group_by_attrs : List Nat
  aggr_funcs : List AggrFunc
  output_regs : List Register

namespace HashAggregation

/-- The local variables of `HashAggregation::next`. -/
structure Locals where
  countMap : UMap Int
  sumMap : UMap Int
  minRegister : Option Register
  maxRegister : Option Register

/-- The locals as `next` declares them: empty maps and empty optionals. -/
def Locals.init : Locals := ⟨[], [], none, none⟩

/-- The constructor `HashAggregation::HashAggregation`. -/
def mk0 (input : List Tuple) (group_by_attrs : List Nat) (aggr_funcs : List AggrFunc) :
    HashAggregation :=
  ⟨input, false, 0, 0, [], group_by_attrs, aggr_funcs, []⟩

/-- The statement `if (!minRegister || r < *minRegister) minRegister = r;`. -/
def updateMin (minRegister : Option Register) (r : Register) : Option Register :=
  match minRegister with
  | none => some r
  | some m => if Register.lt r m then some r else some m

/-- The statement `if (!maxRegister || r > *maxRegister) maxRegister = r;`. -/
def updateMax (maxRegister : Option Register) (r : Register) : Option Register :=
  match maxRegister with
  | none => some r
  | some m => if Register.gt r m then some r else some m

/-- One round of the loop over `aggr_funcs` for the child tuple `regs`: the `switch`.
`SUM` adds `static_cast<int>(regs[attr_index].as_int())` under every group-by register
of the tuple, `COUNT` increments the count of every group-by register. -/
def step (L : StdLib) (group_by_attrs : List Nat) (regs : Tuple) (acc : Locals)
    (aggr_func : AggrFunc) : Locals :=
  match aggr_func.func with
  | AggrFunc.Func.MAX =>
    { acc with maxRegister := updateMax acc.maxRegister (regAt regs aggr_func.attr_index) }
  | AggrFunc.Func.MIN =>
    { acc with minRegister := updateMin acc.minRegister (regAt regs aggr_func.attr_index) }
  | AggrFunc.Func.SUM =>
    { acc with
      sumMap := group_by_attrs.foldl
        (fun m attr =>
          UMap.addTo L m (regAt regs attr) (wrapInt32 (regAt regs aggr_func.attr_index).as_int))
        acc.sumMap }
  | AggrFunc.Func.COUNT =>
    { acc with
      countMap := group_by_attrs.foldl (fun m attr => UMap.incr L m (regAt regs attr))
        acc.countMap }

/-- The loop `while (input->next())` of `next`: every aggregate function is applied to
every tuple of the child. -/
def drain (L : StdLib) (group_by_attrs : List Nat) (aggr_funcs : List AggrFunc)
    (input : List Tuple) : Locals :=
  input.foldl (fun acc regs => aggr_funcs.foldl (step L group_by_attrs regs) acc) Locals.init

/-- The keys of `sumMap` in the order of iteration, sorted with `operator<`. -/
def keys (L : StdLib) (locals : Locals) : List Register :=
  L.sort Register.lt ((L.iter locals.sumMap).map Prod.fst)

/-- The rows `[key, sumMap[key], countMap[key]]` built for the sorted keys; `countMap[key]`
is `0` for a key without an entry. -/
def rows (L : StdLib) (locals : Locals) : List (List Register) :=
  (keys L locals).map (fun key =>
    [key, Register.from_int (UMap.countOf L locals.sumMap key),
      Register.from_int (UMap.countOf L locals.countMap key)])

/-- The block `if (!isFinished) { ... }` of `next` after the child is drained into
`locals`: when `sumMap` is not empty the rows are appended to `temp_sumcount_registers`
and `numberOfKeys` is set; `isFinished` becomes true. -/
def materialize (L : StdLib) (locals : Locals) (s : HashAggregation) : HashAggregation :=
  if s.isFinished then s
  else if locals.sumMap.length ≠ 0 then
    { s with
      input := []
      numberOfKeys := wrapInt32 ((L.iter locals.sumMap).map Prod.fst).length
      temp_sumcount_registers := s.temp_sumcount_registers ++ rows L locals
      isFinished := true }
  else { s with input := [], isFinished := true }

/-- The end of `next`: the row `[min]` or `[min, max]` when this call saw a minimum,
else the next row of `temp_sumcount_registers`, else false. -/
def emit (locals : Locals) (s : HashAggregation) : Bool × HashAggregation :=
  match locals.minRegister with
  | some mn =>
    (true, { s with
      output_regs := s.output_regs ++ [mn] ++
        (match locals.maxRegister with
          | some mx => [mx]
          | none => []) })
  | none =>
    if s.counter < s.numberOfKeys then
      (true, { s with
        output_regs := s.temp_sumcount_registers.getD s.counter.toNat []
        counter := wrapInt32 (s.counter + 1) })
    else (false, s)

/-- `HashAggregation::next`: `output_regs` is cleared and the locals are declared; the
first call drains the child into them. -/
def next (L : StdLib) (s : HashAggregation) : Bool × HashAggregation :=
  let locals :=
    if s.isFinished then Locals.init else drain L s.group_by_attrs s.aggr_funcs s.input
  emit locals (materialize L locals { s with output_regs := [] })

/-- `HashAggregation::get_output`. -/
def get_output (s : HashAggregation) : Tuple × HashAggregation := (s.output_regs, s)

/-- The state of a `HashAggregation` after `n` calls of `next` (`get_output` leaves the
state as it is). -/
def after (L : StdLib) : Nat → HashAggregation → HashAggregation
  | 0, s => s
  | n + 1, s => after L n (next L s).2

/-- The tuples a consumer receives from a `HashAggregation` over `input`: `next` until it
returns false.  There is at most one row per child tuple and group-by attribute, one row
of minimum and maximum, and a last call. -/
def run (L : StdLib) (group_by_attrs : List Nat) (aggr_funcs : List AggrFunc)
    (input : List Tuple) : Option (List Tuple) :=
  drive (fun s => some (next L s)) get_output (input.length * group_by_attrs.length + 2)
    (mk0 input group_by_attrs aggr_funcs)

end HashAggregation

/-! ## Print -/

/-- `std::to_string(long long)`: the decimal digits of the value, after a minus sign
when it is negative. -/
def to_string (value : Int) : List Byte :=
  (if value < 0 then ascii "-" else []) ++
    (Nat.toDigits 10 value.natAbs).map (fun c => Fin.ofNat c.toNat)

/-- The class `Print`; `input` is the child and `stream` the bytes written so far to
the `std::ostream`. -/
structure Print where
  input : List Tuple
  stream : List Byte

namespace Print

/-- The constructor `Print::Print`, on a stream without bytes. -/
def mk0 (input : List Tuple) : Print := ⟨input, []⟩

/-- The bytes appended to `str` for one register, before the comma:
`std::to_string(reg->as_int())` for an `INT64` register, `reg->as_string()` otherwise. -/
def render (reg : Register) : List Byte :=
  if reg.get_type = RegisterType.INT64 then to_string reg.as_int else reg.as_string

/-- The loop `for (const auto& reg : regs) str += ... + ","` of `Print::next`. -/
def format (regs : Tuple) : List Byte :=
  regs.foldl (fun str reg => str ++ (render reg ++ ascii ",")) []

/-- `Print::next`: for a tuple with registers, `str.substr(0, str.size() - 1) + '\n'`
is written to the stream. -/
def next (s : Print) : Bool × Print :=
  match s.input with
  | [] => (false, s)
  | regs :: rest =>
    if regs.length ≠ 0 then
      (true, { input := rest,
               stream := s.stream ++
                 ((format regs).take ((format regs).length - 1) ++ [(10 : Byte)]) })
    else (true, { s with input := rest })

/-- `Print::get_output`: "Print has no output". -/
def get_output (s : Print) : Tuple × Print := ([], s)

/-- The loop `while (print.next()) {}` for at most `fuel` calls of `next`: the state
once `next` has returned false. -/
def exhaust : Nat → Print → Option Print
  | 0, _ => none
  | fuel + 1, s =>
    match next s with
    | (false, s1) => some s1
    | (true, s1) => exhaust fuel s1

/-- The bytes a `Print` over `input` has written when it is driven to exhaustion. -/
def run (input : List Tuple) : Option (List Byte) :=
  (exhaust (input.length + 1) (mk0 input)).map (fun s => s.stream)

/-- The line of the specification for one tuple: nothing for an empty tuple, and
otherwise the rendered columns joined by single commas and followed by one newline. -/
def specLine (regs : Tuple) : List Byte :=
  match regs with
  | [] => []
  | _ :: _ => List.intercalate [(44 : Byte)] (regs.map render) ++ [(10 : Byte)]

end Print

/-! ## A Projection over a Projection -/

/-- A `Projection` whose child is a `Projection`: `child` is the state of the inner
operator. -/
structure Projection.Nested where
  child : Projection
  attr_indexes : List Nat
  output_regs : List Register
  deriving DecidableEq

namespace Projection.Nested

/-- The outer `Projection` with list `outer` over an inner `Projection` with list
`inner` over `input`. -/
def mk0 (input : List Tuple) (inner outer : List Nat) : Projection.Nested :=
  ⟨Projection.mk0 input inner, outer, []⟩

/-- `Projection::next` of the outer operator: `input->next()` and `input->get_output()`
are those of the inner `Projection`, so the outer operator reads its columns through
handles to registers that the inner `get_output` has destroyed. -/
def next (L : StdLib) (s : Projection.Nested) : Outcome (Bool × Projection.Nested) :=
  match Projection.next s.child with
  | Outcome.value (false, c) => Outcome.value (false, { s with child := c })
  | Outcome.value (true, c) =>
    match Projection.readColumns (Projection.get_output L c).1 s.attr_indexes with
    | Outcome.value columns =>
      Outcome.value (true, { s with
        child := (Projection.get_output L c).2
        output_regs := s.output_regs ++ columns })
    | Outcome.reported => Outcome.reported
    | Outcome.undefined => Outcome.undefined
  | Outcome.reported => Outcome.reported
  | Outcome.undefined => Outcome.undefined

/-- `Projection::get_output` of the outer operator. -/
def get_output (L : StdLib) (s : Projection.Nested) :
    List (Outcome Register) × Projection.Nested :=
  (s.output_regs.map (Register.afterDestroy L), { s with output_regs := [] })

/-- The tuples a consumer reads from the outer `Projection`, reading the handles of
`get_output` once after every successful `next`. -/
def run (L : StdLib) (inner outer : List Nat) (input : List Tuple) : Option (List Tuple) :=
  driveRead (next L) (get_output L) (input.length + 1) (mk0 input inner outer)

end Projection.Nested

/-! ## Later calls -/

/-- The state of a set operator after further calls: one `next` per entry of `gets`,
followed by a `get_output` when the entry is true. -/
def SetOp.after (L : StdLib) (collect : List Tuple → List Tuple → List Register) :
    List Bool → SetOp → SetOp
  | [], s => s
  | g :: gs, s =>
    SetOp.after L collect gs
      (if g then (SetOp.get_output L (SetOp.next L collect s).2).2
        else (SetOp.next L collect s).2)

/-! ## A library with 64-bit hashes -/

/-- A library whose hashes are 64-bit values, as `std::hash` returns `size_t`: as
`refLib`, with the hash of a string reduced to 64 bits. -/
def lib64 : StdLib where
  hashInt := refLib.hashInt
  hashStr := fun s => polyHash s % 18446744073709551616
  sort := refLib.sort
  iter := refLib.iter
  inPlace := refLib.inPlace

/-! ## The `std::sort` of libstdc++

The functions of `bits/stl_algo.h` and `bits/stl_heap.h` (GCC 12) behind `std::sort`, on
a vector as a list with positions counted from `begin()`: introsort down to ranges of 16
elements, with heap sort when the depth limit is reached, then one insertion sort. -/

namespace gnu

/-- `std::iter_swap(first + i, first + j)` on the vector `v`. -/
def iterSwap {α : Type} (v : List α) (i j : Nat) : List α :=
  match v[i]?, v[j]? with
  | some a, some b => (v.set i b).set j a
  | _, _ => v

/-- The assignment `*(first + i) = *(first + j)`. -/
def assignAt {α : Type} (v : List α) (i j : Nat) : List α :=
  match v[j]? with
  | some b => v.set i b
  | none => v

/-- The call `comp(first + i, first + j)` of a comparator on two positions of `v`. -/
def compAt {α : Type} (comp : α → α → Bool) (v : List α) (i j : Nat) : Bool :=
  match v[i]?, v[j]? with
  | some a, some b => comp a b
  | _, _ => false

/-- `std::__lg(n)`: the position of the highest bit of `n`. -/
def lg : Nat → Nat → Nat
  | 0, _ => 0
  | fuel + 1, n => if 2 ≤ n then lg fuel (n / 2) + 1 else 0

/-- `std::__unguarded_linear_insert`: `val` is moved towards the front of the range,
past every element `next` with `comp(val, next)`.  The argument lists the elements
before `val` from the nearest one to the first one; so does the result, with `val` in
its place. -/
def unguardedLinearInsert {α : Type} (comp : α → α → Bool) (val : α) : List α → List α
  | [] => [val]
  | next :: before => if comp val next then next :: unguardedLinearInsert comp val before
    else val :: next :: before

/-- One round of the loop of `std::__insertion_sort`: `before` lists the sorted elements
before `*i` from the nearest one to the first one.  When `comp(i, first)`, `*i` is moved
to the front, else it is inserted by `__unguarded_linear_insert`. -/
def insertionStep {α : Type} (comp : α → α → Bool) (before : List α) (val : α) : List α :=
  match before.getLast? with
  | none => [val]
  | some first => if comp val first then before ++ [val]
    else unguardedLinearInsert comp val before

/-- `std::__insertion_sort(first, last, comp)` on the whole vector. -/
def insertionSort {α : Type} (comp : α → α → Bool) (v : List α) : List α :=
  (v.foldl (insertionStep comp) []).reverse

/-- `std::__final_insertion_sort(first, last, comp)` on the whole vector:
`__insertion_sort` on the first 16 elements, `__unguarded_insertion_sort` on the rest. -/
def finalInsertionSort {α : Type} (comp : α → α → Bool) (v : List α) : List α :=
  if v.length > 16 then
    ((v.drop 16).foldl (fun before val => unguardedLinearInsert comp val before)
      (insertionSort comp (v.take 16)).reverse).reverse
  else insertionSort comp v

/-- `std::__move_median_to_first(result, a, b, c, comp)`. -/
def moveMedianToFirst {α : Type} (comp : α → α → Bool) (v : List α) (result a b c : Nat) :
    List α :=
  if compAt comp v a b then
    if compAt comp v b c then iterSwap v result b
    else if compAt comp v a c then iterSwap v result c
    else iterSwap v result a
  else if compAt comp v a c then iterSwap v result a
  else if compAt comp v b c then iterSwap v result c
  else iterSwap v result b

/-- The loop `while (comp(first, pivot)) ++first;`: the position at which it stops. -/
def scanUp {α : Type} (comp : α → α → Bool) (v : List α) (pivot : Nat) : Nat → Nat → Nat
  | 0, first => first
  | fuel + 1, first =>
    if compAt comp v first pivot then scanUp comp v pivot fuel (first + 1) else first

/-- The loop `while (comp(pivot, last)) --last;`: the position at which it stops. -/
def scanDown {α : Type} (comp : α → α → Bool) (v : List α) (pivot : Nat) : Nat → Nat → Nat
  | 0, last => last
  | fuel + 1, last =>
    if compAt comp v pivot last then scanDown comp v pivot fuel (last - 1) else last

/-- `std::__unguarded_partition(first, last, pivot, comp)`: the vector and the cut. -/
def unguardedPartition {α : Type} (comp : α → α → Bool) (pivot : Nat) :
    Nat → List α → Nat → Nat → List α × Nat
  | 0, v, first, _ => (v, first)
  | fuel + 1, v, first, last =>
    if scanUp comp v pivot v.length first <
        scanDown comp v pivot v.length (last - 1) then
      unguardedPartition comp pivot fuel
        (iterSwap v (scanUp comp v pivot v.length first)
          (scanDown comp v pivot v.length (last - 1)))
        (scanUp comp v pivot v.length first + 1)
        (scanDown comp v pivot v.length (last - 1))
    else (v, scanUp comp v pivot v.length first)

/-- `std::__unguarded_partition_pivot(first, last, comp)`. -/
def unguardedPartitionPivot {α : Type} (comp : α → α → Bool) (v : List α) (first last : Nat) :
    List α × Nat :=
  unguardedPartition comp first v.length
    (moveMedianToFirst comp v first (first + 1) (first + (last - first) / 2) (last - 1))
    (first + 1) last

/-- `std::__push_heap(first, holeIndex, topIndex, value, comp)`. -/
def pushHeap {α : Type} (comp : α → α → Bool) (first topIndex : Nat) (value : α) :
    Nat → List α → Nat → List α
  | 0, v, holeIndex => v.set (first + holeIndex) value
  | fuel + 1, v, holeIndex =>
    match v[first + (holeIndex - 1) / 2]? with
    | some parent =>
      if topIndex < holeIndex ∧ comp parent value = true then
        pushHeap comp first topIndex value fuel (v.set (first + holeIndex) parent)
          ((holeIndex - 1) / 2)
      else v.set (first + holeIndex) value
    | none => v.set (first + holeIndex) value

/-- The loop of `std::__adjust_heap`: the vector, `holeIndex` and `secondChild` after
it. -/
def adjustHeapLoop {α : Type} (comp : α → α → Bool) (first len : Nat) :
    Nat → List α → Nat → Nat → List α × Nat × Nat
  | 0, v, holeIndex, secondChild => (v, holeIndex, secondChild)
  | fuel + 1, v, holeIndex, secondChild =>
    if secondChild < (len - 1) / 2 then
      if compAt comp v (first + 2 * (secondChild + 1)) (first + (2 * (secondChild + 1) - 1)) then
        adjustHeapLoop comp first len fuel
          (assignAt v (first + holeIndex) (first + (2 * (secondChild + 1) - 1)))
          (2 * (secondChild + 1) - 1) (2 * (secondChild + 1) - 1)
      else
        adjustHeapLoop comp first len fuel
          (assignAt v (first + holeIndex) (first + 2 * (secondChild + 1)))
          (2 * (secondChild + 1)) (2 * (secondChild + 1))
    else (v, holeIndex, secondChild)

/-- `std::__adjust_heap(first, holeIndex, len, value, comp)`. -/
def adjustHeap {α : Type} (comp : α → α → Bool) (v : List α) (first holeIndex len : Nat)
    (value : α) : List α :=
  match adjustHeapLoop comp first len len v holeIndex holeIndex with
  | (v1, holeIndex1, secondChild1) =>
    if len % 2 = 0 ∧ secondChild1 = (len - 2) / 2 then
      pushHeap comp first holeIndex value len
        (assignAt v1 (first + holeIndex1) (first + (2 * (secondChild1 + 1) - 1)))
        (2 * (secondChild1 + 1) - 1)
    else pushHeap comp first holeIndex value len v1 holeIndex1

/-- The loop of `std::__make_heap`, from `parent` down to 0. -/
def makeHeapLoop {α : Type} (comp : α → α → Bool) (first len : Nat) : Nat → List α → List α
  | 0, v =>
    match v[first]? with
    | some value => adjustHeap comp v first 0 len value
    | none => v
  | parent + 1, v =>
    match v[first + (parent + 1)]? with
    | some value => makeHeapLoop comp first len parent (adjustHeap comp v first (parent + 1) len value)
    | none => v

/-- `std::__make_heap(first, last, comp)`. -/
def makeHeap {α : Type} (comp : α → α → Bool) (v : List α) (first last : Nat) : List α :=
  if last - first < 2 then v else makeHeapLoop comp first (last - first) ((last - first - 2) / 2) v

/-- `std::__pop_heap(first, last, result, comp)` with `result = last`. -/
def popHeap {α : Type} (comp : α → α → Bool) (v : List α) (first last : Nat) : List α :=
  match v[last]? with
  | some value => adjustHeap comp (assignAt v last first) first 0 (last - first) value
  | none => v

/-- `std::__sort_heap(first, last, comp)`; `n` is `last - first`. -/
def sortHeap {α : Type} (comp : α → α → Bool) (first : Nat) : Nat → List α → List α
  | 0, v => v
  | n + 1, v => if 1 < n + 1 then sortHeap comp first n (popHeap comp v first (first + n)) else v

/-- `std::__partial_sort(first, last, last, comp)`: heap sort of the range. -/
def partialSort {α : Type} (comp : α → α → Bool) (v : List α) (first last : Nat) : List α :=
  sortHeap comp first (last - first) (makeHeap comp v first last)

/-- `std::__introsort_loop(first, last, depth_limit, comp)`. -/
def introsortLoop {α : Type} (comp : α → α → Bool) :
    Nat → List α → Nat → Nat → Nat → List α
  | 0, v, _, _, _ => v
  | fuel + 1, v, first, last, depth_limit =>
    if 16 < last - first then
      if depth_limit = 0 then partialSort comp v first last
      else
        introsortLoop comp fuel
          (introsortLoop comp fuel (unguardedPartitionPivot comp v first last).1
            (unguardedPartitionPivot comp v first last).2 last (depth_limit - 1))
          first (unguardedPartitionPivot comp v first last).2 (depth_limit - 1)
    else v

/-- `std::sort(first, last, comp)` of libstdc++ on the whole vector. -/
def sort {α : Type} (comp : α → α → Bool) (v : List α) : List α :=
  if v.length = 0 then v
  else finalInsertionSort comp
    (introsortLoop comp v.length v 0 v.length (lg v.length v.length * 2))

end gnu

/-- The library libstdc++ as far as `Sort` depends on it: as `refLib`, with the
`std::sort` of libstdc++. -/
def gnuLib : StdLib where
  hashInt := refLib.hashInt
  hashStr := refLib.hashStr
  sort := fun comp v => gnu.sort comp v
  iter := refLib.iter
  inPlace := refLib.inPlace

/-! # Theorems -/

/-! ## Register equality is an equivalence -/

theorem Register.eq_refl (L : StdLib) (a : Register) : Register.eq L a a = true := by
  simp [Register.eq]

theorem Register.eq_symm (L : StdLib) {a b : Register} (h : Register.eq L a b = true) :
    Register.eq L b a = true := by
  simp only [Register.eq, beq_iff_eq] at h ⊢
  exact h.symm

theorem Register.eq_trans (L : StdLib) {a b c : Register} (h1 : Register.eq L a b = true)
    (h2 : Register.eq L b c = true) : Register.eq L a c = true := by
  simp only [Register.eq, beq_iff_eq] at h1 h2 ⊢
  exact h1.trans h2

theorem Register.eq_congr_right (L : StdLib) {a b : Register} (h : Register.eq L a b = true)
    (c : Register) : Register.eq L c a = Register.eq L c b := by
  simp only [Register.eq, beq_iff_eq] at h
  simp only [Register.eq, h]

theorem Register.eq_congr_left (L : StdLib) {a b : Register} (h : Register.eq L a b = true)
    (c : Register) : Register.eq L a c = Register.eq L b c := by
  simp only [Register.eq, beq_iff_eq] at h
  simp only [Register.eq, h]

theorem UMap.find_assign {β : Type} (L : StdLib) (m : UMap β) (k : Register) (v : β)
    (k2 : Register) :
    (UMap.find L (UMap.assign L m k v) k2).map Prod.snd =
      if Register.eq L k k2 then some v else (UMap.find L m k2).map Prod.snd := by
  induction m with
  | nil =>
    by_cases h : Register.eq L k k2 = true <;> simp [UMap.assign, UMap.find, List.find?, h]
  | cons e m ih =>
    simp only [UMap.assign]
    by_cases hek : Register.eq L e.1 k = true
    · simp only [hek, if_true]
      rw [← Register.eq_congr_left L hek k2]
      by_cases h2 : Register.eq L e.1 k2 = true <;> simp [UMap.find, List.find?, h2]
    · simp only [hek]
      simp only [UMap.find] at ih ⊢
      by_cases h2 : Register.eq L e.1 k2 = true
      · have hk : Register.eq L k k2 = false := by
          cases hkk : Register.eq L k k2 with
          | false => rfl
          | true =>
            exact absurd (Register.eq_trans L h2 (Register.eq_symm L hkk)) hek
        simp [List.find?, h2, hk]
      · simp only [Bool.false_eq_true, if_false, List.find?, h2]
        exact ih

theorem UMap.find_key {β : Type} (L : StdLib) (m : UMap β) (k : Register) (e : Register × β)
    (h : UMap.find L m k = some e) : Register.eq L e.1 k = true := by
  have := List.find?_some h
  simpa using this

namespace HashJoin

/-- The map built from in-range left tuples: it exists, and a lookup finds the last
left tuple with that key, or else what the map held before. -/
theorem build_find (L : StdLib) (aL : Nat) (left : List Tuple) (hl : ∀ l ∈ left, aL < l.length) :
    ∀ m0 : UMap Tuple, ∃ m, build L aL left m0 = some m ∧ ∀ k,
      (UMap.find L m k).map Prod.snd =
        ((left.reverse.find? (keyIs L aL k)).or ((UMap.find L m0 k).map Prod.snd)) := by
  induction left with
  | nil => intro m0; exact ⟨m0, rfl, fun k => by simp⟩
  | cons t ts ih =>
    intro m0
    have ht : aL < t.length := hl t (List.mem_cons_self _ _)
    have hget : t[aL]? = some t[aL] := List.getElem?_eq_getElem ht
    obtain ⟨m, hm, hfind⟩ := ih (fun l h => hl l (List.mem_cons_of_mem _ h))
      (UMap.assign L m0 t[aL] t)
    refine ⟨m, ?_, ?_⟩
    · simp only [build, hget]; exact hm
    · intro k
      rw [hfind k, UMap.find_assign, List.reverse_cons, List.find?_append]
      cases hts : List.find? (keyIs L aL k) ts.reverse with
      | some l => simp
      | none =>
        simp only [Option.none_or, Option.or_none, List.find?, keyIs, hget]
        cases hk : Register.eq L t[aL] k <;> simp

/-- What a right tuple is joined to under the map `m`. -/
theorem probe_cons (L : StdLib) (aR : Nat) (m : UMap Tuple) (r : Tuple) (rest : List Tuple)
    (k : Register) (hk : r[aR]? = some k) :
    probe L aR m (r :: rest) =
      match UMap.find L m k with
      | some e => some (some (e.2 ++ r), rest)
      | none => probe L aR m rest := by
  rw [probe]
  simp only [hk]

theorem drive_eq (L : StdLib) (il : List Tuple) (aL aR : Nat) (m : UMap Tuple) :
    ∀ (rs : List Tuple) (fuel : Nat) (o : Tuple), rs.length < fuel →
      (∀ r ∈ rs, aR < r.length) →
      drive (next L) get_output fuel ⟨il, rs, aL, aR, m, o⟩ =
        some (rs.filterMap (joined L aR m)) := by
  intro rs
  induction rs with
  | nil =>
    intro fuel o hf _
    obtain ⟨f, rfl⟩ : ∃ f, fuel = f + 1 := ⟨fuel - 1, by omega⟩
    simp [drive, next, probe]
  | cons r rest ih =>
    intro fuel o hf hr
    obtain ⟨f, rfl⟩ : ∃ f, fuel = f + 1 := ⟨fuel - 1, by omega⟩
    have hra : aR < r.length := hr r (List.mem_cons_self _ _)
    have hget : r[aR]? = some r[aR] := List.getElem?_eq_getElem hra
    have hj : joined L aR m r = (UMap.find L m r[aR]).map (fun e => e.2 ++ r) := by
      simp only [joined, hget]
    have hrest : ∀ x ∈ rest, aR < x.length := fun x h => hr x (List.mem_cons_of_mem _ h)
    simp only [List.length_cons] at hf
    cases hfind : UMap.find L m r[aR] with
    | some e =>
      have hnext : next L ⟨il, r :: rest, aL, aR, m, o⟩ =
          some (true, ⟨il, rest, aL, aR, m, e.2 ++ r⟩) := by
        simp only [next, probe_cons L aR m r rest _ hget, hfind]
      rw [drive, hnext]
      simp only [get_output]
      rw [ih f (e.2 ++ r) (by omega) hrest]
      simp [List.filterMap_cons, hj, hfind]
    | none =>
      have hnext : next L ⟨il, r :: rest, aL, aR, m, o⟩ = next L ⟨il, rest, aL, aR, m, o⟩ := by
        simp only [next, probe_cons L aR m r rest _ hget, hfind]
      have hd : drive (next L) get_output (f + 1) ⟨il, r :: rest, aL, aR, m, o⟩ =
          drive (next L) get_output (f + 1) ⟨il, rest, aL, aR, m, o⟩ := by
        rw [drive, drive, hnext]
      rw [hd, ih (f + 1) o (by omega) hrest]
      simp [List.filterMap_cons, hj, hfind]

/-- With the join columns in range, `HashJoin` returns, for every right tuple in order,
the last left tuple with an `==` key followed by the right tuple, when there is one. -/
theorem join_run_eq (L : StdLib) (left right : List Tuple) (aL aR : Nat)
    (hl : ∀ l ∈ left, aL < l.length) (hr : ∀ r ∈ right, aR < r.length) :
    run L left right aL aR =
      some (right.filterMap (fun r =>
        (left.reverse.find? (fun l => keyMatch L aL aR l r)).map (fun l => l ++ r))) := by
  obtain ⟨m, hm, hfind⟩ := build_find L aL left hl []
  have hopen : «open» L (mk0 left right aL aR) = some ⟨[], right, aL, aR, m, []⟩ := by
    simp only [«open», mk0, hm]
  rw [run, hopen]
  simp only
  rw [drive_eq L [] aL aR m right (right.length + 1) [] (Nat.lt_succ_self _) hr]
  congr 1
  apply List.filterMap_congr
  intro r hrm
  obtain ⟨k, hget⟩ : ∃ k, r[aR]? = some k := ⟨_, List.getElem?_eq_getElem (hr r hrm)⟩
  have hkey : (fun l => keyMatch L aL aR l r) = keyIs L aL k := by
    funext l
    simp only [keyMatch, keyIs, hget]
    cases l[aL]? <;> rfl
  have h := hfind k
  have hnil : UMap.find L ([] : UMap Tuple) k = none := rfl
  rw [hnil, Option.map_none', Option.or_none] at h
  rw [joined, hget, hkey]
  simp only
  rw [← h]
  cases UMap.find L m k <;> rfl

end HashJoin

theorem refLib_intHashInjective : refLib.IntHashInjective := by
  intro a b ha hb h
  simp only [refLib] at h
  unfold isInt64 at ha hb
  have h1 : (0 : Int) ≤ a % 18446744073709551616 := Int.emod_nonneg _ (by norm_num)
  have h2 : (0 : Int) ≤ b % 18446744073709551616 := Int.emod_nonneg _ (by norm_num)
  have h3 : a % 18446744073709551616 = b % 18446744073709551616 := by
    have := congrArg (fun n : Nat => (n : Int)) h
    simpa [Int.toNat_of_nonneg h1, Int.toNat_of_nonneg h2] using this
  omega

/-- Two different small integers are not `==` when `std::hash<int64_t>` has no
collisions. -/
theorem Register.eq_int_of_injective (L : StdLib) (hL : L.IntHashInjective) (a b : Int)
    (ha : isInt64 a) (hb : isInt64 b) :
    Register.eq L (Register.int a) (Register.int b) = decide (a = b) := by
  by_cases h : a = b
  · subst h; simp [Register.eq]
  · simp only [Register.eq, Register.get_hash, h, decide_False, beq_eq_false_iff_ne, ne_eq]
    exact fun hh => h (hL a b ha hb hh)

theorem HashJoin.keyMatch_zero (L : StdLib) (a b : Register) (l r : Tuple) :
    HashJoin.keyMatch L 0 0 (a :: l) (b :: r) = Register.eq L a b := by
  simp [HashJoin.keyMatch]

/-- C1 (HashJoin soundness): with the join columns in range, `HashJoin` returns, and
every tuple it emits is `l ++ r` for a tuple `l` of the left input and a tuple `r` of the
right input whose join columns are `==`; on the inputs `[(1,x),(2,y)]` and
`[(2,p),(3,q)]` joined on column 0 it emits `[(2,y,2,p)]` (for a hash of integers without
collisions). -/
theorem HashJoin_sound (L : StdLib) :
    (∀ (left right : List Tuple) (aL aR : Nat),
      (∀ l ∈ left, aL < l.length) → (∀ r ∈ right, aR < r.length) →
      ∃ out, HashJoin.run L left right aL aR = some out ∧
        ∀ t ∈ out, ∃ l ∈ left, ∃ r ∈ right, t = l ++ r ∧
          ∃ a b, l[aL]? = some a ∧ r[aR]? = some b ∧ Register.eq L a b = true) ∧
    (L.IntHashInjective →
      HashJoin.run L
        [[Register.int 1, Register.str (ascii "x")], [Register.int 2, Register.str (ascii "y")]]
        [[Register.int 2, Register.str (ascii "p")], [Register.int 3, Register.str (ascii "q")]]
        0 0 =
      some [[Register.int 2, Register.str (ascii "y"), Register.int 2,
        Register.str (ascii "p")]]) := by
  constructor
  · intro left right aL aR hl hr
    refine ⟨_, HashJoin.join_run_eq L left right aL aR hl hr, ?_⟩
    intro t ht
    rw [List.mem_filterMap] at ht
    obtain ⟨r, hr1, hr2⟩ := ht
    cases hf : List.find? (fun l => HashJoin.keyMatch L aL aR l r) left.reverse with
    | none => rw [hf] at hr2; simp at hr2
    | some l =>
      rw [hf] at hr2
      simp only [Option.map_some', Option.some.injEq] at hr2
      have hmem : l ∈ left := List.mem_reverse.mp (List.mem_of_find?_eq_some hf)
      have hp := List.find?_some hf
      refine ⟨l, hmem, r, hr1, hr2.symm, ?_⟩
      simp only [HashJoin.keyMatch] at hp
      cases ha : l[aL]? with
      | none => rw [ha] at hp; simp at hp
      | some a =>
        cases hb : r[aR]? with
        | none => rw [ha, hb] at hp; simp at hp
        | some b =>
          rw [ha, hb] at hp
          exact ⟨a, b, rfl, rfl, hp⟩
  · intro hL
    have e := Register.eq_int_of_injective L hL
    rw [HashJoin.join_run_eq L _ _ 0 0 (by simp) (by simp)]
    have e22 := e 2 2 (by unfold isInt64; omega) (by unfold isInt64; omega)
    have e23 := e 2 3 (by unfold isInt64; omega) (by unfold isInt64; omega)
    have e13 := e 1 3 (by unfold isInt64; omega) (by unfold isInt64; omega)
    simp only [List.reverse_cons, List.reverse_nil, List.nil_append, List.singleton_append,
      List.filterMap_cons, List.filterMap_nil, List.find?_cons, List.find?_nil,
      HashJoin.keyMatch_zero, e22, e23, e13]
    simp

/-- An entry of `m[k] = v` has the key of an entry of `m`, or the key `k`. -/
theorem UMap.mem_assign_key {β : Type} (L : StdLib) (m : UMap β) (k : Register) (v : β)
    (e : Register × β) (he : e ∈ UMap.assign L m k v) :
    (∃ e0 ∈ m, e0.1 = e.1) ∨ (e.1 = k ∧ ∀ e0 ∈ m, Register.eq L e0.1 k = false) := by
  induction m with
  | nil =>
    simp only [UMap.assign, List.mem_singleton] at he
    subst he
    exact Or.inr ⟨rfl, by simp⟩
  | cons e1 m ih =>
    simp only [UMap.assign] at he
    by_cases h1 : Register.eq L e1.1 k = true
    · simp only [h1, if_true, List.mem_cons] at he
      rcases he with he | he
      · subst he; exact Or.inl ⟨e1, List.mem_cons_self _ _, rfl⟩
      · exact Or.inl ⟨e, List.mem_cons_of_mem _ he, rfl⟩
    · simp only [h1, Bool.false_eq_true, if_false, List.mem_cons] at he
      rcases he with he | he
      · subst he; exact Or.inl ⟨e, List.mem_cons_self _ _, rfl⟩
      · rcases ih he with ⟨e0, h0, h00⟩ | ⟨h0, h00⟩
        · exact Or.inl ⟨e0, List.mem_cons_of_mem _ h0, h00⟩
        · refine Or.inr ⟨h0, ?_⟩
          intro e0 he0
          rcases List.mem_cons.mp he0 with rfl | he0
          · simpa using h1
          · exact h00 e0 he0

theorem UMap.distinct_assign {β : Type} (L : StdLib) (m : UMap β) (k : Register) (v : β)
    (hm : UMap.Distinct L m) : UMap.Distinct L (UMap.assign L m k v) := by
  induction m with
  | nil => simp [UMap.assign, UMap.Distinct]
  | cons e1 m ih =>
    simp only [UMap.Distinct, List.pairwise_cons] at hm
    simp only [UMap.assign]
    by_cases h1 : Register.eq L e1.1 k = true
    · simp only [h1, if_true, UMap.Distinct, List.pairwise_cons]
      exact hm
    · simp only [h1, Bool.false_eq_true, if_false, UMap.Distinct, List.pairwise_cons]
      refine ⟨?_, ih hm.2⟩
      intro e he
      rcases UMap.mem_assign_key L m k v e he with ⟨e0, h0, h00⟩ | ⟨h0, _⟩
      · rw [← h00]; exact hm.1 e0 h0
      · rw [h0]; simpa using h1

/-- A map without `==` keys has at most one entry for a key. -/
theorem UMap.distinct_filter_le_one {β : Type} (L : StdLib) (m : UMap β) (k : Register)
    (hm : UMap.Distinct L m) : (m.filter (fun e => Register.eq L e.1 k)).length ≤ 1 := by
  induction m with
  | nil => simp
  | cons e1 m ih =>
    simp only [UMap.Distinct, List.pairwise_cons] at hm
    by_cases h1 : Register.eq L e1.1 k = true
    · have hnone : m.filter (fun e => Register.eq L e.1 k) = [] := by
        rw [List.filter_eq_nil_iff]
        intro e he hek
        have := hm.1 e he
        rw [Register.eq_trans L h1 (Register.eq_symm L hek)] at this
        exact absurd this (by simp)
      simp [List.filter_cons, h1, hnone]
    · simp only [List.filter_cons, h1, Bool.false_eq_true, if_false]
      exact ih hm.2

namespace HashJoin

theorem build_distinct (L : StdLib) (aL : Nat) (left : List Tuple) :
    ∀ m0 m : UMap Tuple, UMap.Distinct L m0 → build L aL left m0 = some m →
      UMap.Distinct L m := by
  induction left with
  | nil => intro m0 m h0 h; simp only [build, Option.some.injEq] at h; exact h ▸ h0
  | cons t ts ih =>
    intro m0 m h0 h
    rw [build] at h
    cases hk : t[aL]? with
    | none => rw [hk] at h; simp at h
    | some k =>
      rw [hk] at h
      exact ih _ m (UMap.distinct_assign L m0 k t h0) h

end HashJoin

/-- C2 (HashJoin completeness): with the join columns in range, the tuples `HashJoin`
emits are, in order, the right tuples whose join key is `==` to the join key of some
left tuple, each preceded by a tuple of the left input: every matching right tuple
appears, in right-input order, and no other right tuple does. -/
theorem HashJoin_complete (L : StdLib) (left right : List Tuple) (aL aR : Nat)
    (hl : ∀ l ∈ left, aL < l.length) (hr : ∀ r ∈ right, aR < r.length) :
    ∃ ls : List Tuple,
      ls.length =
        (right.filter (fun r => left.any (fun l => HashJoin.keyMatch L aL aR l r))).length ∧
      (∀ l ∈ ls, l ∈ left) ∧
      HashJoin.run L left right aL aR =
        some (List.zipWith (fun l r => l ++ r) ls
          (right.filter (fun r => left.any (fun l => HashJoin.keyMatch L aL aR l r)))) := by
  rw [HashJoin.join_run_eq L left right aL aR hl hr]
  clear hr
  induction right with
  | nil => exact ⟨[], rfl, by simp, rfl⟩
  | cons r rest ih =>
    obtain ⟨ls, hlen, hmem, heq⟩ := ih
    simp only [Option.some.injEq] at heq
    cases hf : List.find? (fun l => HashJoin.keyMatch L aL aR l r) left.reverse with
    | none =>
      have hany : left.any (fun l => HashJoin.keyMatch L aL aR l r) = false := by
        rw [List.any_eq_false]
        intro l hlm
        have := List.find?_eq_none.mp hf l (List.mem_reverse.mpr hlm)
        simpa using this
      refine ⟨ls, ?_, hmem, ?_⟩
      · simp only [List.filter_cons, hany, Bool.false_eq_true, if_false]; exact hlen
      · simp only [List.filterMap_cons, hf, Option.map_none', List.filter_cons, hany,
          Bool.false_eq_true, if_false, heq]
    | some l =>
      have hlm : l ∈ left := List.mem_reverse.mp (List.mem_of_find?_eq_some hf)
      have hany : left.any (fun l => HashJoin.keyMatch L aL aR l r) = true := by
        rw [List.any_eq_true]
        have hp := List.find?_some hf
        exact ⟨l, hlm, hp⟩
      refine ⟨l :: ls, ?_, ?_, ?_⟩
      · simp only [List.filter_cons, hany, if_true, List.length_cons, hlen]
      · intro x hx
        rcases List.mem_cons.mp hx with rfl | hx
        · exact hlm
        · exact hmem x hx
      · simp only [List.filterMap_cons, hf, Option.map_some', List.filter_cons, hany, if_true,
          List.zipWith_cons_cons, heq]

/-- C3 (HashJoin multi-match policy): with the join columns in range, the table that
`open` builds holds at most one entry per join key, whose value is the last left tuple
with that key; each right tuple whose key is in the table gives exactly one output
tuple, that last left tuple followed by the right tuple, and the other right tuples
give none. -/
theorem HashJoin_last_match (L : StdLib) (left right : List Tuple) (aL aR : Nat)
    (hl : ∀ l ∈ left, aL < l.length) (hr : ∀ r ∈ right, aR < r.length) :
    (∃ s, HashJoin.«open» L (HashJoin.mk0 left right aL aR) = some s ∧
      ∀ k : Register,
        (s.regs_map.filter (fun e => Register.eq L e.1 k)).length ≤ 1 ∧
        (UMap.find L s.regs_map k).map Prod.snd =
          left.reverse.find? (HashJoin.keyIs L aL k)) ∧
    HashJoin.run L left right aL aR =
      some (right.filterMap (fun r =>
        (left.reverse.find? (fun l => HashJoin.keyMatch L aL aR l r)).map
          (fun l => l ++ r))) := by
  refine ⟨?_, HashJoin.join_run_eq L left right aL aR hl hr⟩
  obtain ⟨m, hm, hfind⟩ := HashJoin.build_find L aL left hl []
  refine ⟨⟨[], right, aL, aR, m, []⟩, ?_, ?_⟩
  · simp only [HashJoin.«open», HashJoin.mk0, hm]
  · intro k
    refine ⟨UMap.distinct_filter_le_one L m k
      (HashJoin.build_distinct L aL left [] m List.Pairwise.nil hm), ?_⟩
    have h := hfind k
    have hnil : UMap.find L ([] : UMap Tuple) k = none := rfl
    rw [hnil, Option.map_none', Option.or_none] at h
    exact h

/-- Witness of C1 at the reference library. -/
theorem HashJoin_sound_witness :
    refLib.IntHashInjective ∧
    (∃ out, HashJoin.run refLib
        [[Register.int 1, Register.str (ascii "x")], [Register.int 1, Register.str (ascii "y")]]
        [[Register.int 1, Register.str (ascii "p")], [Register.int 3]] 0 0 = some out ∧
      ∀ t ∈ out, ∃ l ∈ [[Register.int 1, Register.str (ascii "x")],
          [Register.int 1, Register.str (ascii "y")]],
        ∃ r ∈ [[Register.int 1, Register.str (ascii "p")], [Register.int 3]], t = l ++ r ∧
          ∃ a b, l[0]? = some a ∧ r[0]? = some b ∧ Register.eq refLib a b = true) ∧
    HashJoin.run refLib
      [[Register.int 1, Register.str (ascii "x")], [Register.int 2, Register.str (ascii "y")]]
      [[Register.int 2, Register.str (ascii "p")], [Register.int 3, Register.str (ascii "q")]]
      0 0 =
    some [[Register.int 2, Register.str (ascii "y"), Register.int 2, Register.str (ascii "p")]] :=
  ⟨refLib_intHashInjective,
    (HashJoin_sound refLib).1 _ _ 0 0 (by decide) (by decide),
    (HashJoin_sound refLib).2 refLib_intHashInjective⟩

/-- Witness of C2: two left tuples share the key 1, one right tuple matches. -/
theorem HashJoin_complete_witness :
    (∀ l ∈ [[Register.int 1, Register.str (ascii "x")],
      [Register.int 1, Register.str (ascii "y")]], 0 < l.length) ∧
    (∀ r ∈ [[Register.int 1, Register.str (ascii "p")], [Register.int 3]], 0 < r.length) ∧
    ∃ ls : List Tuple,
      ls.length =
        (([[Register.int 1, Register.str (ascii "p")], [Register.int 3]] : List Tuple).filter
          (fun r => ([[Register.int 1, Register.str (ascii "x")],
            [Register.int 1, Register.str (ascii "y")]] : List Tuple).any
              (fun l => HashJoin.keyMatch refLib 0 0 l r))).length ∧
      (∀ l ∈ ls, l ∈ ([[Register.int 1, Register.str (ascii "x")],
            [Register.int 1, Register.str (ascii "y")]] : List Tuple)) ∧
      HashJoin.run refLib
        [[Register.int 1, Register.str (ascii "x")], [Register.int 1, Register.str (ascii "y")]]
        [[Register.int 1, Register.str (ascii "p")], [Register.int 3]] 0 0 =
        some (List.zipWith (fun l r => l ++ r) ls
          (([[Register.int 1, Register.str (ascii "p")], [Register.int 3]] : List Tuple).filter
            (fun r => ([[Register.int 1, Register.str (ascii "x")],
              [Register.int 1, Register.str (ascii "y")]] : List Tuple).any
                (fun l => HashJoin.keyMatch refLib 0 0 l r)))) :=
  ⟨by decide, by decide, HashJoin_complete refLib _ _ 0 0 (by decide) (by decide)⟩

/-- Witness of C3: of two left tuples with the key 1 the later one is joined. -/
theorem HashJoin_last_match_witness :
    (∀ l ∈ [[Register.int 1, Register.str (ascii "x")],
      [Register.int 1, Register.str (ascii "y")]], 0 < l.length) ∧
    (∀ r ∈ [[Register.int 1, Register.str (ascii "p")], [Register.int 3]], 0 < r.length) ∧
    HashJoin.run refLib
      [[Register.int 1, Register.str (ascii "x")], [Register.int 1, Register.str (ascii "y")]]
      [[Register.int 1, Register.str (ascii "p")], [Register.int 3]] 0 0 =
    some [[Register.int 1, Register.str (ascii "y"), Register.int 1, Register.str (ascii "p")]] :=
  ⟨by decide, by decide,
    (HashJoin_last_match refLib _ _ 0 0 (by decide) (by decide)).2.trans (by decide)⟩

/-! ## The order of registers -/

theorem strCompare_self (a : List Byte) : strCompare a a = 0 := by
  induction a with
  | nil => rfl
  | cons x xs ih => simp [strCompare, ih]

theorem strCompare_swap (a b : List Byte) : strCompare b a = - strCompare a b := by
  induction a generalizing b with
  | nil => cases b <;> simp [strCompare]
  | cons x xs ih =>
    cases b with
    | nil => simp [strCompare]
    | cons y ys =>
      simp only [strCompare]
      by_cases h1 : x < y
      · have h2 : ¬ y < x := not_lt_of_lt h1
        simp [h1, h2]
      · by_cases h2 : y < x
        · simp [h1, h2]
        · simp [h1, h2, ih ys]

theorem strCompare_eq_zero (a b : List Byte) (h : strCompare a b = 0) : a = b := by
  induction a generalizing b with
  | nil => cases b with
    | nil => rfl
    | cons y ys => simp [strCompare] at h
  | cons x xs ih =>
    cases b with
    | nil => simp [strCompare] at h
    | cons y ys =>
      simp only [strCompare] at h
      by_cases h1 : x < y
      · simp [h1] at h
      · by_cases h2 : y < x
        · simp [h1, h2] at h
        · simp only [h1, h2, if_false] at h
          have hxy : x = y := le_antisymm (not_lt.mp h2) (not_lt.mp h1)
          rw [hxy, ih ys h]

theorem strCompare_pos_trans (a b c : List Byte) (h1 : strCompare a b > 0)
    (h2 : strCompare b c > 0) : strCompare a c > 0 := by
  induction a generalizing b c with
  | nil => cases b <;> simp [strCompare] at h1
  | cons x xs ih =>
    cases b with
    | nil => cases c <;> simp [strCompare] at h2
    | cons y ys =>
      cases c with
      | nil => simp [strCompare]
      | cons z zs =>
        simp only [strCompare] at h1 h2 ⊢
        by_cases hxy : x < y
        · simp [hxy] at h1
        · by_cases hyz : y < z
          · simp [hyz] at h2
          · by_cases hyx : y < x
            · have hzx : z < x := lt_of_le_of_lt (not_lt.mp hyz) hyx
              have hxz : ¬ x < z := not_lt_of_lt hzx
              simp [hxz, hzx]
            · by_cases hzy : z < y
              · have hzx : z < x := lt_of_lt_of_le hzy (not_lt.mp hxy)
                have hxz : ¬ x < z := not_lt_of_lt hzx
                simp [hxz, hzx]
              · have e1 : x = y := le_antisymm (not_lt.mp hyx) (not_lt.mp hxy)
                have e2 : y = z := le_antisymm (not_lt.mp hzy) (not_lt.mp hyz)
                subst e1; subst e2
                simp only [hxy, hyx, if_false] at h1 h2 ⊢
                exact ih ys zs h1 h2

theorem Register.gt_irrefl (a : Register) : Register.gt a a = false := by
  cases a <;> simp [Register.gt, Register.get_type, Register.as_int, Register.as_string,
    strCompare_self]

theorem Register.gt_trans {a b c : Register} (hab : Register.sameType a b = true)
    (hbc : Register.sameType b c = true) (h1 : Register.gt a b = true)
    (h2 : Register.gt b c = true) : Register.gt a c = true := by
  cases a <;> cases b <;> cases c <;>
    simp_all [Register.gt, Register.sameType, Register.get_type, Register.as_int,
      Register.as_string]
  · omega
  · exact strCompare_pos_trans _ _ _ h1 h2

/-- Two registers of one variant neither of which is greater are the same value. -/
theorem Register.eq_of_not_gt {a b : Register} (hab : Register.sameType a b = true)
    (h1 : Register.gt a b = false) (h2 : Register.gt b a = false) : a = b := by
  cases a <;> cases b <;>
    simp_all [Register.gt, Register.sameType, Register.get_type, Register.as_int,
      Register.as_string]
  · omega
  · rename_i s1 s2
    have hs := strCompare_swap s1 s2
    exact strCompare_eq_zero s1 s2 (by omega)

/-! ## Strict weak orderings and insertion sort -/

theorem StrictWeak.mono {α : Type} {comp : α → α → Bool} {l l2 : List α}
    (h : StrictWeak comp l) (hsub : ∀ x ∈ l2, x ∈ l) : StrictWeak comp l2 :=
  ⟨fun a ha => h.irrefl a (hsub a ha),
   fun a ha b hb c hc => h.trans a (hsub a ha) b (hsub b hb) c (hsub c hc),
   fun a ha b hb c hc => h.equiv_trans a (hsub a ha) b (hsub b hb) c (hsub c hc)⟩

theorem StrictWeak.asymm {α : Type} {comp : α → α → Bool} {l : List α}
    (h : StrictWeak comp l) {a b : α} (ha : a ∈ l) (hb : b ∈ l) (hab : comp a b = true) :
    comp b a = false := by
  cases hba : comp b a with
  | false => rfl
  | true =>
    have := h.trans a ha b hb a ha hab hba
    rw [h.irrefl a ha] at this
    exact absurd this (by simp)

theorem StrictWeak.negtrans {α : Type} {comp : α → α → Bool} {l : List α}
    (h : StrictWeak comp l) {a b c : α} (ha : a ∈ l) (hb : b ∈ l) (hc : c ∈ l)
    (hab : comp a b = false) (hbc : comp b c = false) : comp a c = false := by
  cases hac : comp a c with
  | false => rfl
  | true =>
    have hba : comp b a = false := by
      cases hba : comp b a with
      | false => rfl
      | true =>
        have := h.trans b hb a ha c hc hba hac
        rw [hbc] at this
        exact absurd this (by simp)
    have hcb : comp c b = false := by
      cases hcb : comp c b with
      | false => rfl
      | true =>
        have := h.trans a ha c hc b hb hac hcb
        rw [hab] at this
        exact absurd this (by simp)
    have := (h.equiv_trans a ha b hb c hc hab hba hbc hcb).1
    rw [hac] at this
    exact absurd this (by simp)

theorem orderedInsert_perm {α : Type} (comp : α → α → Bool) (x : α) (l : List α) :
    (orderedInsert comp x l).Perm (x :: l) := by
  induction l with
  | nil => exact List.Perm.refl _
  | cons y ys ih =>
    simp only [orderedInsert]
    split
    · exact (List.Perm.cons y ih).trans (List.Perm.swap x y ys)
    · exact List.Perm.refl _

theorem insertionSort_perm {α : Type} (comp : α → α → Bool) (l : List α) :
    (insertionSort comp l).Perm l := by
  induction l with
  | nil => exact List.Perm.refl _
  | cons x xs ih =>
    simp only [insertionSort]
    exact (orderedInsert_perm comp x _).trans (List.Perm.cons x ih)

theorem orderedInsert_sorted {α : Type} (comp : α → α → Bool) (x : α) (l : List α)
    (hsw : StrictWeak comp (x :: l)) (hs : SortedBy comp l) :
    SortedBy comp (orderedInsert comp x l) := by
  induction l with
  | nil => simp [orderedInsert, SortedBy]
  | cons y ys ih =>
    have hx : x ∈ x :: y :: ys := List.mem_cons_self _ _
    have hy : y ∈ x :: y :: ys := List.mem_cons_of_mem _ (List.mem_cons_self _ _)
    simp only [SortedBy, List.pairwise_cons] at hs
    simp only [orderedInsert]
    by_cases hyx : comp y x = true
    · simp only [hyx, if_true, SortedBy, List.pairwise_cons]
      refine ⟨?_, ih (hsw.mono (fun z hz => ?_)) hs.2⟩
      · intro z hz
        rcases List.mem_cons.mp ((orderedInsert_perm comp x ys).mem_iff.mp hz) with rfl | hz2
        · exact hsw.asymm hy hx hyx
        · exact hs.1 z hz2
      · rcases List.mem_cons.mp hz with rfl | hz
        · exact hx
        · exact List.mem_cons_of_mem _ (List.mem_cons_of_mem _ hz)
    · have hyx2 : comp y x = false := by simpa using hyx
      simp only [hyx2, Bool.false_eq_true, if_false, SortedBy, List.pairwise_cons]
      refine ⟨?_, hs.1, hs.2⟩
      intro z hz
      rcases List.mem_cons.mp hz with rfl | hz
      · exact hyx2
      · exact hsw.negtrans (List.mem_cons_of_mem _ (List.mem_cons_of_mem _ hz)) hy hx
          (hs.1 z hz) hyx2

theorem insertionSort_sorted {α : Type} (comp : α → α → Bool) (l : List α)
    (hsw : StrictWeak comp l) : SortedBy comp (insertionSort comp l) := by
  induction l with
  | nil => simp [insertionSort, SortedBy]
  | cons x xs ih =>
    simp only [insertionSort]
    apply orderedInsert_sorted
    · exact hsw.mono (fun z hz => by
        rcases List.mem_cons.mp hz with rfl | hz
        · exact List.mem_cons_self _ _
        · exact List.mem_cons_of_mem _ ((insertionSort_perm comp xs).mem_iff.mp hz))
    · exact ih (hsw.mono (fun z hz => List.mem_cons_of_mem _ hz))

/-- Inserting `a` leaves the elements picked by `p` in their order when `a`, if picked,
only passes elements that are not picked. -/
theorem orderedInsert_filter {α : Type} (comp : α → α → Bool) (p : α → Bool) (a : α)
    (l : List α) (h : ∀ y ∈ l, comp y a = true → p a = true → p y = false) :
    (orderedInsert comp a l).filter p = (a :: l).filter p := by
  induction l with
  | nil => rfl
  | cons y ys ih =>
    have ih2 := ih (fun z hz => h z (List.mem_cons_of_mem _ hz))
    simp only [orderedInsert]
    by_cases hya : comp y a = true
    · simp only [hya, if_true]
      rw [List.filter_cons, ih2]
      by_cases hpa : p a = true
      · have hpy := h y (List.mem_cons_self _ _) hya hpa
        simp [List.filter_cons, hpa, hpy]
      · have hpa2 : p a = false := by simpa using hpa
        simp [List.filter_cons, hpa2]
    · simp [hya]

theorem insertionSort_stable {α : Type} (comp : α → α → Bool) (l : List α) (x : α)
    (hsw : StrictWeak comp (x :: l)) :
    (insertionSort comp l).filter (equivBy comp x) = l.filter (equivBy comp x) := by
  induction l with
  | nil => rfl
  | cons a as ih =>
    simp only [insertionSort]
    have hx : x ∈ x :: a :: as := List.mem_cons_self _ _
    have ha2 : a ∈ x :: a :: as := List.mem_cons_of_mem _ (List.mem_cons_self _ _)
    have hmem : ∀ y ∈ insertionSort comp as, y ∈ x :: a :: as := fun y hy =>
      List.mem_cons_of_mem _ (List.mem_cons_of_mem _ ((insertionSort_perm comp as).mem_iff.mp hy))
    rw [orderedInsert_filter]
    · have hrest := ih (hsw.mono (fun z hz => by
        rcases List.mem_cons.mp hz with rfl | hz
        · exact List.mem_cons_self _ _
        · exact List.mem_cons_of_mem _ (List.mem_cons_of_mem _ hz)))
      simp only [List.filter_cons, hrest]
    · intro y hy hya hpa
      have hy2 := hmem y hy
      simp only [equivBy, Bool.and_eq_true, Bool.not_eq_true'] at hpa
      cases hxy : comp x y with
      | true => simp [equivBy, hxy]
      | false =>
        cases hyx : comp y x with
        | true => simp [equivBy, hyx]
        | false =>
          have := (hsw.equiv_trans y hy2 x hx a ha2 hyx hxy hpa.1 hpa.2).1
          rw [hya] at this
          exact absurd this (by simp)

theorem refLib_conforms : refLib.Conforms :=
  ⟨fun comp l _ => insertionSort_perm comp l,
   fun comp l h => insertionSort_sorted comp l h,
   fun m => List.Perm.refl m⟩

theorem refLib_stable : refLib.StableSort := by
  intro α comp l h x hx
  exact insertionSort_stable comp l x (h.mono (fun z hz => by
    rcases List.mem_cons.mp hz with rfl | hz
    · exact hx
    · exact hz))

namespace SortOp

/-- The comparator of a criterion is a strict weak ordering of tuples whose column holds
one variant. -/
theorem criterion_strictWeak (c : Criterion) (l : List Tuple)
    (ht : ∀ t1 ∈ l, ∀ t2 ∈ l,
      Register.sameType (col t1 c.attr_index) (col t2 c.attr_index) = true) :
    StrictWeak (comp c) l := by
  refine ⟨fun a _ => Register.gt_irrefl _, ?_, ?_⟩
  · intro a ha b hb d hd h1 h2
    exact Register.gt_trans (ht a ha b hb) (ht b hb d hd) h1 h2
  · intro a ha b hb d hd h1 h2 h3 h4
    have e1 := Register.eq_of_not_gt (ht a ha b hb) h1 h2
    have e2 := Register.eq_of_not_gt (ht b hb d hd) h3 h4
    simp only [comp, e1, e2, Register.gt_irrefl, and_self]

theorem WellTyped.perm {criteria : List Criterion} {input regs : List Tuple}
    (h : WellTyped criteria input) (hp : regs.Perm input) : WellTyped criteria regs := by
  intro c hc hd
  obtain ⟨h1, h2⟩ := h c hc hd
  exact ⟨fun t ht => h1 t (hp.mem_iff.mp ht),
    fun t1 ht1 t2 ht2 => h2 t1 (hp.mem_iff.mp ht1) t2 (hp.mem_iff.mp ht2)⟩

theorem WellTyped.tail {c : Criterion} {cs : List Criterion} {input : List Tuple}
    (h : WellTyped (c :: cs) input) : WellTyped cs input :=
  fun c2 hc2 hd => h c2 (List.mem_cons_of_mem _ hc2) hd

theorem WellTyped.strictWeak {c : Criterion} {cs : List Criterion} {input : List Tuple}
    (h : WellTyped (c :: cs) input) (hd : c.desc = true) : StrictWeak (comp c) input :=
  criterion_strictWeak c input (h c (List.mem_cons_self _ _) hd).2

/-- The passes of `std::sort` permute the tuples. -/
theorem sortPasses_perm (L : StdLib) (hL : L.Conforms) (criteria : List Criterion) :
    ∀ regs : List Tuple, WellTyped criteria regs → (sortPasses L criteria regs).Perm regs := by
  induction criteria with
  | nil => intro regs _; exact List.Perm.refl _
  | cons c cs ih =>
    intro regs hw
    simp only [sortPasses]
    by_cases hd : c.desc = true
    · simp only [hd, if_true]
      have hp := hL.sort_perm (comp c) regs (hw.strictWeak hd)
      exact (ih _ (hw.tail.perm hp)).trans hp
    · simp only [hd, Bool.false_eq_true, if_false]
      exact ih regs hw.tail

/-- Without a descending criterion no pass of `std::sort` runs. -/
theorem sortPasses_no_desc (L : StdLib) (criteria : List Criterion)
    (h : ∀ c ∈ criteria, c.desc = false) (regs : List Tuple) :
    sortPasses L criteria regs = regs := by
  induction criteria with
  | nil => rfl
  | cons c cs ih =>
    simp only [sortPasses, h c (List.mem_cons_self _ _), Bool.false_eq_true, if_false]
    exact ih (fun c2 hc2 => h c2 (List.mem_cons_of_mem _ hc2))

/-- Once the tuples are materialised, driving `Sort` emits them from `current_index`
on, and then `next` returns false. -/
theorem drive_finished (L : StdLib) (regs : List Tuple) (criteria : List Criterion) :
    ∀ (n i : Nat) (o : Tuple) (fuel : Nat), i + n = regs.length → n < fuel →
      drive (fun s => some (next L s)) get_output fuel ⟨[], i, true, o, regs, criteria⟩ =
        some (regs.drop i) := by
  intro n
  induction n with
  | zero =>
    intro i o fuel hi hf
    obtain ⟨f, rfl⟩ : ∃ f, fuel = f + 1 := ⟨fuel - 1, by omega⟩
    have hnone : regs[i]? = none := List.getElem?_eq_none (by omega)
    have hdrop : regs.drop i = [] := List.drop_eq_nil_of_le (by omega)
    have hnext : next L ⟨[], i, true, o, regs, criteria⟩ =
        (false, ⟨[], i, true, [], regs, criteria⟩) := by
      simp [next, materialize, hnone]
    rw [drive]
    simp only [hnext, hdrop]
  | succ n ih =>
    intro i o fuel hi hf
    obtain ⟨f, rfl⟩ : ∃ f, fuel = f + 1 := ⟨fuel - 1, by omega⟩
    have hlt : i < regs.length := by omega
    have hsome : regs[i]? = some regs[i] := List.getElem?_eq_getElem hlt
    have hdrop : regs.drop i = regs[i] :: regs.drop (i + 1) := List.drop_eq_getElem_cons hlt
    have hih := ih (i + 1) regs[i] f (by omega) (by omega)
    have hnext : next L ⟨[], i, true, o, regs, criteria⟩ =
        (true, ⟨[], i + 1, true, regs[i], regs, criteria⟩) := by
      simp [next, materialize, hsome]
    rw [drive]
    simp only [hnext, get_output, hih, hdrop]

/-- The tuples `Sort` emits are the materialised ones, provided the sort kept their
number. -/
theorem sort_run_eq (L : StdLib) (criteria : List Criterion) (input : List Tuple)
    (hlen : (sortPasses L criteria input).length = input.length) :
    run L criteria input = some (sortPasses L criteria input) := by
  have hnext : next L (mk0 input criteria) =
      next L ⟨[], 0, true, [], sortPasses L criteria input, criteria⟩ := by
    simp [next, materialize, mk0]
  have h := drive_finished L (sortPasses L criteria input) criteria input.length 0 []
    (input.length + 1) (by omega) (by omega)
  rw [List.drop_zero] at h
  rw [← h, run, drive, drive, hnext]

end SortOp

/-! ## Stable sorts: a sequence of stable passes is one stable lexicographic sort -/

theorem equivBy_lexComp {α : Type} (comp acc : α → α → Bool) (x y : α) :
    equivBy (lexComp comp acc) x y = (equivBy comp x y && equivBy acc x y) := by
  simp only [equivBy, lexComp]
  cases comp x y <;> cases comp y x <;> cases acc x y <;> cases acc y x <;> rfl

/-- A list sorted by `R1`, each of whose classes under `E` is sorted by `R2`, is sorted
lexicographically. -/
theorem pairwise_combine {α : Type} (R1 R2 : α → α → Prop) (E : α → α → Bool) (l : List α)
    (h1 : l.Pairwise R1) (h2 : ∀ x ∈ l, (l.filter (E x)).Pairwise R2)
    (hE : ∀ x ∈ l, E x x = true) :
    l.Pairwise (fun a b => R1 a b ∧ (E a b = true → R2 a b)) := by
  induction l with
  | nil => exact List.Pairwise.nil
  | cons a l ih =>
    rw [List.pairwise_cons] at h1 ⊢
    refine ⟨?_, ih h1.2 ?_ (fun x hx => hE x (List.mem_cons_of_mem _ hx))⟩
    · intro b hb
      refine ⟨h1.1 b hb, fun hab => ?_⟩
      have ha := h2 a (List.mem_cons_self _ _)
      rw [List.filter_cons, hE a (List.mem_cons_self _ _), if_pos rfl,
        List.pairwise_cons] at ha
      exact ha.1 b (List.mem_filter.mpr ⟨hb, hab⟩)
    · intro x hx
      have hx2 := h2 x (List.mem_cons_of_mem _ hx)
      rw [List.filter_cons] at hx2
      split at hx2
      · exact (List.pairwise_cons.mp hx2).2
      · exact hx2

/-- One stable pass by `comp` over the stable sort by `acc` gives the stable sort by the
lexicographic comparator. -/
theorem StableSorted.pass {α : Type} (L : StdLib) (hL : L.Conforms) (hS : L.StableSort)
    (comp acc : α → α → Bool) (input m : List α) (hsw : StrictWeak comp input)
    (hm : StableSorted acc input m) :
    StableSorted (lexComp comp acc) input (L.sort comp m) := by
  obtain ⟨hperm, hsorted, hstable⟩ := hm
  have hswm : StrictWeak comp m := hsw.mono (fun x hx => hperm.mem_iff.mp hx)
  have hp := hL.sort_perm comp m hswm
  have hs := hL.sort_sorted comp m hswm
  have hst := hS comp m hswm
  refine ⟨hp.trans hperm, ?_, ?_⟩
  · have hcomb := pairwise_combine (fun a b => comp b a = false) (fun a b => acc b a = false)
      (equivBy comp) (L.sort comp m) hs ?_ ?_
    · refine hcomb.imp ?_
      intro a b hab
      obtain ⟨h1, h2⟩ := hab
      simp only [lexComp, h1, Bool.false_or]
      cases hc : comp a b with
      | true => rfl
      | false =>
        have := h2 (by simp [equivBy, hc, h1])
        simp [this]
    · intro x hx
      rw [hst x (hp.mem_iff.mp hx)]
      exact hsorted.sublist (List.filter_sublist m)
    · intro x hx
      have := hswm.irrefl x (hp.mem_iff.mp hx)
      simp [equivBy, this]
  · intro x hx
    have hxm : x ∈ m := hperm.mem_iff.mpr hx
    have e : equivBy (lexComp comp acc) x = fun y => equivBy comp x y && equivBy acc x y :=
      funext (fun y => equivBy_lexComp comp acc x y)
    calc (L.sort comp m).filter (equivBy (lexComp comp acc) x)
        = ((L.sort comp m).filter (equivBy comp x)).filter (equivBy acc x) := by
          rw [e, List.filter_filter]
          congr 1; funext y; exact Bool.and_comm _ _
      _ = (m.filter (equivBy comp x)).filter (equivBy acc x) := by rw [hst x hxm]
      _ = (m.filter (equivBy acc x)).filter (equivBy comp x) := by
          rw [List.filter_filter, List.filter_filter]
          congr 1; funext y; exact Bool.and_comm _ _
      _ = (input.filter (equivBy acc x)).filter (equivBy comp x) := by rw [hstable x hx]
      _ = input.filter (equivBy (lexComp comp acc) x) := by
          rw [e, List.filter_filter]

/-- Two stable sorts of the same elements by the same comparator are the same list. -/
theorem StableSorted.unique {α : Type} (acc : α → α → Bool) (S : List α)
    (hirr : ∀ x ∈ S, acc x x = false) :
    ∀ m1 m2 : List α, (∀ a ∈ m1, a ∈ S) → SortedBy acc m1 → SortedBy acc m2 → m1.Perm m2 →
      (∀ x ∈ S, m1.filter (equivBy acc x) = m2.filter (equivBy acc x)) → m1 = m2 := by
  intro m1
  induction m1 with
  | nil => intro m2 _ _ _ hp _; exact (List.Perm.nil_eq hp)
  | cons h1 t1 ih =>
    intro m2 hS s1 s2 hp hf
    cases m2 with
    | nil => exact absurd hp.symm (List.not_perm_nil_cons _ _)
    | cons h2 t2 =>
      have h1S : h1 ∈ S := hS h1 (List.mem_cons_self _ _)
      have h2m : h2 ∈ h1 :: t1 := hp.mem_iff.mpr (List.mem_cons_self _ _)
      have h1m : h1 ∈ h2 :: t2 := hp.mem_iff.mp (List.mem_cons_self _ _)
      have h2S : h2 ∈ S := hS h2 h2m
      simp only [SortedBy, List.pairwise_cons] at s1 s2
      have a21 : acc h2 h1 = false := by
        rcases List.mem_cons.mp h2m with e | e
        · rw [e]; exact hirr h1 h1S
        · exact s1.1 h2 e
      have a12 : acc h1 h2 = false := by
        rcases List.mem_cons.mp h1m with e | e
        · rw [e]; exact hirr h2 h2S
        · exact s2.1 h1 e
      have hh := hf h1 h1S
      have e11 : equivBy acc h1 h1 = true := by simp [equivBy, hirr h1 h1S]
      have e12 : equivBy acc h1 h2 = true := by simp [equivBy, a12, a21]
      rw [List.filter_cons, List.filter_cons, e11, e12, if_pos rfl, if_pos rfl] at hh
      have heq : h1 = h2 := (List.cons.inj hh).1
      subst heq
      have htail : t1 = t2 := by
        apply ih t2 (fun a ha => hS a (List.mem_cons_of_mem _ ha)) s1.2 s2.2
          (List.Perm.cons_inv hp)
        intro x hx
        have hx2 := hf x hx
        rw [List.filter_cons, List.filter_cons] at hx2
        split at hx2
        · exact (List.cons.inj hx2).2
        · exact hx2
      rw [htail]

namespace SortOp

theorem passComp_irrefl (criteria : List Criterion) :
    ∀ (acc : Tuple → Tuple → Bool) (x : Tuple), acc x x = false →
      passComp criteria acc x x = false := by
  induction criteria with
  | nil => intro acc x h; exact h
  | cons c cs ih =>
    intro acc x h
    simp only [passComp]
    split
    · exact ih _ x (by simp [lexComp, comp, Register.gt_irrefl, h])
    · exact ih acc x h

/-- Two tuples are equivalent under the comparator of the passes when they tie on every
descending criterion and are equivalent under the starting comparator. -/
theorem equivBy_passComp (criteria : List Criterion) :
    ∀ (acc : Tuple → Tuple → Bool) (x y : Tuple),
      equivBy (passComp criteria acc) x y =
        (criteria.all (fun c => !c.desc || equivBy (comp c) x y) && equivBy acc x y) := by
  induction criteria with
  | nil => intro acc x y; simp [passComp]
  | cons c cs ih =>
    intro acc x y
    simp only [passComp, List.all_cons]
    by_cases hd : c.desc = true
    · simp only [hd, if_true, ih, equivBy_lexComp, Bool.not_true, Bool.false_or]
      cases equivBy (comp c) x y <;> cases equivBy acc x y <;> simp
    · have hd2 : c.desc = false := by simpa using hd
      simp only [hd2, Bool.false_eq_true, if_false, ih, Bool.not_false, Bool.true_or,
        Bool.true_and]

/-- With a stable `std::sort`, the passes of `Sort::next` turn the stable sort by `acc`
into the stable sort by `passComp criteria acc`. -/
theorem sortPasses_stable (L : StdLib) (hL : L.Conforms) (hS : L.StableSort)
    (input : List Tuple) (criteria : List Criterion) :
    ∀ (acc : Tuple → Tuple → Bool) (m : List Tuple), WellTyped criteria input →
      StableSorted acc input m →
      StableSorted (passComp criteria acc) input (sortPasses L criteria m) := by
  induction criteria with
  | nil => intro acc m _ hm; exact hm
  | cons c cs ih =>
    intro acc m hw hm
    simp only [passComp, sortPasses]
    by_cases hd : c.desc = true
    · simp only [hd, if_true]
      exact ih _ _ hw.tail (StableSorted.pass L hL hS (comp c) acc input m (hw.strictWeak hd) hm)
    · simp only [hd, Bool.false_eq_true, if_false]
      exact ih acc m hw.tail hm

/-- Every list is its own stable sort by the comparator that orders nothing. -/
theorem stableSorted_refl (input : List Tuple) :
    StableSorted (fun _ _ => false) input input :=
  ⟨List.Perm.refl _, List.pairwise_of_forall (fun _ _ => rfl), fun _ _ => rfl⟩

/-- Tuples that tie on every criterion are equivalent under the comparator of the
passes. -/
theorem ties_imp_equiv (criteria : List Criterion) (x y : Tuple)
    (h : ties criteria x y = true) :
    equivBy (passComp criteria (fun _ _ => false)) x y = true := by
  rw [equivBy_passComp]
  simp only [ties, List.all_eq_true] at h
  simp only [Bool.and_eq_true, List.all_eq_true, Bool.or_eq_true]
  refine ⟨fun c hc => Or.inr ?_, by simp [equivBy]⟩
  exact h c hc

end SortOp

namespace SortOp

/-- A call of `next` on a materialised `Sort` returns true exactly when a tuple is
left, and moves to the next one. -/
theorem next_finished (L : StdLib) (s : SortOp) (hf : s.isFinished = true) :
    ((next L s).1 = decide (s.current_index < s.registers.length)) ∧
    (next L s).2.isFinished = true ∧ (next L s).2.registers = s.registers ∧
    (next L s).2.current_index =
      if s.current_index < s.registers.length then s.current_index + 1 else s.current_index := by
  by_cases h : s.current_index < s.registers.length
  · have hsome : s.registers[s.current_index]? = some s.registers[s.current_index] :=
      List.getElem?_eq_getElem h
    simp [next, materialize, hf, hsome, h]
  · have hnone : s.registers[s.current_index]? = none := List.getElem?_eq_none (by omega)
    simp [next, materialize, hf, hnone, h]

theorem after_finished (L : StdLib) :
    ∀ (k : Nat) (s : SortOp), s.isFinished = true →
      s.current_index + k ≤ s.registers.length →
      (after L k s).isFinished = true ∧ (after L k s).registers = s.registers ∧
      (after L k s).current_index = s.current_index + k := by
  intro k
  induction k with
  | zero => intro s hf _; exact ⟨hf, rfl, rfl⟩
  | succ k ih =>
    intro s hf hk
    obtain ⟨_, h2, h3, h4⟩ := next_finished L s hf
    have hlt : s.current_index < s.registers.length := by omega
    rw [if_pos hlt] at h4
    obtain ⟨i1, i2, i3⟩ := ih (next L s).2 h2 (by rw [h3, h4]; omega)
    refine ⟨i1, ?_, ?_⟩
    · show (after L k (next L s).2).registers = s.registers
      rw [i2, h3]
    · show (after L k (next L s).2).current_index = s.current_index + (k + 1)
      rw [i3, h4]; omega

/-- The first call of `next` materialises the tuples: from then on the operator behaves
as the materialised one. -/
theorem next_mk0 (L : StdLib) (criteria : List Criterion) (input : List Tuple) :
    next L (mk0 input criteria) =
      next L ⟨[], 0, true, [], sortPasses L criteria input, criteria⟩ := by
  simp [next, materialize, mk0]

theorem after_mk0 (L : StdLib) (criteria : List Criterion) (input : List Tuple) (k : Nat) :
    next L (after L k (mk0 input criteria)) =
      next L (after L k ⟨[], 0, true, [], sortPasses L criteria input, criteria⟩) := by
  cases k with
  | zero => exact next_mk0 L criteria input
  | succ k => simp only [after, next_mk0]

/-- The calls of `next`: the first `registers.size()` return true, the next one
false. -/
theorem calls (L : StdLib) (criteria : List Criterion) (input : List Tuple) :
    (∀ k < (sortPasses L criteria input).length,
      (next L (after L k (mk0 input criteria))).1 = true) ∧
    (next L (after L (sortPasses L criteria input).length (mk0 input criteria))).1 = false := by
  constructor
  · intro k hk
    rw [after_mk0]
    obtain ⟨i1, i2, i3⟩ := after_finished L k
      ⟨[], 0, true, [], sortPasses L criteria input, criteria⟩ rfl (by simp; omega)
    rw [(next_finished L _ i1).1, i2, i3]
    simpa using hk
  · rw [after_mk0]
    obtain ⟨i1, i2, i3⟩ := after_finished L (sortPasses L criteria input).length
      ⟨[], 0, true, [], sortPasses L criteria input, criteria⟩ rfl (by simp)
    rw [(next_finished L _ i1).1, i2, i3]
    simp

end SortOp

/-- C4 (Sort orders by all criteria), evaluated on the code: `Sort` leaves `[(2),(1)]`
as it is under the criterion (column 0, ascending), with every library, although the
order of the specification puts `(1)` first; and on the input `[(1,b),(2,a),(1,a)]`
with (column 0 ascending, column 1 descending) it emits `[(1,b),(2,a),(1,a)]` with the
reference library, `(2,a)` before `(1,a)`. -/
theorem Sort_ascending_ignored :
    (∀ L : StdLib,
      SortOp.run L [⟨0, false⟩] [[Register.int 2], [Register.int 1]] =
        some [[Register.int 2], [Register.int 1]]) ∧
    SortOp.specBefore [⟨0, false⟩] [Register.int 2] [Register.int 1] = false ∧
    SortOp.run refLib [⟨0, false⟩, ⟨1, true⟩]
      [[Register.int 1, Register.str (ascii "b")], [Register.int 2, Register.str (ascii "a")],
        [Register.int 1, Register.str (ascii "a")]] =
      some [[Register.int 1, Register.str (ascii "b")], [Register.int 2, Register.str (ascii "a")],
        [Register.int 1, Register.str (ascii "a")]] ∧
    SortOp.specBefore [⟨0, false⟩, ⟨1, true⟩]
      [Register.int 2, Register.str (ascii "a")] [Register.int 1, Register.str (ascii "a")] =
      false := by
  refine ⟨fun L => ?_, by decide, by decide, by decide⟩
  rw [SortOp.sort_run_eq L _ _ (by simp [SortOp.sortPasses])]
  simp [SortOp.sortPasses]

/-- The tuples `Sort` emits, for a library that conforms to the standard. -/
theorem SortOp.run_conforms (L : StdLib) (hL : L.Conforms) (criteria : List Criterion)
    (input : List Tuple) (hw : SortOp.WellTyped criteria input) :
    SortOp.run L criteria input = some (SortOp.sortPasses L criteria input) :=
  SortOp.sort_run_eq L criteria input (SortOp.sortPasses_perm L hL criteria input hw).length_eq

/-- When the library's `std::sort` is stable, two tuples that tie on every criterion
column are emitted in the order in which the child produced them (every class of tying
tuples is emitted in its input order); in particular, when all tuples tie on every
criterion column, the tuples are emitted in input order. -/
theorem SortOp.stable_of_stable_sort (L : StdLib) (hL : L.Conforms) (hS : L.StableSort)
    (criteria : List Criterion) (input : List Tuple)
    (hw : SortOp.WellTyped criteria input) :
    ∃ out, SortOp.run L criteria input = some out ∧
      (∀ x ∈ input, out.filter (SortOp.ties criteria x) = input.filter (SortOp.ties criteria x)) ∧
      ((∀ t1 ∈ input, ∀ t2 ∈ input, SortOp.ties criteria t1 t2 = true) → out = input) := by
  refine ⟨_, SortOp.run_conforms L hL criteria input hw, ?_⟩
  obtain ⟨hperm, _, hst⟩ := SortOp.sortPasses_stable L hL hS input criteria (fun _ _ => false)
    input hw (SortOp.stableSorted_refl input)
  have key : ∀ x ∈ input, (SortOp.sortPasses L criteria input).filter (SortOp.ties criteria x) =
      input.filter (SortOp.ties criteria x) := by
    intro x hx
    have step : ∀ l : List Tuple, l.filter (SortOp.ties criteria x) =
        (l.filter (equivBy (SortOp.passComp criteria (fun _ _ => false)) x)).filter
          (SortOp.ties criteria x) := by
      intro l
      rw [List.filter_filter]
      congr 1
      funext y
      cases h : SortOp.ties criteria x y with
      | false => simp
      | true => simp [SortOp.ties_imp_equiv criteria x y h]
    rw [step, hst x hx, ← step]
  refine ⟨key, ?_⟩
  intro hall
  cases hin : input with
  | nil =>
    rw [hin] at hperm
    exact List.Perm.eq_nil hperm
  | cons x xs =>
    have hx : x ∈ input := by rw [hin]; exact List.mem_cons_self _ _
    have h1 := key x hx
    have hf1 : input.filter (SortOp.ties criteria x) = input :=
      List.filter_eq_self.mpr (fun t ht => hall x hx t ht)
    have hf2 : (SortOp.sortPasses L criteria input).filter (SortOp.ties criteria x) =
        SortOp.sortPasses L criteria input :=
      List.filter_eq_self.mpr (fun t ht => hall x hx t (hperm.mem_iff.mp ht))
    rw [hf1, hf2] at h1
    rw [← hin]
    exact h1

/-- C6 (Sort emits a permutation of its input): over a well-typed input of `n` tuples,
the first `n` calls of `next` return true and the next one returns false, and the
emitted tuples are exactly as many as the input tuples and a permutation of them. -/
theorem Sort_permutation (L : StdLib) (hL : L.Conforms) (criteria : List Criterion)
    (input : List Tuple) (hw : SortOp.WellTyped criteria input) :
    (∀ k < input.length,
      (SortOp.next L (SortOp.after L k (SortOp.mk0 input criteria))).1 = true) ∧
    (SortOp.next L (SortOp.after L input.length (SortOp.mk0 input criteria))).1 = false ∧
    ∃ out, SortOp.run L criteria input = some out ∧ out.length = input.length ∧
      out.Perm input := by
  have hp := SortOp.sortPasses_perm L hL criteria input hw
  have hc := SortOp.calls L criteria input
  rw [hp.length_eq] at hc
  exact ⟨hc.1, hc.2, _, SortOp.run_conforms L hL criteria input hw, hp.length_eq, hp⟩

/-- When the library's `std::sort` is stable, sorting the output of `Sort` again by the
same criteria emits the same sequence. -/
theorem SortOp.idempotent_of_stable_sort (L : StdLib) (hL : L.Conforms) (hS : L.StableSort)
    (criteria : List Criterion) (input : List Tuple)
    (hw : SortOp.WellTyped criteria input) :
    ∃ out, SortOp.run L criteria input = some out ∧ SortOp.run L criteria out = some out := by
  refine ⟨_, SortOp.run_conforms L hL criteria input hw, ?_⟩
  have h1 := SortOp.sortPasses_stable L hL hS input criteria (fun _ _ => false)
    input hw (SortOp.stableSorted_refl input)
  have hw2 : SortOp.WellTyped criteria (SortOp.sortPasses L criteria input) := hw.perm h1.1
  have h2 := SortOp.sortPasses_stable L hL hS (SortOp.sortPasses L criteria input) criteria
    (fun _ _ => false) _ hw2 (SortOp.stableSorted_refl _)
  rw [SortOp.run_conforms L hL criteria _ hw2]
  congr 1
  exact StableSorted.unique (SortOp.passComp criteria (fun _ _ => false))
    (SortOp.sortPasses L criteria input)
    (fun x _ => SortOp.passComp_irrefl criteria _ x rfl) _ _
    (fun a ha => h2.1.mem_iff.mp ha) h2.2.1 h1.2.1 h2.1 h2.2.2

/-- Witness of C6 at the reference library: three tuples, sorted on column 1
descending. -/
theorem Sort_permutation_witness :
    refLib.Conforms ∧
    SortOp.WellTyped [⟨0, false⟩, ⟨1, true⟩]
      [[Register.int 1, Register.str (ascii "b")], [Register.int 2, Register.str (ascii "a")],
        [Register.int 1, Register.str (ascii "c")]] ∧
    ((∀ k < 3, (SortOp.next refLib (SortOp.after refLib k (SortOp.mk0
        [[Register.int 1, Register.str (ascii "b")], [Register.int 2, Register.str (ascii "a")],
          [Register.int 1, Register.str (ascii "c")]] [⟨0, false⟩, ⟨1, true⟩]))).1 = true) ∧
      (SortOp.next refLib (SortOp.after refLib 3 (SortOp.mk0
        [[Register.int 1, Register.str (ascii "b")], [Register.int 2, Register.str (ascii "a")],
          [Register.int 1, Register.str (ascii "c")]] [⟨0, false⟩, ⟨1, true⟩]))).1 = false ∧
      ∃ out, SortOp.run refLib [⟨0, false⟩, ⟨1, true⟩]
          [[Register.int 1, Register.str (ascii "b")], [Register.int 2, Register.str (ascii "a")],
            [Register.int 1, Register.str (ascii "c")]] = some out ∧
        out.length = 3 ∧
        out.Perm [[Register.int 1, Register.str (ascii "b")],
          [Register.int 2, Register.str (ascii "a")],
          [Register.int 1, Register.str (ascii "c")]]) :=
  ⟨refLib_conforms, by unfold SortOp.WellTyped; decide,
    Sort_permutation refLib refLib_conforms [⟨0, false⟩, ⟨1, true⟩]
      [[Register.int 1, Register.str (ascii "b")], [Register.int 2, Register.str (ascii "a")],
        [Register.int 1, Register.str (ascii "c")]] (by unfold SortOp.WellTyped; decide)⟩

/-! ## The `std::sort` of libstdc++ on at most 16 elements -/

/-- The converse of a strict weak ordering is a strict weak ordering. -/
theorem StrictWeak.flip {α : Type} {comp : α → α → Bool} {l : List α}
    (h : StrictWeak comp l) : StrictWeak (fun a b => comp b a) l :=
  ⟨fun a ha => h.irrefl a ha,
   fun a ha b hb c hc hab hbc => h.trans c hc b hb a ha hbc hab,
   fun a ha b hb c hc h1 h2 h3 h4 =>
     ⟨(h.equiv_trans a ha b hb c hc h2 h1 h4 h3).2, (h.equiv_trans a ha b hb c hc h2 h1 h4 h3).1⟩⟩

/-- Inserting an element that comes after every element of the list appends it. -/
theorem orderedInsert_append {α : Type} (comp : α → α → Bool) (x : α) (l : List α)
    (h : ∀ y ∈ l, comp y x = true) : orderedInsert comp x l = l ++ [x] := by
  induction l with
  | nil => rfl
  | cons y ys ih =>
    simp only [orderedInsert, h y (List.mem_cons_self _ _), if_true, List.cons_append,
      ih (fun z hz => h z (List.mem_cons_of_mem _ hz))]

namespace gnu

/-- On at most 16 elements `std::sort` is `std::__insertion_sort`. -/
theorem sort_eq_insertionSort {α : Type} (comp : α → α → Bool) (v : List α)
    (h : v.length ≤ 16) : sort comp v = insertionSort comp v := by
  unfold sort
  by_cases h0 : v.length = 0
  · have : v = [] := List.length_eq_zero.mp h0
    subst this
    rfl
  · obtain ⟨n, hn⟩ : ∃ n, v.length = n + 1 := ⟨v.length - 1, by omega⟩
    have h16 : ¬ 16 < v.length - 0 := by omega
    have hf : ¬ v.length > 16 := by omega
    rw [if_neg h0]
    have hloop : introsortLoop comp v.length v 0 v.length (lg v.length v.length * 2) = v := by
      generalize lg v.length v.length * 2 = d
      conv_lhs => rw [hn]
      rw [introsortLoop, ← hn, if_neg h16]
    rw [hloop, finalInsertionSort, if_neg hf]

/-- The loop of `std::__unguarded_linear_insert` is the insertion into the elements
listed from the nearest one, under the converse of the comparator. -/
theorem unguardedLinearInsert_eq {α : Type} (comp : α → α → Bool) (val : α) (l : List α) :
    unguardedLinearInsert comp val l = orderedInsert (fun a b => comp b a) val l := by
  induction l with
  | nil => rfl
  | cons y ys ih => simp only [unguardedLinearInsert, orderedInsert, ih]

/-- On sorted elements the shortcut of `std::__insertion_sort` for an element smaller
than the first one does what `__unguarded_linear_insert` does. -/
theorem insertionStep_eq {α : Type} (comp : α → α → Bool) (S : List α)
    (hsw : StrictWeak comp S) (before : List α) (val : α) (hval : val ∈ S)
    (hmem : ∀ x ∈ before, x ∈ S) (hsorted : SortedBy (fun a b => comp b a) before) :
    insertionStep comp before val = orderedInsert (fun a b => comp b a) val before := by
  unfold insertionStep
  cases hlast : before.getLast? with
  | none =>
    have : before = [] := List.getLast?_eq_none_iff.mp hlast
    subst this
    rfl
  | some first =>
    simp only []
    by_cases hc : comp val first = true
    · rw [if_pos hc]
      obtain ⟨ys, hys⟩ := List.getLast?_eq_some_iff.mp hlast
      have hfirst : first ∈ S := hmem first (by rw [hys]; simp)
      have hall : ∀ y ∈ before, comp val y = true := by
        intro y hy
        have hyS := hmem y hy
        have hyf : comp y first = false := by
          rw [hys] at hy hsorted
          rcases List.mem_append.mp hy with hy1 | hy1
          · have := (List.pairwise_append.mp hsorted).2.2 y hy1 first (List.mem_singleton_self _)
            exact this
          · rw [List.mem_singleton.mp hy1]; exact hsw.irrefl first hfirst
        cases hvy : comp val y with
        | true => rfl
        | false =>
          have := hsw.negtrans hval hyS hfirst hvy hyf
          rw [hc] at this
          exact absurd this (by simp)
      exact (orderedInsert_append (fun a b => comp b a) val before hall).symm
    · rw [if_neg hc]
      exact unguardedLinearInsert_eq comp val before

/-- The loop of `std::__insertion_sort` builds, from the nearest element to the first
one, the insertion sort of the elements under the converse of the comparator. -/
theorem foldl_insertionStep {α : Type} (comp : α → α → Bool) (S : List α)
    (hsw : StrictWeak comp S) :
    ∀ l : List α, (∀ x ∈ l, x ∈ S) →
      l.foldl (insertionStep comp) [] =
        buzzdb.operators.insertionSort (fun a b => comp b a) l.reverse := by
  intro l
  induction l using List.reverseRecOn with
  | nil => intro _; rfl
  | append_singleton l a ih =>
    intro hl
    have hl2 : ∀ x ∈ l, x ∈ S := fun x hx => hl x (List.mem_append_left _ hx)
    have ha : a ∈ S := hl a (List.mem_append_right _ (List.mem_singleton_self _))
    have hsub : ∀ x ∈ l.reverse, x ∈ S := fun x hx => hl2 x (List.mem_reverse.mp hx)
    rw [List.foldl_append, List.foldl_cons, List.foldl_nil, ih hl2, List.reverse_append,
      List.reverse_singleton, List.singleton_append, buzzdb.operators.insertionSort]
    apply insertionStep_eq comp S hsw _ a ha
    · intro x hx
      exact hsub x ((insertionSort_perm _ _).mem_iff.mp hx)
    · exact insertionSort_sorted _ _ ((hsw.flip).mono hsub)

/-- On a strict weak ordering, `std::__insertion_sort` is the stable sort. -/
theorem insertionSort_eq {α : Type} (comp : α → α → Bool) (l : List α)
    (hsw : StrictWeak comp l) :
    insertionSort comp l = buzzdb.operators.insertionSort comp l := by
  unfold insertionSort
  rw [foldl_insertionStep comp l hsw l (fun _ h => h)]
  have hswr : StrictWeak (fun a b => comp b a) l.reverse :=
    (hsw.flip).mono (fun x hx => List.mem_reverse.mp hx)
  have hp := insertionSort_perm (fun a b => comp b a) l.reverse
  have hs := insertionSort_sorted (fun a b => comp b a) l.reverse hswr
  apply StableSorted.unique comp l (fun x hx => hsw.irrefl x hx)
  · intro a ha
    exact List.mem_reverse.mp (hp.mem_iff.mp (List.mem_reverse.mp ha))
  · unfold SortedBy at hs ⊢
    rw [List.pairwise_reverse]
    exact hs
  · exact insertionSort_sorted comp l hsw
  · exact ((List.reverse_perm _).trans (hp.trans (List.reverse_perm l))).trans
      (insertionSort_perm comp l).symm
  · intro x hx
    have he : equivBy (fun a b => comp b a) x = equivBy comp x := by
      funext y
      simp only [equivBy, Bool.and_comm]
    have h1 := insertionSort_stable (fun a b => comp b a) l.reverse x
      ((hsw.flip).mono (fun z hz => by
        rcases List.mem_cons.mp hz with rfl | hz
        · exact hx
        · exact List.mem_reverse.mp hz))
    rw [he] at h1
    have h2 := insertionSort_stable comp l x (hsw.mono (fun z hz => by
      rcases List.mem_cons.mp hz with rfl | hz
      · exact hx
      · exact hz))
    rw [h2, ← List.reverse_reverse (List.filter (equivBy comp x) l), ← List.filter_reverse,
      ← h1, List.filter_reverse]

end gnu

/-- With at most 16 tuples, the passes of `Sort::next` give with the `std::sort` of
libstdc++ what they give with the stable sort of the reference library. -/
theorem SortOp.sortPasses_gnuLib (criteria : List Criterion) :
    ∀ regs : List Tuple, SortOp.WellTyped criteria regs → regs.length ≤ 16 →
      SortOp.sortPasses gnuLib criteria regs = SortOp.sortPasses refLib criteria regs := by
  induction criteria with
  | nil => intro regs _ _; rfl
  | cons c cs ih =>
    intro regs hw hlen
    simp only [SortOp.sortPasses]
    by_cases hd : c.desc = true
    · simp only [hd, if_true]
      have hsw := hw.strictWeak hd
      have he : gnuLib.sort (SortOp.comp c) regs = refLib.sort (SortOp.comp c) regs := by
        show gnu.sort (SortOp.comp c) regs = insertionSort (SortOp.comp c) regs
        rw [gnu.sort_eq_insertionSort _ _ hlen, gnu.insertionSort_eq _ _ hsw]
      have hp := refLib_conforms.sort_perm (SortOp.comp c) regs hsw
      rw [he]
      exact ih _ (hw.tail.perm hp) (by rw [hp.length_eq]; exact hlen)
    · simp only [hd, Bool.false_eq_true, if_false]
      exact ih regs hw.tail hlen

/-- With at most 16 tuples, `Sort` emits with libstdc++ what it emits with the stable
sort of the reference library. -/
theorem SortOp.run_gnuLib (criteria : List Criterion) (input : List Tuple)
    (hw : SortOp.WellTyped criteria input) (hlen : input.length ≤ 16) :
    SortOp.run gnuLib criteria input = SortOp.run refLib criteria input := by
  have hp := SortOp.sortPasses_perm refLib refLib_conforms criteria input hw
  rw [SortOp.sort_run_eq refLib criteria input hp.length_eq,
    SortOp.sort_run_eq gnuLib criteria input
      (by rw [SortOp.sortPasses_gnuLib criteria input hw hlen]; exact hp.length_eq),
    SortOp.sortPasses_gnuLib criteria input hw hlen]


/-- C5, counterexample: with the `std::sort` of libstdc++, 17 tuples that all tie on the
only criterion column, numbered 0 to 16 in their second column in the order in which the
child produces them, are emitted in another order: the tuple numbered 8 comes first and
the one numbered 0 tenth. -/
theorem Sort_stability_counterexample :
    SortOp.WellTyped [⟨0, true⟩]
      [[Register.int 1, Register.int 0], [Register.int 1, Register.int 1],
       [Register.int 1, Register.int 2], [Register.int 1, Register.int 3],
       [Register.int 1, Register.int 4], [Register.int 1, Register.int 5],
       [Register.int 1, Register.int 6], [Register.int 1, Register.int 7],
       [Register.int 1, Register.int 8], [Register.int 1, Register.int 9],
       [Register.int 1, Register.int 10], [Register.int 1, Register.int 11],
       [Register.int 1, Register.int 12], [Register.int 1, Register.int 13],
       [Register.int 1, Register.int 14], [Register.int 1, Register.int 15],
       [Register.int 1, Register.int 16]] ∧
    (∀ t1 ∈ ([[Register.int 1, Register.int 0], [Register.int 1, Register.int 1],
       [Register.int 1, Register.int 2], [Register.int 1, Register.int 3],
       [Register.int 1, Register.int 4], [Register.int 1, Register.int 5],
       [Register.int 1, Register.int 6], [Register.int 1, Register.int 7],
       [Register.int 1, Register.int 8], [Register.int 1, Register.int 9],
       [Register.int 1, Register.int 10], [Register.int 1, Register.int 11],
       [Register.int 1, Register.int 12], [Register.int 1, Register.int 13],
       [Register.int 1, Register.int 14], [Register.int 1, Register.int 15],
       [Register.int 1, Register.int 16]] : List Tuple),
      ∀ t2 ∈ ([[Register.int 1, Register.int 0], [Register.int 1, Register.int 1],
       [Register.int 1, Register.int 2], [Register.int 1, Register.int 3],
       [Register.int 1, Register.int 4], [Register.int 1, Register.int 5],
       [Register.int 1, Register.int 6], [Register.int 1, Register.int 7],
       [Register.int 1, Register.int 8], [Register.int 1, Register.int 9],
       [Register.int 1, Register.int 10], [Register.int 1, Register.int 11],
       [Register.int 1, Register.int 12], [Register.int 1, Register.int 13],
       [Register.int 1, Register.int 14], [Register.int 1, Register.int 15],
       [Register.int 1, Register.int 16]] : List Tuple),
        SortOp.ties [⟨0, true⟩] t1 t2 = true) ∧
    SortOp.run gnuLib [⟨0, true⟩]
      [[Register.int 1, Register.int 0], [Register.int 1, Register.int 1],
       [Register.int 1, Register.int 2], [Register.int 1, Register.int 3],
       [Register.int 1, Register.int 4], [Register.int 1, Register.int 5],
       [Register.int 1, Register.int 6], [Register.int 1, Register.int 7],
       [Register.int 1, Register.int 8], [Register.int 1, Register.int 9],
       [Register.int 1, Register.int 10], [Register.int 1, Register.int 11],
       [Register.int 1, Register.int 12], [Register.int 1, Register.int 13],
       [Register.int 1, Register.int 14], [Register.int 1, Register.int 15],
       [Register.int 1, Register.int 16]] =
    some
      [[Register.int 1, Register.int 8], [Register.int 1, Register.int 16],
       [Register.int 1, Register.int 15], [Register.int 1, Register.int 14],
       [Register.int 1, Register.int 13], [Register.int 1, Register.int 12],
       [Register.int 1, Register.int 11], [Register.int 1, Register.int 10],
       [Register.int 1, Register.int 9], [Register.int 1, Register.int 0],
       [Register.int 1, Register.int 7], [Register.int 1, Register.int 6],
       [Register.int 1, Register.int 5], [Register.int 1, Register.int 4],
       [Register.int 1, Register.int 3], [Register.int 1, Register.int 2],
       [Register.int 1, Register.int 1]] := by
  refine ⟨?_, by decide, by decide⟩
  unfold SortOp.WellTyped
  decide

/-- C5 (Sort stability), amended: with the `std::sort` of libstdc++, which sorts up to 16
elements by insertion, a `Sort` over at most 16 tuples emits two tuples that tie on every
criterion column in the order in which the child produced them (every class of tying
tuples is emitted in its input order); in particular, when all of the at most 16 tuples
tie on every criterion column, they are emitted in input order. -/
theorem Sort_stable_up_to_16 (criteria : List Criterion) (input : List Tuple)
    (hw : SortOp.WellTyped criteria input) (hlen : input.length ≤ 16) :
    ∃ out, SortOp.run gnuLib criteria input = some out ∧
      (∀ x ∈ input, out.filter (SortOp.ties criteria x) = input.filter (SortOp.ties criteria x)) ∧
      ((∀ t1 ∈ input, ∀ t2 ∈ input, SortOp.ties criteria t1 t2 = true) → out = input) := by
  rw [SortOp.run_gnuLib criteria input hw hlen]
  exact SortOp.stable_of_stable_sort refLib refLib_conforms refLib_stable criteria input hw

/-- Witness of the amended C5: the two tuples with key 1 keep their order behind the
tuple with key 2. -/
theorem Sort_stable_up_to_16_witness :
    SortOp.WellTyped [⟨0, true⟩]
      [[Register.int 1, Register.str (ascii "a")], [Register.int 2, Register.str (ascii "c")],
        [Register.int 1, Register.str (ascii "b")]] ∧
    ([[Register.int 1, Register.str (ascii "a")], [Register.int 2, Register.str (ascii "c")],
        [Register.int 1, Register.str (ascii "b")]] : List Tuple).length ≤ 16 ∧
    (∃ out, SortOp.run gnuLib [⟨0, true⟩]
        [[Register.int 1, Register.str (ascii "a")], [Register.int 2, Register.str (ascii "c")],
          [Register.int 1, Register.str (ascii "b")]] = some out ∧
      (∀ x ∈ ([[Register.int 1, Register.str (ascii "a")],
          [Register.int 2, Register.str (ascii "c")],
          [Register.int 1, Register.str (ascii "b")]] : List Tuple),
        out.filter (SortOp.ties [⟨0, true⟩] x) =
          ([[Register.int 1, Register.str (ascii "a")],
            [Register.int 2, Register.str (ascii "c")],
            [Register.int 1, Register.str (ascii "b")]] : List Tuple).filter
              (SortOp.ties [⟨0, true⟩] x)) ∧
      ((∀ t1 ∈ ([[Register.int 1, Register.str (ascii "a")],
          [Register.int 2, Register.str (ascii "c")],
          [Register.int 1, Register.str (ascii "b")]] : List Tuple),
        ∀ t2 ∈ ([[Register.int 1, Register.str (ascii "a")],
          [Register.int 2, Register.str (ascii "c")],
          [Register.int 1, Register.str (ascii "b")]] : List Tuple),
          SortOp.ties [⟨0, true⟩] t1 t2 = true) →
        out = [[Register.int 1, Register.str (ascii "a")],
          [Register.int 2, Register.str (ascii "c")],
          [Register.int 1, Register.str (ascii "b")]])) ∧
    SortOp.run gnuLib [⟨0, true⟩]
      [[Register.int 1, Register.str (ascii "a")], [Register.int 2, Register.str (ascii "c")],
        [Register.int 1, Register.str (ascii "b")]] =
      some [[Register.int 2, Register.str (ascii "c")], [Register.int 1, Register.str (ascii "a")],
        [Register.int 1, Register.str (ascii "b")]] :=
  ⟨by unfold SortOp.WellTyped; decide, by decide,
    Sort_stable_up_to_16 _ _ (by unfold SortOp.WellTyped; decide) (by decide),
    by decide⟩

/-- C7, counterexample: with the `std::sort` of libstdc++, `Sort` over 17 tuples that
all tie on the only criterion column emits them in one order, and a `Sort` by the same
criterion over the emitted tuples emits them in another order. -/
theorem Sort_idempotence_counterexample :
    SortOp.WellTyped [⟨0, true⟩]
      [[Register.int 1, Register.int 0], [Register.int 1, Register.int 1],
       [Register.int 1, Register.int 2], [Register.int 1, Register.int 3],
       [Register.int 1, Register.int 4], [Register.int 1, Register.int 5],
       [Register.int 1, Register.int 6], [Register.int 1, Register.int 7],
       [Register.int 1, Register.int 8], [Register.int 1, Register.int 9],
       [Register.int 1, Register.int 10], [Register.int 1, Register.int 11],
       [Register.int 1, Register.int 12], [Register.int 1, Register.int 13],
       [Register.int 1, Register.int 14], [Register.int 1, Register.int 15],
       [Register.int 1, Register.int 16]] ∧
    SortOp.run gnuLib [⟨0, true⟩]
      [[Register.int 1, Register.int 0], [Register.int 1, Register.int 1],
       [Register.int 1, Register.int 2], [Register.int 1, Register.int 3],
       [Register.int 1, Register.int 4], [Register.int 1, Register.int 5],
       [Register.int 1, Register.int 6], [Register.int 1, Register.int 7],
       [Register.int 1, Register.int 8], [Register.int 1, Register.int 9],
       [Register.int 1, Register.int 10], [Register.int 1, Register.int 11],
       [Register.int 1, Register.int 12], [Register.int 1, Register.int 13],
       [Register.int 1, Register.int 14], [Register.int 1, Register.int 15],
       [Register.int 1, Register.int 16]] =
    some
      [[Register.int 1, Register.int 8], [Register.int 1, Register.int 16],
       [Register.int 1, Register.int 15], [Register.int 1, Register.int 14],
       [Register.int 1, Register.int 13], [Register.int 1, Register.int 12],
       [Register.int 1, Register.int 11], [Register.int 1, Register.int 10],
       [Register.int 1, Register.int 9], [Register.int 1, Register.int 0],
       [Register.int 1, Register.int 7], [Register.int 1, Register.int 6],
       [Register.int 1, Register.int 5], [Register.int 1, Register.int 4],
       [Register.int 1, Register.int 3], [Register.int 1, Register.int 2],
       [Register.int 1, Register.int 1]] ∧
    SortOp.run gnuLib [⟨0, true⟩]
      [[Register.int 1, Register.int 8], [Register.int 1, Register.int 16],
       [Register.int 1, Register.int 15], [Register.int 1, Register.int 14],
       [Register.int 1, Register.int 13], [Register.int 1, Register.int 12],
       [Register.int 1, Register.int 11], [Register.int 1, Register.int 10],
       [Register.int 1, Register.int 9], [Register.int 1, Register.int 0],
       [Register.int 1, Register.int 7], [Register.int 1, Register.int 6],
       [Register.int 1, Register.int 5], [Register.int 1, Register.int 4],
       [Register.int 1, Register.int 3], [Register.int 1, Register.int 2],
       [Register.int 1, Register.int 1]] =
    some
      [[Register.int 1, Register.int 9], [Register.int 1, Register.int 1],
       [Register.int 1, Register.int 2], [Register.int 1, Register.int 3],
       [Register.int 1, Register.int 4], [Register.int 1, Register.int 5],
       [Register.int 1, Register.int 6], [Register.int 1, Register.int 7],
       [Register.int 1, Register.int 0], [Register.int 1, Register.int 8],
       [Register.int 1, Register.int 10], [Register.int 1, Register.int 11],
       [Register.int 1, Register.int 12], [Register.int 1, Register.int 13],
       [Register.int 1, Register.int 14], [Register.int 1, Register.int 15],
       [Register.int 1, Register.int 16]] := by
  refine ⟨?_, by decide, by decide⟩
  unfold SortOp.WellTyped
  decide

/-- C7 (Sort idempotence), amended: with the `std::sort` of libstdc++, which sorts up to
16 elements by insertion, sorting the output of a `Sort` over at most 16 tuples again by
the same criteria emits the same sequence. -/
theorem Sort_idempotent_up_to_16 (criteria : List Criterion) (input : List Tuple)
    (hw : SortOp.WellTyped criteria input) (hlen : input.length ≤ 16) :
    ∃ out, SortOp.run gnuLib criteria input = some out ∧
      SortOp.run gnuLib criteria out = some out := by
  obtain ⟨out, h1, h2⟩ :=
    SortOp.idempotent_of_stable_sort refLib refLib_conforms refLib_stable criteria input hw
  have hp := SortOp.sortPasses_perm refLib refLib_conforms criteria input hw
  have he : out = SortOp.sortPasses refLib criteria input := by
    rw [SortOp.run_conforms refLib refLib_conforms criteria input hw] at h1
    exact (Option.some.inj h1).symm
  refine ⟨out, by rw [SortOp.run_gnuLib criteria input hw hlen]; exact h1, ?_⟩
  rw [SortOp.run_gnuLib criteria out (by rw [he]; exact hw.perm hp)
    (by rw [he, hp.length_eq]; exact hlen)]
  exact h2

/-- Witness of the amended C7: three tuples under two descending criteria. -/
theorem Sort_idempotent_up_to_16_witness :
    SortOp.WellTyped [⟨0, true⟩, ⟨1, true⟩]
      [[Register.int 1, Register.str (ascii "a")], [Register.int 2, Register.str (ascii "a")],
        [Register.int 1, Register.str (ascii "b")]] ∧
    ([[Register.int 1, Register.str (ascii "a")], [Register.int 2, Register.str (ascii "a")],
        [Register.int 1, Register.str (ascii "b")]] : List Tuple).length ≤ 16 ∧
    ∃ out, SortOp.run gnuLib [⟨0, true⟩, ⟨1, true⟩]
        [[Register.int 1, Register.str (ascii "a")], [Register.int 2, Register.str (ascii "a")],
          [Register.int 1, Register.str (ascii "b")]] = some out ∧
      SortOp.run gnuLib [⟨0, true⟩, ⟨1, true⟩] out = some out :=
  ⟨by unfold SortOp.WellTyped; decide, by decide,
    Sort_idempotent_up_to_16 _ _ (by unfold SortOp.WellTyped; decide) (by decide)⟩

/-! ## Counting maps -/

theorem wrapInt32_eq (x : Int) (h1 : -2147483648 ≤ x) (h2 : x < 2147483648) :
    wrapInt32 x = x := by
  unfold wrapInt32 Int.bmod
  simp only [Nat.cast_ofNat]
  split <;> omega

/-- The entry found depends on the key only up to `==`. -/
theorem UMap.find_congr {β : Type} (L : StdLib) (m : UMap β) {a b : Register}
    (h : Register.eq L a b = true) : UMap.find L m a = UMap.find L m b := by
  simp only [UMap.find]
  congr 1
  funext e
  exact Register.eq_congr_right L h e.1

theorem UMap.find_mem {β : Type} (L : StdLib) (m : UMap β) (k : Register) (e : Register × β)
    (h : UMap.find L m k = some e) : e ∈ m :=
  List.mem_of_find?_eq_some h

/-- In a map without `==` keys the entry found for `k` is the only one with a key `==`
to `k`. -/
theorem UMap.find_of_mem {β : Type} (L : StdLib) (m : UMap β) (hm : UMap.Distinct L m)
    (k : Register) (e : Register × β) (he : e ∈ m) (hk : Register.eq L e.1 k = true) :
    UMap.find L m k = some e := by
  induction m with
  | nil => cases he
  | cons e1 m ih =>
    simp only [UMap.Distinct, List.pairwise_cons] at hm
    rcases List.mem_cons.mp he with rfl | he2
    · simp [UMap.find, List.find?, hk]
    · have h1 : Register.eq L e1.1 k = false := by
        cases h : Register.eq L e1.1 k with
        | false => rfl
        | true =>
          have := hm.1 e he2
          rw [Register.eq_trans L h (Register.eq_symm L hk)] at this
          exact absurd this (by simp)
      have := ih hm.2 he2
      simp only [UMap.find] at this ⊢
      simp [List.find?, h1, this]

theorem UMap.mem_incr_key (L : StdLib) (m : UMap Int) (r : Register) (e : Register × Int)
    (he : e ∈ UMap.incr L m r) :
    (∃ e0 ∈ m, e0.1 = e.1) ∨ (e.1 = r ∧ ∀ e0 ∈ m, Register.eq L e0.1 r = false) := by
  induction m with
  | nil =>
    simp only [UMap.incr, List.mem_singleton] at he
    subst he
    exact Or.inr ⟨rfl, by simp⟩
  | cons e1 m ih =>
    simp only [UMap.incr] at he
    by_cases h1 : Register.eq L e1.1 r = true
    · simp only [h1, if_true, List.mem_cons] at he
      rcases he with he | he
      · subst he; exact Or.inl ⟨e1, List.mem_cons_self _ _, rfl⟩
      · exact Or.inl ⟨e, List.mem_cons_of_mem _ he, rfl⟩
    · simp only [h1, Bool.false_eq_true, if_false, List.mem_cons] at he
      rcases he with he | he
      · subst he; exact Or.inl ⟨e, List.mem_cons_self _ _, rfl⟩
      · rcases ih he with ⟨e0, h0, h00⟩ | ⟨h0, h00⟩
        · exact Or.inl ⟨e0, List.mem_cons_of_mem _ h0, h00⟩
        · refine Or.inr ⟨h0, ?_⟩
          intro e0 he0
          rcases List.mem_cons.mp he0 with rfl | he0
          · simpa using h1
          · exact h00 e0 he0

theorem UMap.distinct_incr (L : StdLib) (m : UMap Int) (r : Register)
    (hm : UMap.Distinct L m) : UMap.Distinct L (UMap.incr L m r) := by
  induction m with
  | nil => simp [UMap.incr, UMap.Distinct]
  | cons e1 m ih =>
    simp only [UMap.Distinct, List.pairwise_cons] at hm
    simp only [UMap.incr]
    by_cases h1 : Register.eq L e1.1 r = true
    · simp only [h1, if_true, UMap.Distinct, List.pairwise_cons]
      exact hm
    · simp only [h1, Bool.false_eq_true, if_false, UMap.Distinct, List.pairwise_cons]
      refine ⟨?_, ih hm.2⟩
      intro e he
      rcases UMap.mem_incr_key L m r e he with ⟨e0, h0, h00⟩ | ⟨h0, _⟩
      · rw [← h00]; exact hm.1 e0 h0
      · rw [h0]; simpa using h1

/-- With positive counts, no count exceeds the sum of all counts. -/
theorem UMap.le_sum (m : UMap Int) (hpos : ∀ e ∈ m, 0 < e.2) :
    0 ≤ (m.map Prod.snd).sum ∧ ∀ e ∈ m, e.2 ≤ (m.map Prod.snd).sum := by
  induction m with
  | nil => simp
  | cons e1 m ih =>
    obtain ⟨i1, i2⟩ := ih (fun e he => hpos e (List.mem_cons_of_mem _ he))
    have h1 := hpos e1 (List.mem_cons_self _ _)
    simp only [List.map_cons, List.sum_cons]
    refine ⟨by omega, ?_⟩
    intro e he
    rcases List.mem_cons.mp he with rfl | he
    · omega
    · have := i2 e he; omega

/-- One `m[r]++` below the range of `int`: the counts stay positive, their sum grows by
one, and the count of a key grows by one exactly when the key is `==` to `r`. -/
theorem UMap.incr_counts (L : StdLib) (m : UMap Int) (r : Register)
    (hpos : ∀ e ∈ m, 0 < e.2) (hsum : (m.map Prod.snd).sum + 1 < 2147483648) :
    (∀ e ∈ UMap.incr L m r, 0 < e.2) ∧
    ((UMap.incr L m r).map Prod.snd).sum = (m.map Prod.snd).sum + 1 ∧
    ∀ k, UMap.countOf L (UMap.incr L m r) k =
      UMap.countOf L m k + (if Register.eq L r k then 1 else 0) := by
  induction m with
  | nil =>
    refine ⟨?_, ?_, ?_⟩
    · intro e he
      simp only [UMap.incr, List.mem_singleton] at he
      subst he
      simp [wrapInt32_eq]
    · simp [UMap.incr, wrapInt32_eq]
    · intro k
      by_cases hk : Register.eq L r k = true <;>
        simp [UMap.incr, UMap.countOf, UMap.find, List.find?, hk, wrapInt32_eq]
  | cons e1 m ih =>
    have hpos2 : ∀ e ∈ m, 0 < e.2 := fun e he => hpos e (List.mem_cons_of_mem _ he)
    have h1 := hpos e1 (List.mem_cons_self _ _)
    obtain ⟨s0, _⟩ := UMap.le_sum m hpos2
    simp only [List.map_cons, List.sum_cons] at hsum
    by_cases he1 : Register.eq L e1.1 r = true
    · have hw : wrapInt32 (e1.2 + 1) = e1.2 + 1 := wrapInt32_eq _ (by omega) (by omega)
      refine ⟨?_, ?_, ?_⟩
      · intro e he
        simp only [UMap.incr, he1, if_true, hw, List.mem_cons] at he
        rcases he with rfl | he
        · simp; omega
        · exact hpos2 e he
      · simp only [UMap.incr, he1, if_true, hw, List.map_cons, List.sum_cons]
        omega
      · intro k
        rw [← Register.eq_congr_left L he1 k]
        by_cases hk : Register.eq L e1.1 k = true <;>
          simp [UMap.incr, UMap.countOf, UMap.find, List.find?, he1, hk, hw]
    · obtain ⟨i1, i2, i3⟩ := ih hpos2 (by omega)
      have he1f : Register.eq L e1.1 r = false := by simpa using he1
      refine ⟨?_, ?_, ?_⟩
      · intro e he
        simp only [UMap.incr, he1f, Bool.false_eq_true, if_false, List.mem_cons] at he
        rcases he with rfl | he
        · exact h1
        · exact i1 e he
      · simp only [UMap.incr, he1f, Bool.false_eq_true, if_false, List.map_cons, List.sum_cons,
          i2]
        omega
      · intro k
        have hk3 := i3 k
        simp only [UMap.countOf, UMap.find] at hk3 ⊢
        by_cases hk : Register.eq L e1.1 k = true
        · have hrk : Register.eq L r k = false := by
            cases h : Register.eq L r k with
            | false => rfl
            | true => exact absurd (Register.eq_trans L hk (Register.eq_symm L h)) he1
          simp [UMap.incr, he1f, List.find?, hk, hrk]
        · have hkf : Register.eq L e1.1 k = false := by simpa using hk
          simp only [UMap.incr, he1f, Bool.false_eq_true, if_false, List.find?, hkf]
          exact hk3

/-- Counting the registers `rs` into a map, below the range of `int`: the keys stay
distinct, the counts positive, and the count of every key grows by the number of
registers `==` to it; every key is a key of the old map or one of the registers. -/
theorem UMap.foldl_incr (L : StdLib) (rs : List Register) :
    ∀ m : UMap Int, UMap.Distinct L m → (∀ e ∈ m, 0 < e.2) →
      (m.map Prod.snd).sum + rs.length < 2147483648 →
      UMap.Distinct L (rs.foldl (UMap.incr L) m) ∧
      (∀ e ∈ rs.foldl (UMap.incr L) m, 0 < e.2) ∧
      ((rs.foldl (UMap.incr L) m).map Prod.snd).sum = (m.map Prod.snd).sum + rs.length ∧
      (∀ k, UMap.countOf L (rs.foldl (UMap.incr L) m) k =
        UMap.countOf L m k + rs.countP (fun r => Register.eq L r k)) ∧
      (∀ e ∈ rs.foldl (UMap.incr L) m, (∃ e0 ∈ m, e0.1 = e.1) ∨ e.1 ∈ rs) := by
  induction rs with
  | nil =>
    intro m hd hp _
    exact ⟨hd, hp, by simp, fun k => by simp, fun e he => Or.inl ⟨e, he, rfl⟩⟩
  | cons r rs ih =>
    intro m hd hp hs
    simp only [List.length_cons, Nat.cast_add, Nat.cast_one] at hs
    obtain ⟨c1, c2, c3⟩ := UMap.incr_counts L m r hp (by omega)
    obtain ⟨i1, i2, i3, i4, i5⟩ := ih (UMap.incr L m r) (UMap.distinct_incr L m r hd) c1
      (by rw [c2]; omega)
    refine ⟨i1, i2, ?_, ?_, ?_⟩
    · simp only [List.foldl_cons, i3, c2, List.length_cons, Nat.cast_add, Nat.cast_one]
      omega
    · intro k
      simp only [List.foldl_cons, i4 k, c3 k, List.countP_cons]
      split
      · simp; omega
      · simp
    · intro e he
      rcases i5 e he with ⟨e0, h0, h00⟩ | h0
      · rcases UMap.mem_incr_key L m r e0 h0 with ⟨e1, h1, h11⟩ | ⟨h1, _⟩
        · exact Or.inl ⟨e1, h1, h11.trans h00⟩
        · exact Or.inr (by rw [← h00, h1]; exact List.mem_cons_self _ _)
      · exact Or.inr (List.mem_cons_of_mem _ h0)

theorem countRegisters_eq (L : StdLib) (input : List Tuple) (m : UMap Int) :
    countRegisters L input m = input.flatten.foldl (UMap.incr L) m :=
  (List.foldl_flatten (UMap.incr L) m input).symm

theorem SetOp.size_eq (input : List Tuple) : SetOp.size input = input.flatten.length := by
  simp [SetOp.size, List.length_flatten]

/-- The registers pushed for the entries of a map without `==` keys, each entry pushing
registers `==` to its key: those `==` to `k` are the ones pushed for the entry of `k`. -/
theorem UMap.countP_flatMap {β : Type} (L : StdLib) (f : Register × β → List Register)
    (k : Register) (m : UMap β) (hm : UMap.Distinct L m)
    (hf : ∀ e ∈ m, ∀ r ∈ f e, Register.eq L r e.1 = true) :
    (m.flatMap f).countP (fun r => Register.eq L r k) =
      match UMap.find L m k with
      | some e => (f e).length
      | none => 0 := by
  induction m with
  | nil => rfl
  | cons e1 m ih =>
    have hd := hm
    simp only [UMap.Distinct, List.pairwise_cons] at hd
    have ih2 := ih hd.2 (fun e he => hf e (List.mem_cons_of_mem _ he))
    simp only [List.flatMap_cons, List.countP_append]
    by_cases h1 : Register.eq L e1.1 k = true
    · have hfind : UMap.find L (e1 :: m) k = some e1 := by simp [UMap.find, List.find?, h1]
      have hnone : UMap.find L m k = none := by
        simp only [UMap.find]
        rw [List.find?_eq_none]
        intro e he hek
        have := hd.1 e he
        rw [Register.eq_trans L h1 (Register.eq_symm L hek)] at this
        exact absurd this (by simp)
      rw [hnone] at ih2
      rw [hfind, ih2, Nat.add_zero]
      rw [List.countP_eq_length]
      intro r hr
      exact Register.eq_trans L (hf e1 (List.mem_cons_self _ _) r hr) h1
    · have h1f : Register.eq L e1.1 k = false := by simpa using h1
      have hfind : UMap.find L (e1 :: m) k = UMap.find L m k := by
        simp [UMap.find, List.find?, h1f]
      have hzero : (f e1).countP (fun r => Register.eq L r k) = 0 := by
        rw [List.countP_eq_zero]
        intro r hr hrk
        have := Register.eq_trans L (Register.eq_symm L (hf e1 (List.mem_cons_self _ _) r hr)) hrk
        rw [h1f] at this
        exact absurd this (by simp)
      rw [hfind, hzero, Nat.zero_add, ih2]

/-- The multiplicity of a one-column tuple in a one-column input is the number of its
registers `==` to the column. -/
theorem SetOp.mult_singleton (L : StdLib) (input : List Tuple) (k : Register)
    (h : ∀ t ∈ input, t.length = 1) :
    SetOp.mult L input [k] = input.flatten.countP (fun r => Register.eq L r k) := by
  induction input with
  | nil => rfl
  | cons t ts ih =>
    have ht := h t (List.mem_cons_self _ _)
    have ih2 := ih (fun u hu => h u (List.mem_cons_of_mem _ hu))
    simp only [SetOp.mult] at ih2 ⊢
    match t, ht with
    | [r], _ =>
      simp only [List.countP_cons, List.flatten_cons, List.countP_append, ih2, Tuple.eq,
        Bool.and_true, List.countP_nil, Nat.zero_add]
      omega

/-- A tuple that has not one column has multiplicity zero in a one-column input. -/
theorem SetOp.mult_other (L : StdLib) (input : List Tuple) (t : Tuple)
    (h : ∀ u ∈ input, u.length = 1) (ht : t.length ≠ 1) : SetOp.mult L input t = 0 := by
  simp only [SetOp.mult, List.countP_eq_zero]
  intro u hu
  have hu1 := h u hu
  match u, hu1, t, ht with
  | [r], _, [], _ => simp [Tuple.eq]
  | [r], _, [a], h2 => simp at h2
  | [r], _, a :: b :: c, _ => simp [Tuple.eq]

theorem SetOp.flatten_map_singleton (regs : List Register) :
    (regs.map (fun r => [r])).flatten = regs := by
  induction regs with
  | nil => rfl
  | cons r rs ih => simp [ih]

theorem Register.lt_eq_gt (a b : Register) (h : Register.sameType a b = true) :
    Register.lt a b = Register.gt b a := by
  cases a <;> cases b <;>
    simp_all [Register.lt, Register.gt, Register.sameType, Register.get_type, Register.as_int,
      Register.as_string]
  rename_i s1 s2
  have := strCompare_swap s1 s2
  constructor <;> intro h <;> omega

/-- The comparator of the set operators is a strict weak ordering of registers of one
variant. -/
theorem SetOp.lt_strictWeak (l : List Register)
    (ht : ∀ r1 ∈ l, ∀ r2 ∈ l, Register.sameType r1 r2 = true) : StrictWeak SetOp.comp l := by
  refine ⟨?_, ?_, ?_⟩
  · intro a ha
    simp only [SetOp.comp, Register.lt_eq_gt a a (ht a ha a ha), Register.gt_irrefl]
  · intro a ha b hb c hc h1 h2
    simp only [SetOp.comp] at h1 h2 ⊢
    rw [Register.lt_eq_gt _ _ (ht a ha b hb)] at h1
    rw [Register.lt_eq_gt _ _ (ht b hb c hc)] at h2
    rw [Register.lt_eq_gt _ _ (ht a ha c hc)]
    exact Register.gt_trans (ht c hc b hb) (ht b hb a ha) h2 h1
  · intro a ha b hb c hc h1 h2 h3 h4
    simp only [SetOp.comp] at h1 h2 h3 h4 ⊢
    rw [Register.lt_eq_gt _ _ (ht a ha b hb)] at h1
    rw [Register.lt_eq_gt _ _ (ht b hb a ha)] at h2
    rw [Register.lt_eq_gt _ _ (ht b hb c hc)] at h3
    rw [Register.lt_eq_gt _ _ (ht c hc b hb)] at h4
    have e1 := Register.eq_of_not_gt (ht a ha b hb) h2 h1
    have e2 := Register.eq_of_not_gt (ht b hb c hc) h4 h3
    subst e1; subst e2
    simp [Register.lt_eq_gt a a (ht a ha a ha), Register.gt_irrefl]

/-- Reading the handles of registers that all survive their destruction gives the
registers. -/
theorem readHandles_survive (L : StdLib) (regs : Tuple)
    (h : ∀ r ∈ regs, Register.survives L r = true) :
    readHandles (regs.map (Register.afterDestroy L)) = some regs := by
  induction regs with
  | nil => rfl
  | cons r rs ih =>
    have hr : Register.survives L r = true := h r (List.mem_cons_self _ _)
    have hrs := ih (fun x hx => h x (List.mem_cons_of_mem _ hx))
    simp only [List.map_cons, Register.afterDestroy, hr, if_true, readHandles, hrs,
      Option.map_some']

/-- Reading the handles of registers one of which does not survive its destruction is
undefined. -/
theorem readHandles_undefined (L : StdLib) (regs : Tuple) (r : Register) (hr : r ∈ regs)
    (h : Register.survives L r = false) :
    readHandles (regs.map (Register.afterDestroy L)) = none := by
  induction regs with
  | nil => exact absurd hr (List.not_mem_nil _)
  | cons x xs ih =>
    cases hx : Register.survives L x with
    | false =>
      simp only [List.map_cons, Register.afterDestroy, hx, Bool.false_eq_true, if_false,
        readHandles]
    | true =>
      have hmem : r ∈ xs := by
        rcases List.mem_cons.mp hr with e | e
        · rw [e, hx] at h; exact absurd h (by simp)
        · exact e
      simp only [List.map_cons, Register.afterDestroy, hx, if_true, readHandles, ih hmem,
        Option.map_none']

/-- Once the registers are materialised, driving a set operator emits them one per
tuple from `counter` on, and then `next` returns false, when the registers survive
their destruction by `get_output`. -/
theorem SetOp.drive_emit (L : StdLib) (collect : List Tuple → List Tuple → List Register)
    (regs : List Register) (hlen : regs.length < 2147483648)
    (hs : ∀ r ∈ regs, Register.survives L r = true) :
    ∀ (n i : Nat) (fuel : Nat), i + n = regs.length → n < fuel →
      driveRead (fun s => Outcome.value (SetOp.next L collect s)) (SetOp.get_output L) fuel
          ⟨[], [], (i : Int), true, [], regs⟩ =
        some ((regs.drop i).map (fun r => [r])) := by
  have hw : wrapInt32 (regs.length : Int) = regs.length := wrapInt32_eq _ (by omega) (by omega)
  intro n
  induction n with
  | zero =>
    intro i fuel hi hf
    obtain ⟨f, rfl⟩ : ∃ f, fuel = f + 1 := ⟨fuel - 1, by omega⟩
    have hdrop : regs.drop i = [] := List.drop_eq_nil_of_le (by omega)
    have hnext : SetOp.next L collect ⟨[], [], (i : Int), true, [], regs⟩ =
        (false, ⟨[], [], (i : Int), true, [], regs⟩) := by
      have : ¬ ((i : Int) < regs.length) := by omega
      simp [SetOp.next, SetOp.materialize, SetOp.emit, hw, this]
    rw [driveRead]
    simp only [hnext, hdrop, List.map_nil]
  | succ n ih =>
    intro i fuel hi hf
    obtain ⟨f, rfl⟩ : ∃ f, fuel = f + 1 := ⟨fuel - 1, by omega⟩
    have hlt : i < regs.length := by omega
    have hdrop : regs.drop i = regs[i] :: regs.drop (i + 1) := List.drop_eq_getElem_cons hlt
    have hw2 : wrapInt32 ((i : Int) + 1) = ((i + 1 : Nat) : Int) := by
      rw [wrapInt32_eq _ (by omega) (by omega)]; push_cast; rfl
    have hget : regs.getD i (Register.int 0) = regs[i] := by
      simp [List.getD, List.getElem?_eq_getElem hlt]
    have hnext : SetOp.next L collect ⟨[], [], (i : Int), true, [], regs⟩ =
        (true, ⟨[], [], ((i + 1 : Nat) : Int), true, [regs[i]], regs⟩) := by
      have : (i : Int) < regs.length := by omega
      simp only [SetOp.next, SetOp.materialize, SetOp.emit, hw, this, if_true, hw2,
        Int.toNat_ofNat, hget, List.nil_append]
    have hih := ih (i + 1) f (by omega) (by omega)
    have hread : readHandles [Register.afterDestroy L regs[i]] = some [regs[i]] := by
      have := readHandles_survive L [regs[i]] (fun r hr => by
        rw [List.mem_singleton] at hr
        rw [hr]
        exact hs _ (List.getElem_mem hlt))
      simpa only [List.map_cons, List.map_nil] using this
    rw [driveRead]
    simp only [hnext, SetOp.get_output, List.map_cons, List.map_nil, hread, hih, hdrop]

/-- The tuples a consumer reads from a set operator are the sorted registers, one per
tuple, provided they are no more than the registers of the inputs, within the range of
`int`, and survive their destruction by `get_output`. -/
theorem SetOp.run_eq (L : StdLib) (collect : List Tuple → List Tuple → List Register)
    (left right : List Tuple)
    (h1 : (L.sort SetOp.comp (collect left right)).length ≤ SetOp.size left + SetOp.size right)
    (h2 : (L.sort SetOp.comp (collect left right)).length < 2147483648)
    (hs : ∀ r ∈ L.sort SetOp.comp (collect left right), Register.survives L r = true) :
    SetOp.run L collect left right =
      some ((L.sort SetOp.comp (collect left right)).map (fun r => [r])) := by
  have hnext : SetOp.next L collect (SetOp.mk0 left right) =
      SetOp.next L collect ⟨[], [], ((0 : Nat) : Int), true, [],
        L.sort SetOp.comp (collect left right)⟩ := by
    simp [SetOp.next, SetOp.materialize, SetOp.mk0]
  have h := SetOp.drive_emit L collect _ h2 hs (L.sort SetOp.comp (collect left right)).length 0
    (SetOp.size left + SetOp.size right + 1) (by omega) (by omega)
  rw [List.drop_zero] at h
  rw [← h, SetOp.run, driveRead, driveRead, hnext]

/-- The map that counts the registers of `input`. -/
theorem countRegisters_spec (L : StdLib) (input : List Tuple)
    (hs : input.flatten.length < 2147483648) :
    UMap.Distinct L (countRegisters L input []) ∧
    (∀ e ∈ countRegisters L input [], 0 < e.2) ∧
    ((countRegisters L input []).map Prod.snd).sum = input.flatten.length ∧
    (∀ k, UMap.countOf L (countRegisters L input []) k =
      input.flatten.countP (fun r => Register.eq L r k)) ∧
    (∀ e ∈ countRegisters L input [], e.1 ∈ input.flatten) := by
  rw [countRegisters_eq]
  obtain ⟨h1, h2, h3, h4, h5⟩ := UMap.foldl_incr L input.flatten [] List.Pairwise.nil
    (by simp) (by simp only [List.map_nil, List.sum_nil]; omega)
  refine ⟨h1, h2, by simpa using h3, fun k => ?_, fun e he => ?_⟩
  · have := h4 k
    simpa [UMap.countOf, UMap.find] using this
  · rcases h5 e he with ⟨e0, h0, _⟩ | h0
    · cases h0
    · exact h0

/-- The registers pushed while iterating over a counting map: how many are `==` to `k`,
how many there are at most, and where they come from. -/
theorem UMap.iter_flatMap (L : StdLib) (hL : L.Conforms) (m : UMap Int)
    (f : Register × Int → List Register) (hm : UMap.Distinct L m)
    (hf : ∀ e ∈ m, ∀ r ∈ f e, Register.eq L r e.1 = true) :
    (∀ k, ((L.iter m).flatMap f).countP (fun r => Register.eq L r k) =
      ((UMap.find L m k).map (fun e => (f e).length)).getD 0) ∧
    ((∀ e ∈ m, ((f e).length : Int) ≤ e.2) →
      (((L.iter m).flatMap f).length : Int) ≤ (m.map Prod.snd).sum) ∧
    (∀ r ∈ (L.iter m).flatMap f, ∃ e ∈ m, r ∈ f e) := by
  have hp : ((L.iter m).flatMap f).Perm (m.flatMap f) :=
    List.Perm.flatMap_right f (hL.iter_perm m)
  refine ⟨fun k => ?_, fun hle => ?_, fun r hr => ?_⟩
  · rw [hp.countP_eq, UMap.countP_flatMap L f k m hm hf]
    cases UMap.find L m k <;> rfl
  · rw [hp.length_eq]
    clear hp hm hf
    induction m with
    | nil => simp
    | cons e m ih =>
      have := ih (fun e2 he2 => hle e2 (List.mem_cons_of_mem _ he2))
      have h1 := hle e (List.mem_cons_self _ _)
      simp only [List.flatMap_cons, List.length_append, Nat.cast_add, List.map_cons,
        List.sum_cons]
      omega
  · obtain ⟨e, he, hre⟩ := List.mem_flatMap.mp (hp.mem_iff.mp hr)
    exact ⟨e, he, hre⟩

theorem pushTimes_length (lo hi : Int) (r : Register) :
    (pushTimes lo hi r).length = (hi - lo).toNat := by
  simp [pushTimes]

theorem pushTimes_mem (lo hi : Int) (r x : Register) (h : x ∈ pushTimes lo hi r) : x = r :=
  (List.mem_replicate.mp h).2

/-- What `UnionAll` collects before sorting. -/
theorem UnionAll.union_all_collect (L : StdLib) (hL : L.Conforms) (left right : List Tuple)
    (hs : left.flatten.length + right.flatten.length < 2147483648) :
    (∀ k, (UnionAll.collect L left right).countP (fun r => Register.eq L r k) =
      left.flatten.countP (fun r => Register.eq L r k) +
        right.flatten.countP (fun r => Register.eq L r k)) ∧
    (UnionAll.collect L left right).length ≤ left.flatten.length + right.flatten.length ∧
    (∀ r ∈ UnionAll.collect L left right, r ∈ left.flatten ++ right.flatten) := by
  have hm : countRegisters L right (countRegisters L left []) =
      countRegisters L (left ++ right) [] := by
    simp only [countRegisters, List.foldl_append]
  obtain ⟨c1, c2, c3, c4, c5⟩ := countRegisters_spec L (left ++ right)
    (by simp only [List.flatten_append, List.length_append]; omega)
  obtain ⟨f1, f2, f3⟩ := UMap.iter_flatMap L hL (countRegisters L (left ++ right) [])
    (fun reg => pushTimes 0 reg.2 reg.1) c1
    (fun e _ r hr => by rw [pushTimes_mem _ _ _ _ hr]; exact Register.eq_refl L _)
  simp only [UnionAll.collect, hm]
  refine ⟨fun k => ?_, ?_, fun r hr => ?_⟩
  · rw [f1 k]
    have hk := c4 k
    simp only [UMap.countOf, List.flatten_append, List.countP_append] at hk
    cases hfind : UMap.find L (countRegisters L (left ++ right) []) k with
    | none =>
      rw [hfind] at hk
      have hk2 : (0 : Int) = ((left.flatten.countP (fun r => Register.eq L r k) : Nat) : Int) +
          ((right.flatten.countP (fun r => Register.eq L r k) : Nat) : Int) := hk
      simp only [Option.map_none', Option.getD_none]
      omega
    | some e =>
      rw [hfind] at hk
      have hk2 : e.2 = ((left.flatten.countP (fun r => Register.eq L r k) : Nat) : Int) +
          ((right.flatten.countP (fun r => Register.eq L r k) : Nat) : Int) := hk
      simp only [Option.map_some', Option.getD_some, pushTimes_length]
      omega
  · have := f2 (fun e he => by
      have := c2 e he
      simp only [pushTimes_length]
      omega)
    rw [c3] at this
    simp only [List.flatten_append, List.length_append] at this
    omega
  · obtain ⟨e, he, hre⟩ := f3 r hr
    rw [pushTimes_mem _ _ _ _ hre, ← List.flatten_append]
    exact c5 e he

/-- What `IntersectAll` collects before sorting. -/
theorem IntersectAll.intersect_all_collect (L : StdLib) (hL : L.Conforms) (left right : List Tuple)
    (hl : left.flatten.length < 2147483648) (hr : right.flatten.length < 2147483648) :
    (∀ k, (IntersectAll.collect L left right).countP (fun r => Register.eq L r k) =
      min (left.flatten.countP (fun r => Register.eq L r k))
        (right.flatten.countP (fun r => Register.eq L r k))) ∧
    (IntersectAll.collect L left right).length ≤ left.flatten.length ∧
    (∀ r ∈ IntersectAll.collect L left right, r ∈ left.flatten ++ right.flatten) := by
  obtain ⟨c1, c2, c3, c4, c5⟩ := countRegisters_spec L left hl
  obtain ⟨_, d2, _, d4, d5⟩ := countRegisters_spec L right hr
  have hlen : ∀ e : Register × Int, 0 < e.2 →
      ((IntersectAll.pushEntry L (countRegisters L right []) e).length : Int) =
        min e.2 (UMap.countOf L (countRegisters L right []) e.1) := by
    intro e hpos
    simp only [IntersectAll.pushEntry, UMap.countOf]
    cases hfind : UMap.find L (countRegisters L right []) e.1 with
    | none => simp only [List.length_nil]; omega
    | some found =>
      have hfpos := d2 found (UMap.find_mem L _ _ _ hfind)
      by_cases hle : e.2 ≤ found.2
      · simp only [hle, if_true, pushTimes_length]; omega
      · simp only [hle, if_false, pushTimes_length]; omega
  obtain ⟨f1, f2, f3⟩ := UMap.iter_flatMap L hL (countRegisters L left [])
    (IntersectAll.pushEntry L (countRegisters L right [])) c1 (by
      intro e _ r hr
      simp only [IntersectAll.pushEntry] at hr
      cases hfind : UMap.find L (countRegisters L right []) e.1 with
      | none => rw [hfind] at hr; cases hr
      | some found =>
        rw [hfind] at hr
        simp only at hr
        split at hr
        · rw [pushTimes_mem _ _ _ _ hr]; exact Register.eq_refl L _
        · rw [pushTimes_mem _ _ _ _ hr]; exact UMap.find_key L _ _ _ hfind)
  simp only [IntersectAll.collect]
  refine ⟨fun k => ?_, ?_, fun r hr => ?_⟩
  · rw [f1 k]
    have hk := c4 k
    have hk2 := d4 k
    simp only [UMap.countOf] at hk
    cases hfind : UMap.find L (countRegisters L left []) k with
    | none =>
      rw [hfind] at hk
      have hk3 : (0 : Int) = ((left.flatten.countP (fun r => Register.eq L r k) : Nat) : Int) :=
        hk
      simp only [Option.map_none', Option.getD_none]
      omega
    | some e =>
      rw [hfind] at hk
      have hk3 : e.2 = ((left.flatten.countP (fun r => Register.eq L r k) : Nat) : Int) := hk
      have hpos := c2 e (UMap.find_mem L _ _ _ hfind)
      have h3 := hlen e hpos
      have hcong : UMap.countOf L (countRegisters L right []) e.1 =
          UMap.countOf L (countRegisters L right []) k := by
        simp only [UMap.countOf, UMap.find_congr L _ (UMap.find_key L _ _ _ hfind)]
      rw [hcong, hk2] at h3
      simp only [Option.map_some', Option.getD_some]
      omega
  · have := f2 (fun e he => by
      have h3 := hlen e (c2 e he)
      omega)
    rw [c3] at this
    omega
  · obtain ⟨e, he, hre⟩ := f3 r hr
    simp only [IntersectAll.pushEntry] at hre
    cases hfind : UMap.find L (countRegisters L right []) e.1 with
    | none => rw [hfind] at hre; cases hre
    | some found =>
      rw [hfind] at hre
      simp only at hre
      split at hre
      · rw [pushTimes_mem _ _ _ _ hre]
        exact List.mem_append_left _ (c5 e he)
      · rw [pushTimes_mem _ _ _ _ hre]
        exact List.mem_append_right _ (d5 found (UMap.find_mem L _ _ _ hfind))

/-- What `ExceptAll` collects before sorting. -/
theorem ExceptAll.except_all_collect (L : StdLib) (hL : L.Conforms) (left right : List Tuple)
    (hl : left.flatten.length < 2147483648) (hr : right.flatten.length < 2147483648) :
    (∀ k, (ExceptAll.collect L left right).countP (fun r => Register.eq L r k) =
      left.flatten.countP (fun r => Register.eq L r k) -
        right.flatten.countP (fun r => Register.eq L r k)) ∧
    (ExceptAll.collect L left right).length ≤ left.flatten.length ∧
    (∀ r ∈ ExceptAll.collect L left right, r ∈ left.flatten) := by
  obtain ⟨c1, c2, c3, c4, c5⟩ := countRegisters_spec L left hl
  obtain ⟨_, d2, _, d4, _⟩ := countRegisters_spec L right hr
  have hlen : ∀ e : Register × Int, 0 < e.2 →
      ((ExceptAll.pushEntry L (countRegisters L right []) e).length : Int) =
        max (e.2 - UMap.countOf L (countRegisters L right []) e.1) 0 := by
    intro e hpos
    simp only [ExceptAll.pushEntry, UMap.countOf]
    cases UMap.find L (countRegisters L right []) e.1 with
    | none => simp only [pushTimes_length]; omega
    | some found =>
      by_cases hgt : e.2 > found.2
      · simp only [hgt, if_true, pushTimes_length]; omega
      · simp only [hgt, if_false, List.length_nil]; omega
  have hmem : ∀ e : Register × Int, ∀ r ∈ ExceptAll.pushEntry L (countRegisters L right []) e,
      r = e.1 := by
    intro e r hr
    simp only [ExceptAll.pushEntry] at hr
    cases hfind : UMap.find L (countRegisters L right []) e.1 with
    | none => rw [hfind] at hr; exact pushTimes_mem _ _ _ _ hr
    | some found =>
      rw [hfind] at hr
      simp only at hr
      split at hr
      · exact pushTimes_mem _ _ _ _ hr
      · cases hr
  obtain ⟨f1, f2, f3⟩ := UMap.iter_flatMap L hL (countRegisters L left [])
    (ExceptAll.pushEntry L (countRegisters L right [])) c1
    (fun e _ r hr => by rw [hmem e r hr]; exact Register.eq_refl L _)
  simp only [ExceptAll.collect]
  refine ⟨fun k => ?_, ?_, fun r hr => ?_⟩
  · rw [f1 k]
    have hk := c4 k
    have hk2 := d4 k
    simp only [UMap.countOf] at hk
    cases hfind : UMap.find L (countRegisters L left []) k with
    | none =>
      rw [hfind] at hk
      have hk3 : (0 : Int) = ((left.flatten.countP (fun r => Register.eq L r k) : Nat) : Int) :=
        hk
      simp only [Option.map_none', Option.getD_none]
      omega
    | some e =>
      rw [hfind] at hk
      have hk3 : e.2 = ((left.flatten.countP (fun r => Register.eq L r k) : Nat) : Int) := hk
      have hpos := c2 e (UMap.find_mem L _ _ _ hfind)
      have h3 := hlen e hpos
      have hcong : UMap.countOf L (countRegisters L right []) e.1 =
          UMap.countOf L (countRegisters L right []) k := by
        simp only [UMap.countOf, UMap.find_congr L _ (UMap.find_key L _ _ _ hfind)]
      rw [hcong, hk2] at h3
      simp only [Option.map_some', Option.getD_some]
      omega
  · have := f2 (fun e he => by
      have h3 := hlen e (c2 e he)
      have := c2 e he
      have hnn : 0 ≤ UMap.countOf L (countRegisters L right []) e.1 := by
        rw [d4]; omega
      omega)
    rw [c3] at this
    omega
  · obtain ⟨e, he, hre⟩ := f3 r hr
    rw [hmem e r hre]
    exact c5 e he

theorem SetOp.flatten_length_of_single (input : List Tuple) (h : ∀ t ∈ input, t.length = 1) :
    input.flatten.length = input.length := by
  induction input with
  | nil => rfl
  | cons t ts ih =>
    simp only [List.flatten_cons, List.length_append, List.length_cons,
      h t (List.mem_cons_self _ _), ih (fun u hu => h u (List.mem_cons_of_mem _ hu))]
    omega

theorem SetOp.map_singleton_flatten (input : List Tuple) (h : ∀ t ∈ input, t.length = 1) :
    input.flatten.map (fun r => [r]) = input := by
  induction input with
  | nil => rfl
  | cons t ts ih =>
    have ht := h t (List.mem_cons_self _ _)
    match t, ht with
    | [r], _ =>
      simp only [List.flatten_cons, List.singleton_append, List.map_cons,
        ih (fun u hu => h u (List.mem_cons_of_mem _ hu))]

theorem SetOp.SingleColumn.left {left right : List Tuple} (h : SetOp.SingleColumn left right) :
    ∀ t ∈ left, t.length = 1 := fun t ht => h.1 t (List.mem_append_left _ ht)

theorem SetOp.SingleColumn.right {left right : List Tuple} (h : SetOp.SingleColumn left right) :
    ∀ t ∈ right, t.length = 1 := fun t ht => h.1 t (List.mem_append_right _ ht)

/-- The registers of one-variant inputs are of one type. -/
theorem SetOp.SingleColumn.sameType {left right : List Tuple}
    (h : SetOp.SingleColumn left right) :
    ∀ r1 ∈ left.flatten ++ right.flatten, ∀ r2 ∈ left.flatten ++ right.flatten,
      Register.sameType r1 r2 = true := by
  intro r1 h1 r2 h2
  rw [← List.flatten_append] at h1 h2
  obtain ⟨t1, ht1, hr1⟩ := List.mem_flatten.mp h1
  obtain ⟨t2, ht2, hr2⟩ := List.mem_flatten.mp h2
  exact h.2 t1 ht1 t2 ht2 r1 hr1 r2 hr2

/-- Integers survive their destruction. -/
theorem Survives.ints (L : StdLib) (input : List Tuple)
    (h : ∀ regs ∈ input, ∀ r ∈ regs, Register.get_type r = RegisterType.INT64) :
    Survives L input := by
  intro regs hregs r hr
  have := h regs hregs r hr
  cases r with
  | int v => rfl
  | str v => simp [Register.get_type] at this

/-- The registers of inputs that survive their destruction. -/
theorem Survives.flatten {L : StdLib} {left right : List Tuple} (hl : Survives L left)
    (hr : Survives L right) :
    ∀ r ∈ left.flatten ++ right.flatten, Register.survives L r = true := by
  intro r h
  rcases List.mem_append.mp h with h | h
  · obtain ⟨t, ht, hrt⟩ := List.mem_flatten.mp h
    exact hl t ht r hrt
  · obtain ⟨t, ht, hrt⟩ := List.mem_flatten.mp h
    exact hr t ht r hrt

/-- The run of a set operator over one-column inputs of one variant, given that what
it collects comes from the inputs and is no longer than they: it emits the collected
registers in ascending order, one per tuple, when they survive their destruction by
`get_output`. -/
theorem SetOp.run_sorted (L : StdLib) (hL : L.Conforms)
    (collect : List Tuple → List Tuple → List Register) (left right : List Tuple)
    (hsc : SetOp.SingleColumn left right) (hsize : left.length + right.length < 2147483648)
    (hlen : (collect left right).length ≤ left.flatten.length + right.flatten.length)
    (hmem : ∀ r ∈ collect left right, r ∈ left.flatten ++ right.flatten)
    (hsurv : ∀ r ∈ collect left right, Register.survives L r = true) :
    ∃ regs, SetOp.run L collect left right = some (regs.map (fun r => [r])) ∧
      regs.Perm (collect left right) ∧ SortedBy SetOp.comp regs := by
  have hsw : StrictWeak SetOp.comp (collect left right) :=
    SetOp.lt_strictWeak _ (fun r1 h1 r2 h2 => hsc.sameType r1 (hmem r1 h1) r2 (hmem r2 h2))
  have hp := hL.sort_perm SetOp.comp _ hsw
  have hs := hL.sort_sorted SetOp.comp _ hsw
  have hl := SetOp.flatten_length_of_single left hsc.left
  have hr := SetOp.flatten_length_of_single right hsc.right
  refine ⟨_, SetOp.run_eq L collect left right ?_ ?_ ?_, hp, hs⟩
  · rw [hp.length_eq, SetOp.size_eq, SetOp.size_eq]; exact hlen
  · rw [hp.length_eq]; omega
  · exact fun r hr => hsurv r (hp.mem_iff.mp hr)

/-- From the count of registers to the multiplicity of tuples. -/
theorem SetOp.mult_of_count (L : StdLib) (left right : List Tuple)
    (hsc : SetOp.SingleColumn left right) (regs : List Register) (g : Nat → Nat → Nat)
    (hg : g 0 0 = 0)
    (hcount : ∀ k, regs.countP (fun r => Register.eq L r k) =
      g (left.flatten.countP (fun r => Register.eq L r k))
        (right.flatten.countP (fun r => Register.eq L r k))) :
    ∀ t, SetOp.mult L (regs.map (fun r => [r])) t =
      g (SetOp.mult L left t) (SetOp.mult L right t) := by
  intro t
  have hout : ∀ u ∈ regs.map (fun r => [r]), u.length = 1 := by
    intro u hu
    obtain ⟨r, _, rfl⟩ := List.mem_map.mp hu
    rfl
  by_cases ht : t.length = 1
  · match t, ht with
    | [k], _ =>
      rw [SetOp.mult_singleton L _ k hout, SetOp.mult_singleton L left k hsc.left,
        SetOp.mult_singleton L right k hsc.right, SetOp.flatten_map_singleton, hcount k]
  · rw [SetOp.mult_other L _ t hout ht, SetOp.mult_other L left t hsc.left ht,
      SetOp.mult_other L right t hsc.right ht, hg]

/-- Without collisions among the values at hand, equal counts up to `==` mean the same
registers with the same multiplicities. -/
theorem SetOp.perm_of_count (L : StdLib) (S T regs : List Register)
    (hinj : ∀ a ∈ S, ∀ b ∈ S, Register.eq L a b = true → a = b)
    (hregs : ∀ r ∈ regs, r ∈ S) (hT : ∀ r ∈ T, r ∈ S)
    (hcount : ∀ k ∈ S, regs.countP (fun r => Register.eq L r k) =
      T.countP (fun r => Register.eq L r k)) : regs.Perm T := by
  rw [List.perm_iff_count]
  intro a
  by_cases ha : a ∈ S
  · have key : ∀ l : List Register, (∀ r ∈ l, r ∈ S) →
        l.count a = l.countP (fun r => Register.eq L r a) := by
      intro l hl
      rw [List.count]
      apply List.countP_congr
      intro r hr
      constructor
      · intro h
        have : r = a := by simpa using h
        rw [this]; exact Register.eq_refl L a
      · intro h
        have := hinj r (hl r hr) a ha h
        simp [this]
    rw [key regs hregs, key T hT, hcount a ha]
  · rw [List.count_eq_zero_of_not_mem (fun h => ha (hregs a h)),
      List.count_eq_zero_of_not_mem (fun h => ha (hT a h))]

/-- The run of `ExceptAll` over one-column inputs of one variant whose registers survive
their destruction. -/
theorem ExceptAll.except_all_run (L : StdLib) (hL : L.Conforms) (left right : List Tuple)
    (hsc : SetOp.SingleColumn left right) (hsize : left.length + right.length < 2147483648)
    (hsl : Survives L left) (hsr : Survives L right) :
    ∃ regs, ExceptAll.run L left right = some (regs.map (fun r => [r])) ∧
      SortedBy SetOp.comp regs ∧ (∀ r ∈ regs, r ∈ left.flatten) ∧
      ∀ k, regs.countP (fun r => Register.eq L r k) =
        left.flatten.countP (fun r => Register.eq L r k) -
          right.flatten.countP (fun r => Register.eq L r k) := by
  have hl := SetOp.flatten_length_of_single left hsc.left
  have hr := SetOp.flatten_length_of_single right hsc.right
  obtain ⟨c1, c2, c3⟩ := ExceptAll.except_all_collect L hL left right (by omega) (by omega)
  obtain ⟨regs, h1, h2, h3⟩ := SetOp.run_sorted L hL (ExceptAll.collect L) left right hsc hsize
    (by omega) (fun r hr => List.mem_append_left _ (c3 r hr))
    (fun r hr => Survives.flatten hsl hsr r (List.mem_append_left _ (c3 r hr)))
  exact ⟨regs, h1, h3, fun r hr => c3 r (h2.mem_iff.mp hr), fun k => by rw [h2.countP_eq, c1 k]⟩

/-- The run of `IntersectAll` over one-column inputs of one variant whose registers survive
their destruction. -/
theorem IntersectAll.intersect_all_run (L : StdLib) (hL : L.Conforms) (left right : List Tuple)
    (hsc : SetOp.SingleColumn left right) (hsize : left.length + right.length < 2147483648)
    (hsl : Survives L left) (hsr : Survives L right) :
    ∃ regs, IntersectAll.run L left right = some (regs.map (fun r => [r])) ∧
      SortedBy SetOp.comp regs ∧ (∀ r ∈ regs, r ∈ left.flatten ++ right.flatten) ∧
      ∀ k, regs.countP (fun r => Register.eq L r k) =
        min (left.flatten.countP (fun r => Register.eq L r k))
          (right.flatten.countP (fun r => Register.eq L r k)) := by
  have hl := SetOp.flatten_length_of_single left hsc.left
  have hr := SetOp.flatten_length_of_single right hsc.right
  obtain ⟨c1, c2, c3⟩ := IntersectAll.intersect_all_collect L hL left right (by omega) (by omega)
  obtain ⟨regs, h1, h2, h3⟩ := SetOp.run_sorted L hL (IntersectAll.collect L) left right hsc
    hsize (by omega) c3 (fun r hr => Survives.flatten hsl hsr r (c3 r hr))
  exact ⟨regs, h1, h3, fun r hr => c3 r (h2.mem_iff.mp hr), fun k => by rw [h2.countP_eq, c1 k]⟩

/-- The run of `UnionAll` over one-column inputs of one variant whose registers survive
their destruction. -/
theorem UnionAll.union_all_run (L : StdLib) (hL : L.Conforms) (left right : List Tuple)
    (hsc : SetOp.SingleColumn left right) (hsize : left.length + right.length < 2147483648)
    (hsl : Survives L left) (hsr : Survives L right) :
    ∃ regs, UnionAll.run L left right = some (regs.map (fun r => [r])) ∧
      SortedBy SetOp.comp regs ∧ (∀ r ∈ regs, r ∈ left.flatten ++ right.flatten) ∧
      ∀ k, regs.countP (fun r => Register.eq L r k) =
        left.flatten.countP (fun r => Register.eq L r k) +
          right.flatten.countP (fun r => Register.eq L r k) := by
  have hl := SetOp.flatten_length_of_single left hsc.left
  have hr := SetOp.flatten_length_of_single right hsc.right
  obtain ⟨c1, c2, c3⟩ := UnionAll.union_all_collect L hL left right (by omega)
  obtain ⟨regs, h1, h2, h3⟩ := SetOp.run_sorted L hL (UnionAll.collect L) left right hsc
    hsize c2 c3 (fun r hr => Survives.flatten hsl hsr r (c3 r hr))
  exact ⟨regs, h1, h3, fun r hr => c3 r (h2.mem_iff.mp hr), fun k => by rw [h2.countP_eq, c1 k]⟩

/-- C8 (ExceptAll multiplicity), evaluated on the code: `ExceptAll::get_output` destroys
the registers to which it returns pointers, so over the left input
`[("abcdefghijklmnop")]` and an empty right input the first call of `next` returns true,
the consumer reads the tuple from freed memory, and what `ExceptAll` emits is
undefined.  Over inputs of one column and one variant whose
registers survive their destruction (integers, strings kept in place), `ExceptAll`
returns, and the number of emitted tuples `==` to `t` is `max (L(t) - R(t)) 0` for every
`t`; on the inputs `[(1),(1),(1),(2)]` and `[(1),(2),(2)]` it emits `[(1),(1)]` (for a
hash of integers without collisions). -/
theorem ExceptAll_multiplicity (L : StdLib) (hL : L.Conforms) :
    (∀ left right : List Tuple, SetOp.SingleColumn left right →
      left.length + right.length < 2147483648 → Survives L left → Survives L right →
      ∃ out, ExceptAll.run L left right = some out ∧
        ∀ t : Tuple, (SetOp.mult L out t : Int) =
          max ((SetOp.mult L left t : Int) - (SetOp.mult L right t : Int)) 0) ∧
    (L.IntHashInjective →
      ExceptAll.run L
        [[Register.int 1], [Register.int 1], [Register.int 1], [Register.int 2]]
        [[Register.int 1], [Register.int 2], [Register.int 2]] =
      some [[Register.int 1], [Register.int 1]]) ∧
    (ExceptAll.next refLib (SetOp.mk0 [[Register.str (ascii "abcdefghijklmnop")]] [])).1 = true ∧
    (SetOp.get_output refLib
      (ExceptAll.next refLib (SetOp.mk0 [[Register.str (ascii "abcdefghijklmnop")]] [])).2).1 =
      [Outcome.undefined] ∧
    ExceptAll.run refLib [[Register.str (ascii "abcdefghijklmnop")]] [] = none := by
  refine ⟨?_, ?_, by decide, by decide, by decide⟩
  · intro left right hsc hsize hsl hsr
    obtain ⟨regs, h1, _, _, h4⟩ := ExceptAll.except_all_run L hL left right hsc hsize hsl hsr
    refine ⟨_, h1, fun t => ?_⟩
    rw [SetOp.mult_of_count L left right hsc regs (fun a b => a - b) rfl h4 t]
    omega
  · intro hinj
    have e := Register.eq_int_of_injective L hinj
    have i1 : isInt64 1 := by unfold isInt64; omega
    have i2 : isInt64 2 := by unfold isInt64; omega
    have e11 := e 1 1 i1 i1
    have e12 := e 1 2 i1 i2
    have e21 := e 2 1 i2 i1
    have e22 := e 2 2 i2 i2
    simp only [decide_True, decide_False] at e11 e22
    have e12f : Register.eq L (Register.int 1) (Register.int 2) = false := by simpa using e12
    have e21f : Register.eq L (Register.int 2) (Register.int 1) = false := by simpa using e21
    obtain ⟨regs, h1, _, h3, h4⟩ := ExceptAll.except_all_run L hL
      [[Register.int 1], [Register.int 1], [Register.int 1], [Register.int 2]]
      [[Register.int 1], [Register.int 2], [Register.int 2]]
      (by unfold SetOp.SingleColumn; decide) (by norm_num)
      (Survives.ints L _ (by decide)) (Survives.ints L _ (by decide))
    have hp : regs.Perm [Register.int 1, Register.int 1] := by
      apply SetOp.perm_of_count L [Register.int 1, Register.int 2]
      · intro a ha b hb hab
        simp only [List.mem_cons, List.mem_singleton, List.not_mem_nil, or_false] at ha hb
        rcases ha with rfl | rfl <;> rcases hb with rfl | rfl <;> simp_all
      · intro r hr
        have := h3 r hr
        simp only [List.flatten_cons, List.flatten_nil, List.singleton_append, List.append_nil,
          List.mem_cons, List.mem_singleton, List.not_mem_nil, or_false] at this
        simp only [List.mem_cons, List.mem_singleton, List.not_mem_nil, or_false]
        rcases this with h | h | h | h <;> simp [h]
      · intro r hr
        simp only [List.mem_cons, List.mem_singleton, List.not_mem_nil, or_false] at hr ⊢
        rcases hr with h | h <;> simp [h]
      · intro k hk
        simp only [List.mem_cons, List.mem_singleton, List.not_mem_nil, or_false] at hk
        rw [h4 k]
        rcases hk with rfl | rfl <;>
          simp [List.countP_cons, e11, e22, e12f, e21f]
    have hregs : regs = [Register.int 1, Register.int 1] := by
      have hlen := hp.length_eq
      have hall : ∀ b ∈ regs, b = Register.int 1 := by
        intro b hb
        have := hp.mem_iff.mp hb
        simpa using this
      exact List.eq_replicate_iff.mpr ⟨hlen, hall⟩
    rw [h1, hregs]
    rfl

/-- Without collisions, registers that come from the one-column input `A` and have its
counts up to `==` are, one per tuple, a permutation of `A`. -/
theorem SetOp.perm_input (L : StdLib) (A : List Tuple) (hA : ∀ t ∈ A, t.length = 1)
    (hnc : SetOp.NoCollision L A) (regs : List Register) (hmem : ∀ r ∈ regs, r ∈ A.flatten)
    (hcount : ∀ k, regs.countP (fun r => Register.eq L r k) =
      A.flatten.countP (fun r => Register.eq L r k)) :
    (regs.map (fun r => [r])).Perm A := by
  have hp : regs.Perm A.flatten := by
    apply SetOp.perm_of_count L A.flatten A.flatten regs ?_ hmem (fun r hr => hr)
      (fun k _ => hcount k)
    intro a ha b hb hab
    obtain ⟨t1, ht1, hr1⟩ := List.mem_flatten.mp ha
    obtain ⟨t2, ht2, hr2⟩ := List.mem_flatten.mp hb
    exact hnc t1 ht1 t2 ht2 a hr1 b hr2 hab
  have := hp.map (fun r => [r])
  rwa [SetOp.map_singleton_flatten A hA] at this

/-- C9 (IntersectAll multiplicity), evaluated on the code: `IntersectAll::get_output`
destroys the registers to which it returns pointers, so with `A` the input
`[("abcdefghijklmnop")]` the first call of `next` of `IntersectAll(A, A)` returns true,
the consumer reads the tuple from freed memory, and what is emitted is undefined.  Over inputs of one column and one variant whose registers
survive their destruction (integers, strings kept in place), `IntersectAll` returns, and
the number of emitted tuples `==` to `t` is `min (L(t)) (R(t))` for every `t`;
`IntersectAll(A, A)` then emits its tuples in ascending order, with the multiplicities
of `A` up to `==`, and they are a permutation of `A` when no two different values of `A`
are `==` (have the same hash). -/
theorem IntersectAll_multiplicity (L : StdLib) (hL : L.Conforms) :
    (∀ left right : List Tuple, SetOp.SingleColumn left right →
      left.length + right.length < 2147483648 → Survives L left → Survives L right →
      ∃ out, IntersectAll.run L left right = some out ∧
        ∀ t : Tuple, SetOp.mult L out t = min (SetOp.mult L left t) (SetOp.mult L right t)) ∧
    (∀ A : List Tuple, SetOp.SingleColumn A A → A.length + A.length < 2147483648 →
      Survives L A →
      ∃ regs : List Register,
        IntersectAll.run L A A = some (regs.map (fun r => [r])) ∧
        SortedBy SetOp.comp regs ∧
        (∀ t : Tuple, SetOp.mult L (regs.map (fun r => [r])) t = SetOp.mult L A t) ∧
        (SetOp.NoCollision L A → (regs.map (fun r => [r])).Perm A)) ∧
    (IntersectAll.next refLib (SetOp.mk0 [[Register.str (ascii "abcdefghijklmnop")]]
      [[Register.str (ascii "abcdefghijklmnop")]])).1 = true ∧
    (SetOp.get_output refLib
      (IntersectAll.next refLib (SetOp.mk0 [[Register.str (ascii "abcdefghijklmnop")]]
        [[Register.str (ascii "abcdefghijklmnop")]])).2).1 = [Outcome.undefined] ∧
    IntersectAll.run refLib [[Register.str (ascii "abcdefghijklmnop")]]
      [[Register.str (ascii "abcdefghijklmnop")]] = none := by
  refine ⟨?_, ?_, by decide, by decide, by decide⟩
  · intro left right hsc hsize hsl hsr
    obtain ⟨regs, h1, _, _, h4⟩ :=
      IntersectAll.intersect_all_run L hL left right hsc hsize hsl hsr
    exact ⟨_, h1, SetOp.mult_of_count L left right hsc regs (fun a b => min a b) rfl h4⟩
  · intro A hsc hsize hsA
    obtain ⟨regs, h1, h2, h3, h4⟩ := IntersectAll.intersect_all_run L hL A A hsc hsize hsA hsA
    have hcount : ∀ k, regs.countP (fun r => Register.eq L r k) =
        A.flatten.countP (fun r => Register.eq L r k) := fun k => by rw [h4 k, Nat.min_self]
    refine ⟨regs, h1, h2, fun t => ?_, fun hnc => ?_⟩
    · rw [SetOp.mult_of_count L A A hsc regs (fun a b => min a b) rfl h4 t, Nat.min_self]
    · exact SetOp.perm_input L A hsc.left hnc regs
        (fun r hr => by simpa using h3 r hr) hcount

/-- C10 (UnionAll multiplicity), evaluated on the code: `UnionAll::get_output` destroys
the registers to which it returns pointers, so with `A` the input
`[("abcdefghijklmnop"),("ABCDEFGHIJKLMNOP")]` the first call of `next` of
`UnionAll(A, [])` returns true, the consumer reads the tuple from freed memory, and what
is emitted is undefined.  Over inputs of one column and one
variant whose registers survive their destruction (integers, strings kept in place),
`UnionAll` returns, and the number of emitted tuples `==` to `t` is `L(t) + R(t)` for
every `t`; `UnionAll(A, [])` then emits its tuples in ascending order, with the
multiplicities of `A` up to `==`, and they are a permutation of `A` when no two
different values of `A` are `==` (have the same hash). -/
theorem UnionAll_multiplicity (L : StdLib) (hL : L.Conforms) :
    (∀ left right : List Tuple, SetOp.SingleColumn left right →
      left.length + right.length < 2147483648 → Survives L left → Survives L right →
      ∃ out, UnionAll.run L left right = some out ∧
        ∀ t : Tuple, SetOp.mult L out t = SetOp.mult L left t + SetOp.mult L right t) ∧
    (∀ A : List Tuple, SetOp.SingleColumn A [] → A.length < 2147483648 → Survives L A →
      ∃ regs : List Register,
        UnionAll.run L A [] = some (regs.map (fun r => [r])) ∧
        SortedBy SetOp.comp regs ∧
        (∀ t : Tuple, SetOp.mult L (regs.map (fun r => [r])) t = SetOp.mult L A t) ∧
        (SetOp.NoCollision L A → (regs.map (fun r => [r])).Perm A)) ∧
    (UnionAll.next refLib (SetOp.mk0
      [[Register.str (ascii "abcdefghijklmnop")], [Register.str (ascii "ABCDEFGHIJKLMNOP")]]
      [])).1 = true ∧
    (SetOp.get_output refLib (UnionAll.next refLib (SetOp.mk0
      [[Register.str (ascii "abcdefghijklmnop")], [Register.str (ascii "ABCDEFGHIJKLMNOP")]]
      [])).2).1 = [Outcome.undefined] ∧
    UnionAll.run refLib
      [[Register.str (ascii "abcdefghijklmnop")], [Register.str (ascii "ABCDEFGHIJKLMNOP")]]
      [] = none := by
  refine ⟨?_, ?_, by decide, by decide, by decide⟩
  · intro left right hsc hsize hsl hsr
    obtain ⟨regs, h1, _, _, h4⟩ := UnionAll.union_all_run L hL left right hsc hsize hsl hsr
    exact ⟨_, h1, SetOp.mult_of_count L left right hsc regs (fun a b => a + b) rfl h4⟩
  · intro A hsc hsize hsA
    obtain ⟨regs, h1, h2, h3, h4⟩ := UnionAll.union_all_run L hL A [] hsc
      (by simpa using hsize) hsA (fun _ h => absurd h (List.not_mem_nil _))
    have hcount : ∀ k, regs.countP (fun r => Register.eq L r k) =
        A.flatten.countP (fun r => Register.eq L r k) := fun k => by
      rw [h4 k]; simp
    refine ⟨regs, h1, h2, fun t => ?_, fun hnc => ?_⟩
    · rw [SetOp.mult_of_count L A [] hsc regs (fun a b => a + b) rfl h4 t]
      simp [SetOp.mult]
    · exact SetOp.perm_input L A hsc.left hnc regs
        (fun r hr => by simpa using h3 r hr) hcount

/-- C8 witness, reference library: three registers 1 and one register 2 on the left, one
register 1 and two registers 2 on the right. -/
theorem ExceptAll_multiplicity_witness :
    refLib.Conforms ∧ refLib.IntHashInjective ∧
    SetOp.SingleColumn
      [[Register.int 1], [Register.int 1], [Register.int 1], [Register.int 2]]
      [[Register.int 1], [Register.int 2], [Register.int 2]] ∧
    (∃ out, ExceptAll.run refLib
        [[Register.int 1], [Register.int 1], [Register.int 1], [Register.int 2]]
        [[Register.int 1], [Register.int 2], [Register.int 2]] = some out ∧
      ∀ t : Tuple, (SetOp.mult refLib out t : Int) =
        max ((SetOp.mult refLib
            [[Register.int 1], [Register.int 1], [Register.int 1], [Register.int 2]] t : Int) -
          (SetOp.mult refLib [[Register.int 1], [Register.int 2], [Register.int 2]] t : Int))
          0) ∧
    ExceptAll.run refLib
      [[Register.int 1], [Register.int 1], [Register.int 1], [Register.int 2]]
      [[Register.int 1], [Register.int 2], [Register.int 2]] =
    some [[Register.int 1], [Register.int 1]] :=
  ⟨refLib_conforms, refLib_intHashInjective, by unfold SetOp.SingleColumn; decide,
    (ExceptAll_multiplicity refLib refLib_conforms).1 _ _
      (by unfold SetOp.SingleColumn; decide) (by norm_num)
      (by unfold Survives; decide) (by unfold Survives; decide),
    (ExceptAll_multiplicity refLib refLib_conforms).2.1 refLib_intHashInjective⟩

/-- C9 witness, reference library: strings on both sides, and `IntersectAll(A, A)`. -/
theorem IntersectAll_multiplicity_witness :
    refLib.Conforms ∧
    SetOp.SingleColumn
      [[Register.str (ascii "b")], [Register.str (ascii "a")], [Register.str (ascii "b")]]
      [[Register.str (ascii "b")], [Register.str (ascii "c")]] ∧
    (∃ out, IntersectAll.run refLib
        [[Register.str (ascii "b")], [Register.str (ascii "a")], [Register.str (ascii "b")]]
        [[Register.str (ascii "b")], [Register.str (ascii "c")]] = some out ∧
      ∀ t : Tuple, SetOp.mult refLib out t =
        min (SetOp.mult refLib
            [[Register.str (ascii "b")], [Register.str (ascii "a")],
              [Register.str (ascii "b")]] t)
          (SetOp.mult refLib [[Register.str (ascii "b")], [Register.str (ascii "c")]] t)) ∧
    (∃ regs : List Register,
      IntersectAll.run refLib
        [[Register.str (ascii "b")], [Register.str (ascii "a")], [Register.str (ascii "b")]]
        [[Register.str (ascii "b")], [Register.str (ascii "a")], [Register.str (ascii "b")]] =
        some (regs.map (fun r => [r])) ∧
      SortedBy SetOp.comp regs ∧
      (∀ t : Tuple, SetOp.mult refLib (regs.map (fun r => [r])) t =
        SetOp.mult refLib
          [[Register.str (ascii "b")], [Register.str (ascii "a")],
            [Register.str (ascii "b")]] t) ∧
      (SetOp.NoCollision refLib
          [[Register.str (ascii "b")], [Register.str (ascii "a")],
            [Register.str (ascii "b")]] →
        (regs.map (fun r => [r])).Perm
          [[Register.str (ascii "b")], [Register.str (ascii "a")],
            [Register.str (ascii "b")]])) ∧
    SetOp.NoCollision refLib
      [[Register.str (ascii "b")], [Register.str (ascii "a")], [Register.str (ascii "b")]] ∧
    IntersectAll.run refLib
      [[Register.str (ascii "b")], [Register.str (ascii "a")], [Register.str (ascii "b")]]
      [[Register.str (ascii "b")], [Register.str (ascii "a")], [Register.str (ascii "b")]] =
    some [[Register.str (ascii "a")], [Register.str (ascii "b")], [Register.str (ascii "b")]] :=
  ⟨refLib_conforms, by unfold SetOp.SingleColumn; decide,
    (IntersectAll_multiplicity refLib refLib_conforms).1 _ _
      (by unfold SetOp.SingleColumn; decide) (by norm_num)
      (by unfold Survives; decide) (by unfold Survives; decide),
    (IntersectAll_multiplicity refLib refLib_conforms).2.1 _
      (by unfold SetOp.SingleColumn; decide) (by norm_num) (by unfold Survives; decide),
    by unfold SetOp.NoCollision; decide,
    by decide⟩

/-- C10 witness, reference library: integers on both sides, and `UnionAll(A, [])`. -/
theorem UnionAll_multiplicity_witness :
    refLib.Conforms ∧
    SetOp.SingleColumn [[Register.int 3], [Register.int 1]] [[Register.int 3]] ∧
    (∃ out, UnionAll.run refLib [[Register.int 3], [Register.int 1]] [[Register.int 3]] =
        some out ∧
      ∀ t : Tuple, SetOp.mult refLib out t =
        SetOp.mult refLib [[Register.int 3], [Register.int 1]] t +
          SetOp.mult refLib [[Register.int 3]] t) ∧
    (∃ regs : List Register,
      UnionAll.run refLib [[Register.int 3], [Register.int 1], [Register.int 3]] [] =
        some (regs.map (fun r => [r])) ∧
      SortedBy SetOp.comp regs ∧
      (∀ t : Tuple, SetOp.mult refLib (regs.map (fun r => [r])) t =
        SetOp.mult refLib [[Register.int 3], [Register.int 1], [Register.int 3]] t) ∧
      (SetOp.NoCollision refLib [[Register.int 3], [Register.int 1], [Register.int 3]] →
        (regs.map (fun r => [r])).Perm
          [[Register.int 3], [Register.int 1], [Register.int 3]])) ∧
    SetOp.NoCollision refLib [[Register.int 3], [Register.int 1], [Register.int 3]] ∧
    UnionAll.run refLib [[Register.int 3], [Register.int 1], [Register.int 3]] [] =
      some [[Register.int 1], [Register.int 3], [Register.int 3]] :=
  ⟨refLib_conforms, by unfold SetOp.SingleColumn; decide,
    (UnionAll_multiplicity refLib refLib_conforms).1 _ _
      (by unfold SetOp.SingleColumn; decide) (by norm_num)
      (by unfold Survives; decide) (by unfold Survives; decide),
    (UnionAll_multiplicity refLib refLib_conforms).2.1 _
      (by unfold SetOp.SingleColumn; decide) (by norm_num) (by unfold Survives; decide),
    by unfold SetOp.NoCollision; decide,
    by decide⟩

/-! ## Projection -/

theorem regAt_of_lt (regs : Tuple) (i : Nat) (h : i < regs.length) :
    regs[i]? = some (regAt regs i) := by
  simp [regAt, List.getD, List.getElem?_eq_getElem h]

theorem regAt_mem (regs : Tuple) (i : Nat) (h : i < regs.length) : regAt regs i ∈ regs := by
  have h1 := regAt_of_lt regs i h
  rw [List.getElem?_eq_getElem h] at h1
  rw [← Option.some.inj h1]
  exact List.getElem_mem h

/-- Reading the columns `0, …, n-1` of a tuple of `n` columns gives the tuple. -/
theorem regAt_range (regs : Tuple) : (List.range regs.length).map (fun i => regAt regs i) = regs := by
  apply List.ext_getElem
  · simp
  · intro k h1 h2
    simp only [List.getElem_map, List.getElem_range]
    have := regAt_of_lt regs k h2
    rw [List.getElem?_eq_getElem h2] at this
    exact (Option.some.inj this).symm

/-- Reading columns in range through handles to live registers gives the registers. -/
theorem Projection.readColumns_in_range (regs : Tuple) :
    ∀ attr_indexes : List Nat, (∀ i ∈ attr_indexes, i < regs.length) →
      Projection.readColumns (regs.map Outcome.value) attr_indexes =
        Outcome.value (attr_indexes.map (fun i => regAt regs i)) := by
  intro attr_indexes
  induction attr_indexes with
  | nil => intro _; rfl
  | cons a rest ih =>
    intro h
    have ha : (regs.map Outcome.value)[a]? = some (Outcome.value (regAt regs a)) := by
      rw [List.getElem?_map, regAt_of_lt regs a (h a (List.mem_cons_self _ _))]
      rfl
    have hrest := ih (fun i hi => h i (List.mem_cons_of_mem _ hi))
    simp only [Projection.readColumns, ha, hrest, List.map_cons]

/-- Reading a column out of range is undefined. -/
theorem Projection.readColumns_out_of_range (handles : List (Outcome Register)) :
    ∀ attr_indexes : List Nat, (∃ i ∈ attr_indexes, handles.length ≤ i) →
      Projection.readColumns handles attr_indexes = Outcome.undefined := by
  intro attr_indexes
  induction attr_indexes with
  | nil => intro h; obtain ⟨i, hi, _⟩ := h; exact absurd hi (List.not_mem_nil _)
  | cons a rest ih =>
    intro h
    by_cases ha : handles.length ≤ a
    · have hnone : handles[a]? = none := List.getElem?_eq_none ha
      simp only [Projection.readColumns, hnone]
    · have hrest : Projection.readColumns handles rest = Outcome.undefined := by
        apply ih
        obtain ⟨i, hi, hle⟩ := h
        rcases List.mem_cons.mp hi with e | e
        · rw [e] at hle; exact absurd hle ha
        · exact ⟨i, e, hle⟩
      cases hget : handles[a]? with
      | none => simp only [Projection.readColumns, hget]
      | some o => cases o <;> simp only [Projection.readColumns, hget, hrest]

/-- No read of `Projection::next` is checked: none ends in a reported error. -/
theorem Projection.readColumns_not_reported (handles : List (Outcome Register)) :
    ∀ attr_indexes : List Nat,
      Projection.readColumns handles attr_indexes ≠ Outcome.reported := by
  intro attr_indexes
  cases attr_indexes with
  | nil => simp [Projection.readColumns]
  | cons a rest =>
    cases hget : handles[a]? with
    | none => simp [Projection.readColumns, hget]
    | some o =>
      cases o <;> cases hrest : Projection.readColumns handles rest <;>
        simp [Projection.readColumns, hget, hrest]

/-- The handles to registers that survive their destruction read as the registers. -/
theorem map_afterDestroy_of_survive (L : StdLib) (regs : Tuple)
    (h : ∀ r ∈ regs, Register.survives L r = true) :
    regs.map (Register.afterDestroy L) = regs.map Outcome.value := by
  apply List.map_congr_left
  intro r hr
  simp only [Register.afterDestroy, h r hr, if_true]

/-- A successful call of `Projection::next` with the indices in range. -/
theorem Projection.next_in_range (regs : Tuple) (rest : List Tuple) (attr_indexes : List Nat)
    (output_regs : Tuple) (h : ∀ i ∈ attr_indexes, i < regs.length) :
    Projection.next ⟨regs :: rest, attr_indexes, output_regs⟩ =
      Outcome.value (true,
        ⟨rest, attr_indexes, output_regs ++ attr_indexes.map (fun i => regAt regs i)⟩) := by
  simp only [Projection.next, Projection.readColumns_in_range regs attr_indexes h]

/-- Driving a `Projection` whose `output_regs` is empty emits the projected tuples of the
child, one per tuple, and then `next` returns false, when the indices are in range and
the registers survive their destruction by `get_output`. -/
theorem Projection.projection_drive_eq (L : StdLib) (attr_indexes : List Nat) :
    ∀ (input : List Tuple) (fuel : Nat), input.length < fuel →
      (∀ regs ∈ input, ∀ i ∈ attr_indexes, i < regs.length) → Survives L input →
      driveRead Projection.next (Projection.get_output L) fuel ⟨input, attr_indexes, []⟩ =
        some (input.map (fun regs => attr_indexes.map (fun i => regAt regs i))) := by
  intro input
  induction input with
  | nil =>
    intro fuel hf _ _
    obtain ⟨f, rfl⟩ : ∃ f, fuel = f + 1 := ⟨fuel - 1, by omega⟩
    have hnext : Projection.next ⟨[], attr_indexes, []⟩ =
        Outcome.value (false, ⟨[], attr_indexes, []⟩) := rfl
    rw [driveRead]
    simp only [hnext, List.map_nil]
  | cons regs rest ih =>
    intro fuel hf hr hs
    obtain ⟨f, rfl⟩ : ∃ f, fuel = f + 1 := ⟨fuel - 1, by omega⟩
    simp only [List.length_cons] at hf
    have hih := ih f (by omega) (fun t ht => hr t (List.mem_cons_of_mem _ ht))
      (fun t ht => hs t (List.mem_cons_of_mem _ ht))
    have hin := hr regs (List.mem_cons_self _ _)
    have hnext := Projection.next_in_range regs rest attr_indexes [] hin
    rw [List.nil_append] at hnext
    have hread : readHandles ((attr_indexes.map (fun i => regAt regs i)).map
        (Register.afterDestroy L)) = some (attr_indexes.map (fun i => regAt regs i)) := by
      apply readHandles_survive
      intro r hmem
      obtain ⟨i, hi, rfl⟩ := List.mem_map.mp hmem
      exact hs regs (List.mem_cons_self _ _) _ (regAt_mem regs i (hin i hi))
    rw [driveRead]
    simp only [hnext, Projection.get_output, hread, hih, List.map_cons]

theorem Projection.projection_run_eq (L : StdLib) (attr_indexes : List Nat) (input : List Tuple)
    (hr : ∀ regs ∈ input, ∀ i ∈ attr_indexes, i < regs.length) (hs : Survives L input) :
    Projection.run L attr_indexes input =
      some (input.map (fun regs => attr_indexes.map (fun i => regAt regs i))) :=
  Projection.projection_drive_eq L attr_indexes input (input.length + 1) (Nat.lt_succ_self _)
    hr hs

/-- A projected string that the library keeps on the heap is read from freed memory. -/
theorem Projection.run_long_string (L : StdLib) (s : List Byte) (h : L.inPlace < s.length) :
    Projection.run L [0] [[Register.str s]] = none := by
  have hs : Register.survives L (Register.str s) = false := by
    simp only [Register.survives, decide_eq_false_iff_not]
    omega
  have hnext : Projection.next (Projection.mk0 [[Register.str s]] [0]) =
      Outcome.value (true, ⟨[], [0], [Register.str s]⟩) := rfl
  have hread : readHandles (([Register.str s] : Tuple).map (Register.afterDestroy L)) = none :=
    readHandles_undefined L _ _ (List.mem_singleton_self _) hs
  rw [Projection.run, driveRead]
  simp only [hnext, Projection.get_output, hread]

/-- C20 (Projection), evaluated on the code: `Projection::get_output` destroys the
registers to which it returns pointers, so over the input `[("abcdefghijklmnop")]` with
the index list `[0]` the call of `next` returns true, the consumer reads the column
from freed memory, and what `Projection` emits is undefined, as it is for every string
longer than the library keeps in place.  With the indices in range and over registers
that survive their destruction (integers, strings kept in place), `Projection` returns
one output tuple per input tuple, in input order, whose `k`-th column is column `i_k` of
the input tuple; with the list `[0, …, n-1]` over tuples of `n` columns the output is
then the input; and `[(1,a),(2,b)]` projected on `[1, 0]` is `[(a,1),(b,2)]`. -/
theorem Projection_columns :
    (∀ (L : StdLib) (attr_indexes : List Nat) (input : List Tuple),
      (∀ regs ∈ input, ∀ i ∈ attr_indexes, i < regs.length) → Survives L input →
      ∃ out, Projection.run L attr_indexes input = some out ∧
        List.Forall₂ (fun regs o => List.Forall₂ (fun i r => regs[i]? = some r) attr_indexes o)
          input out) ∧
    (∀ (L : StdLib) (n : Nat) (input : List Tuple), (∀ regs ∈ input, regs.length = n) →
      Survives L input → Projection.run L (List.range n) input = some input) ∧
    Projection.run refLib [1, 0]
      [[Register.int 1, Register.str (ascii "a")], [Register.int 2, Register.str (ascii "b")]] =
      some [[Register.str (ascii "a"), Register.int 1],
        [Register.str (ascii "b"), Register.int 2]] ∧
    Projection.next (Projection.mk0 [[Register.str (ascii "abcdefghijklmnop")]] [0]) =
      Outcome.value (true, ⟨[], [0], [Register.str (ascii "abcdefghijklmnop")]⟩) ∧
    (Projection.get_output refLib ⟨[], [0], [Register.str (ascii "abcdefghijklmnop")]⟩).1 =
      [Outcome.undefined] ∧
    Projection.run refLib [0] [[Register.str (ascii "abcdefghijklmnop")]] = none ∧
    (∀ (L : StdLib) (s : List Byte), L.inPlace < s.length →
      Projection.run L [0] [[Register.str s]] = none) := by
  refine ⟨?_, ?_, by decide, by decide, by decide, by decide,
    fun L s h => Projection.run_long_string L s h⟩
  · intro L attr_indexes input hr hs
    refine ⟨_, Projection.projection_run_eq L attr_indexes input hr hs, ?_⟩
    rw [List.forall₂_map_right_iff]
    apply List.forall₂_same.mpr
    intro regs hregs
    rw [List.forall₂_map_right_iff]
    apply List.forall₂_same.mpr
    intro i hi
    exact regAt_of_lt regs i (hr regs hregs i hi)
  · intro L n input hn hs
    rw [Projection.projection_run_eq L _ _ (fun regs hregs i hi => by
      rw [hn regs hregs]; exact List.mem_range.mp hi) hs]
    congr 1
    conv_rhs => rw [← List.map_id input]
    apply List.map_congr_left
    intro regs hregs
    rw [← hn regs hregs]
    exact regAt_range regs

/-- Witness of C20: two tuples of two columns, projected on `[1, 1, 0]`. -/
theorem Projection_columns_witness :
    (∀ regs ∈ ([[Register.int 1, Register.str (ascii "a")],
        [Register.int 2, Register.str (ascii "b")]] : List Tuple),
      ∀ i ∈ [1, 1, 0], i < regs.length) ∧
    Survives refLib
      [[Register.int 1, Register.str (ascii "a")], [Register.int 2, Register.str (ascii "b")]] ∧
    (∃ out, Projection.run refLib [1, 1, 0]
        [[Register.int 1, Register.str (ascii "a")], [Register.int 2, Register.str (ascii "b")]] =
        some out ∧
      List.Forall₂ (fun regs o => List.Forall₂ (fun i r => regs[i]? = some r) [1, 1, 0] o)
        [[Register.int 1, Register.str (ascii "a")], [Register.int 2, Register.str (ascii "b")]]
        out) ∧
    Projection.run refLib (List.range 2)
      [[Register.int 1, Register.str (ascii "a")], [Register.int 2, Register.str (ascii "b")]] =
      some [[Register.int 1, Register.str (ascii "a")],
        [Register.int 2, Register.str (ascii "b")]] :=
  ⟨by decide, by unfold Survives; decide,
    Projection_columns.1 refLib _ _ (by decide) (by unfold Survives; decide),
    Projection_columns.2.1 refLib 2 _ (by decide) (by unfold Survives; decide)⟩

/-! ## Select -/

/-- The switch of `Select::next` passes the tuple exactly when the predicate holds. -/
theorem Select.filter_eq (L : StdLib) (predicate : Predicate) (regs : Tuple) :
    Select.filter L predicate regs = if predicate.holds L regs then regs else [] := by
  cases predicate with
  | INT i c t => cases t <;> rfl
  | CHAR i c t => cases t <;> rfl
  | ATTRIBUTE i j t => cases t <;> rfl

theorem Select.select_drive_eq (L : StdLib) (predicate : Predicate) :
    ∀ (input : List Tuple) (o : List Register) (fuel : Nat), input.length < fuel →
      drive (fun s => some (Select.next L s)) Select.get_output fuel ⟨input, o, predicate⟩ =
        some (input.map (fun regs => if predicate.holds L regs then regs else [])) := by
  intro input
  induction input with
  | nil =>
    intro o fuel hf
    obtain ⟨f, rfl⟩ : ∃ f, fuel = f + 1 := ⟨fuel - 1, by omega⟩
    have hnext : Select.next L ⟨[], o, predicate⟩ = (false, ⟨[], o, predicate⟩) := rfl
    rw [drive]
    simp only [hnext, List.map_nil]
  | cons regs rest ih =>
    intro o fuel hf
    obtain ⟨f, rfl⟩ : ∃ f, fuel = f + 1 := ⟨fuel - 1, by omega⟩
    simp only [List.length_cons] at hf
    have hih := ih (Select.filter L predicate regs) f (by omega)
    have hnext : Select.next L ⟨regs :: rest, o, predicate⟩ =
        (true, ⟨rest, Select.filter L predicate regs, predicate⟩) := rfl
    rw [drive]
    simp only [hnext, Select.get_output, hih]
    simp only [List.map_cons, Select.filter_eq]

theorem Select.select_run_eq (L : StdLib) (predicate : Predicate) (input : List Tuple) :
    Select.run L predicate input =
      some (input.map (fun regs => if predicate.holds L regs then regs else [])) :=
  Select.select_drive_eq L predicate input [] (input.length + 1) (Nat.lt_succ_self _)

/-- After `k` calls of `next` the child has delivered its first `k` tuples. -/
theorem Select.after_input (L : StdLib) :
    ∀ (k : Nat) (s : Select),
      (Select.after L k s).input = s.input.drop k ∧
      (Select.after L k s).predicate = s.predicate := by
  intro k
  induction k with
  | zero => intro s; exact ⟨rfl, rfl⟩
  | succ k ih =>
    intro s
    obtain ⟨i1, i2⟩ := ih (Select.next L s).2
    simp only [Select.after]
    rw [i1, i2]
    cases hs : s.input with
    | nil => simp [Select.next, hs]
    | cons regs rest => simp [Select.next, hs]

/-- The call of `next` number `k + 1`: true, with the `k`-th tuple or nothing as output,
while the child has a tuple; false afterwards. -/
theorem Select.next_after (L : StdLib) (predicate : Predicate) (input : List Tuple) (k : Nat) :
    (∀ hk : k < input.length,
      (Select.next L (Select.after L k (Select.mk0 input predicate))).1 = true ∧
      (Select.get_output (Select.next L (Select.after L k (Select.mk0 input predicate))).2).1 =
        if predicate.holds L input[k] then input[k] else []) ∧
    (input.length ≤ k →
      (Select.next L (Select.after L k (Select.mk0 input predicate))).1 = false) := by
  obtain ⟨h1, h2⟩ := Select.after_input L k (Select.mk0 input predicate)
  simp only [Select.mk0] at h1 h2
  constructor
  · intro hk
    have hd : input.drop k = input[k] :: input.drop (k + 1) := List.drop_eq_getElem_cons hk
    rw [hd] at h1
    simp only [Select.next, Select.mk0, h1, h2, Select.get_output, Select.filter_eq, and_self]
  · intro hk
    have hd : input.drop k = [] := List.drop_eq_nil_of_le hk
    rw [hd] at h1
    simp only [Select.next, Select.mk0, h1]

theorem Register.eq_int_hash (L : StdLib) (hL : L.IntHashInjective) (a b : Int)
    (ha : isInt64 a) (hb : isInt64 b) (hab : a ≠ b) :
    Register.eq L (Register.int a) (Register.int b) = false := by
  rw [Register.eq_int_of_injective L hL a b ha hb]
  simpa using hab

/-- C18 (Select semantics): over a well-typed input of `n` tuples, for every shape of
predicate and every comparator, the first `n` calls of `next` return true and the next
one false; after call `k + 1` the output is the whole `k`-th tuple when the predicate
holds of it under the operators of `Register`, and empty otherwise.  On
`[(1,a),(2,b),(3,a)]` with `col0 = 2` only `(2,b)` passes (for a hash of integers
without collisions). -/
theorem Select_semantics (L : StdLib) :
    (∀ (predicate : Predicate) (input : List Tuple), predicate.WellTyped input →
      (∀ (k : Nat) (hk : k < input.length),
        (Select.next L (Select.after L k (Select.mk0 input predicate))).1 = true ∧
        (Select.get_output
            (Select.next L (Select.after L k (Select.mk0 input predicate))).2).1 =
          if predicate.holds L input[k] then input[k] else []) ∧
      (Select.next L (Select.after L input.length (Select.mk0 input predicate))).1 = false ∧
      Select.run L predicate input =
        some (input.map (fun regs => if predicate.holds L regs then regs else []))) ∧
    (L.IntHashInjective →
      Select.run L (Predicate.INT 0 2 PredicateType.EQ)
        [[Register.int 1, Register.str (ascii "a")], [Register.int 2, Register.str (ascii "b")],
          [Register.int 3, Register.str (ascii "a")]] =
        some [[], [Register.int 2, Register.str (ascii "b")], []]) := by
  constructor
  · intro predicate input _
    exact ⟨fun k hk => (Select.next_after L predicate input k).1 hk,
      (Select.next_after L predicate input input.length).2 (Nat.le_refl _),
      Select.select_run_eq L predicate input⟩
  · intro hL
    have i1 : isInt64 1 := by unfold isInt64; omega
    have i2 : isInt64 2 := by unfold isInt64; omega
    have i3 : isInt64 3 := by unfold isInt64; omega
    have e12 := Register.eq_int_hash L hL 1 2 i1 i2 (by omega)
    have e22 := Register.eq_refl L (Register.int 2)
    have e32 := Register.eq_int_hash L hL 3 2 i3 i2 (by omega)
    rw [Select.select_run_eq]
    simp [Predicate.holds, PredicateType.eval, regAt, Register.from_int, e12, e22, e32]

theorem decide_le_eq_not_lt (x y : Int) : decide (y ≤ x) = !decide (x < y) := by
  by_cases h : x < y
  · have : ¬ y ≤ x := by omega
    simp [h, this]
  · have : y ≤ x := by omega
    simp [h, this]

theorem decide_lt_eq_not_le (x y : Int) : decide (y < x) = !decide (x ≤ y) := by
  by_cases h : x ≤ y
  · have : ¬ y < x := by omega
    simp [h, this]
  · have : y < x := by omega
    simp [h, this]

theorem PredicateType.eval_complement (L : StdLib) (t : PredicateType) (a b : Register) :
    t.complement.eval L a b = !(t.eval L a b) := by
  cases t <;>
    simp only [PredicateType.complement, PredicateType.eval, Register.eq, Register.ne,
      Register.lt, Register.le, Register.gt, Register.ge, bne, Bool.not_not]
  all_goals
    (split <;> first | exact decide_le_eq_not_lt _ _ | exact decide_lt_eq_not_le _ _)

theorem Predicate.holds_complement (L : StdLib) (predicate : Predicate) (regs : Tuple) :
    predicate.complement.holds L regs = !(predicate.holds L regs) := by
  cases predicate <;>
    simp only [Predicate.complement, Predicate.holds, PredicateType.eval_complement]

theorem Predicate.WellTyped.nonempty {predicate : Predicate} {input : List Tuple}
    (h : predicate.WellTyped input) : ∀ regs ∈ input, regs ≠ [] := by
  intro regs hregs hnil
  cases predicate with
  | INT i c t => have := (h regs hregs).1; rw [hnil] at this; simp at this
  | CHAR i c t => have := (h regs hregs).1; rw [hnil] at this; simp at this
  | ATTRIBUTE i j t => have := (h regs hregs).1; rw [hnil] at this; simp at this

/-- C19 (Select complementarity): over a well-typed input, a predicate and its
complementary predicate together pass as many tuples as the input has, and no tuple is
passed by both: at every position one of the two outputs is empty. -/
theorem Select_complementarity (L : StdLib) (predicate : Predicate) (input : List Tuple)
    (hw : predicate.WellTyped input) :
    ∃ o1 o2, Select.run L predicate input = some o1 ∧
      Select.run L predicate.complement input = some o2 ∧
      o1.countP (fun o => !o.isEmpty) + o2.countP (fun o => !o.isEmpty) = input.length ∧
      List.Forall₂ (fun a b => a = [] ∨ b = []) o1 o2 := by
  refine ⟨_, _, Select.select_run_eq L predicate input, Select.select_run_eq L predicate.complement input,
    ?_, ?_⟩
  · have hne := hw.nonempty
    clear hw
    induction input with
    | nil => rfl
    | cons regs rest ih =>
      have h1 := hne regs (List.mem_cons_self _ _)
      have h2 := ih (fun r hr => hne r (List.mem_cons_of_mem _ hr))
      simp only [List.map_cons, List.countP_cons, List.length_cons,
        Predicate.holds_complement]
      have hre : regs.isEmpty = false := by
        cases regs with
        | nil => exact absurd rfl h1
        | cons a as => rfl
      simp only [Predicate.holds_complement] at h2
      cases hh : predicate.holds L regs
      · simp only [Bool.false_eq_true, if_false, Bool.not_false, if_true, List.isEmpty_nil,
          Bool.not_true, hre]
        omega
      · simp only [Bool.false_eq_true, if_false, Bool.not_false, if_true, List.isEmpty_nil,
          Bool.not_true, hre]
        omega
  · rw [List.forall₂_map_left_iff, List.forall₂_map_right_iff]
    apply List.forall₂_same.mpr
    intro regs _
    rw [Predicate.holds_complement]
    cases predicate.holds L regs <;> simp

/-- Witness of C18 at the reference library: the predicate `col1 < "b"` on strings. -/
theorem Select_semantics_witness :
    (Predicate.CHAR 1 (ascii "b") PredicateType.LT).WellTyped
      [[Register.int 1, Register.str (ascii "a")], [Register.int 2, Register.str (ascii "b")]] ∧
    ((∀ (k : Nat) (hk : k < ([[Register.int 1, Register.str (ascii "a")],
          [Register.int 2, Register.str (ascii "b")]] : List Tuple).length),
        (Select.next refLib (Select.after refLib k (Select.mk0
          [[Register.int 1, Register.str (ascii "a")], [Register.int 2, Register.str (ascii "b")]]
          (Predicate.CHAR 1 (ascii "b") PredicateType.LT)))).1 = true ∧
        (Select.get_output (Select.next refLib (Select.after refLib k (Select.mk0
          [[Register.int 1, Register.str (ascii "a")], [Register.int 2, Register.str (ascii "b")]]
          (Predicate.CHAR 1 (ascii "b") PredicateType.LT)))).2).1 =
          if (Predicate.CHAR 1 (ascii "b") PredicateType.LT).holds refLib
              ([[Register.int 1, Register.str (ascii "a")],
                [Register.int 2, Register.str (ascii "b")]] : List Tuple)[k]
          then ([[Register.int 1, Register.str (ascii "a")],
                [Register.int 2, Register.str (ascii "b")]] : List Tuple)[k]
          else []) ∧
      (Select.next refLib (Select.after refLib
        ([[Register.int 1, Register.str (ascii "a")],
          [Register.int 2, Register.str (ascii "b")]] : List Tuple).length (Select.mk0
          [[Register.int 1, Register.str (ascii "a")], [Register.int 2, Register.str (ascii "b")]]
          (Predicate.CHAR 1 (ascii "b") PredicateType.LT)))).1 = false ∧
      Select.run refLib (Predicate.CHAR 1 (ascii "b") PredicateType.LT)
        [[Register.int 1, Register.str (ascii "a")], [Register.int 2, Register.str (ascii "b")]] =
        some (([[Register.int 1, Register.str (ascii "a")],
          [Register.int 2, Register.str (ascii "b")]] : List Tuple).map
            (fun regs => if (Predicate.CHAR 1 (ascii "b") PredicateType.LT).holds refLib regs
              then regs else []))) ∧
    refLib.IntHashInjective ∧
    Select.run refLib (Predicate.INT 0 2 PredicateType.EQ)
      [[Register.int 1, Register.str (ascii "a")], [Register.int 2, Register.str (ascii "b")],
        [Register.int 3, Register.str (ascii "a")]] =
      some [[], [Register.int 2, Register.str (ascii "b")], []] :=
  ⟨by unfold Predicate.WellTyped; decide,
    (Select_semantics refLib).1 _ _ (by unfold Predicate.WellTyped; decide),
    refLib_intHashInjective, (Select_semantics refLib).2 refLib_intHashInjective⟩

/-- Witness of C19 at the reference library: `col0 > 1` and its complement `col0 ≤ 1`. -/
theorem Select_complementarity_witness :
    (Predicate.INT 0 1 PredicateType.GT).WellTyped
      [[Register.int 1], [Register.int 2], [Register.int 3]] ∧
    (∃ o1 o2,
      Select.run refLib (Predicate.INT 0 1 PredicateType.GT)
        [[Register.int 1], [Register.int 2], [Register.int 3]] = some o1 ∧
      Select.run refLib (Predicate.INT 0 1 PredicateType.GT).complement
        [[Register.int 1], [Register.int 2], [Register.int 3]] = some o2 ∧
      o1.countP (fun o => !o.isEmpty) + o2.countP (fun o => !o.isEmpty) =
        ([[Register.int 1], [Register.int 2], [Register.int 3]] : List Tuple).length ∧
      List.Forall₂ (fun a b => a = [] ∨ b = []) o1 o2) ∧
    Select.run refLib (Predicate.INT 0 1 PredicateType.GT)
      [[Register.int 1], [Register.int 2], [Register.int 3]] =
      some [[], [Register.int 2], [Register.int 3]] ∧
    Select.run refLib (Predicate.INT 0 1 PredicateType.GT).complement
      [[Register.int 1], [Register.int 2], [Register.int 3]] =
      some [[Register.int 1], [], []] :=
  ⟨by unfold Predicate.WellTyped; decide,
    Select_complementarity refLib _ _ (by unfold Predicate.WellTyped; decide),
    by decide, by decide⟩

/-- A counting map has an entry for `k` exactly when a counted register is `==` to `k`. -/
theorem countRegisters_find_cases (L : StdLib) (input : List Tuple)
    (hs : input.flatten.length < 2147483648) (k : Register) :
    (UMap.find L (countRegisters L input []) k = none ∧
      input.flatten.countP (fun r => Register.eq L r k) = 0) ∨
    (∃ e, UMap.find L (countRegisters L input []) k = some e ∧
      0 < input.flatten.countP (fun r => Register.eq L r k)) := by
  obtain ⟨_, c2, _, c4, _⟩ := countRegisters_spec L input hs
  have hk := c4 k
  simp only [UMap.countOf] at hk
  cases hfind : UMap.find L (countRegisters L input []) k with
  | none =>
    rw [hfind] at hk
    have hk3 : (0 : Int) = ((input.flatten.countP (fun r => Register.eq L r k) : Nat) : Int) := hk
    exact Or.inl ⟨rfl, by omega⟩
  | some e =>
    rw [hfind] at hk
    have hk3 : e.2 = ((input.flatten.countP (fun r => Register.eq L r k) : Nat) : Int) := hk
    have hpos := c2 e (UMap.find_mem L _ _ _ hfind)
    exact Or.inr ⟨e, rfl, by omega⟩

/-- The two counting loops of `Union` over one map count the registers of both inputs. -/
theorem countRegisters_append (L : StdLib) (left right : List Tuple) :
    countRegisters L right (countRegisters L left []) = countRegisters L (left ++ right) [] := by
  simp only [countRegisters, List.foldl_append]

/-- What `Union` collects before sorting. -/
theorem Union.union_collect (L : StdLib) (hL : L.Conforms) (left right : List Tuple)
    (hs : left.flatten.length + right.flatten.length < 2147483648) :
    (∀ k, (Union.collect L left right).countP (fun r => Register.eq L r k) =
      if 0 < left.flatten.countP (fun r => Register.eq L r k) +
          right.flatten.countP (fun r => Register.eq L r k) then 1 else 0) ∧
    (Union.collect L left right).length ≤ left.flatten.length + right.flatten.length ∧
    (∀ r ∈ Union.collect L left right, r ∈ left.flatten ++ right.flatten) := by
  have hflat : (left ++ right).flatten = left.flatten ++ right.flatten := List.flatten_append _ _
  have hs2 : (left ++ right).flatten.length < 2147483648 := by
    rw [hflat, List.length_append]; exact hs
  obtain ⟨c1, c2, c3, _, c5⟩ := countRegisters_spec L (left ++ right) hs2
  obtain ⟨f1, f2, f3⟩ := UMap.iter_flatMap L hL (countRegisters L (left ++ right) [])
    (fun reg => [reg.1]) c1 (by
      intro e _ r hr
      rw [List.mem_singleton.mp hr]; exact Register.eq_refl L _)
  simp only [Union.collect, countRegisters_append]
  refine ⟨fun k => ?_, ?_, fun r hr => ?_⟩
  · rw [f1 k]
    have h := countRegisters_find_cases L (left ++ right) hs2 k
    rw [hflat, List.countP_append] at h
    rcases h with ⟨hfind, h2⟩ | ⟨e, hfind, h2⟩
    · rw [hfind]
      have h3 : ¬ 0 < left.flatten.countP (fun r => Register.eq L r k) +
          right.flatten.countP (fun r => Register.eq L r k) := by omega
      simp only [Option.map_none', Option.getD_none, h3, if_false]
    · rw [hfind]
      simp only [Option.map_some', Option.getD_some, h2, if_true, List.length_singleton]
  · have := f2 (fun e he => by
      have := c2 e he
      simp only [List.length_singleton, Nat.cast_one]
      omega)
    rw [c3, hflat, List.length_append] at this
    omega
  · obtain ⟨e, he, hre⟩ := f3 r hr
    rw [List.mem_singleton.mp hre, ← hflat]
    exact c5 e he

/-- What `Intersect` collects before sorting. -/
theorem Intersect.intersect_collect (L : StdLib) (hL : L.Conforms) (left right : List Tuple)
    (hl : left.flatten.length < 2147483648) (hr : right.flatten.length < 2147483648) :
    (∀ k, (Intersect.collect L left right).countP (fun r => Register.eq L r k) =
      if 0 < left.flatten.countP (fun r => Register.eq L r k) ∧
          0 < right.flatten.countP (fun r => Register.eq L r k) then 1 else 0) ∧
    (Intersect.collect L left right).length ≤ left.flatten.length ∧
    (∀ r ∈ Intersect.collect L left right, r ∈ left.flatten ++ right.flatten) := by
  obtain ⟨c1, c2, c3, _, c5⟩ := countRegisters_spec L left hl
  have hmem : ∀ (e : Register × Int) (r : Register),
      r ∈ Intersect.pushEntry L (countRegisters L right []) e → r = e.1 := by
    intro e r hr
    simp only [Intersect.pushEntry] at hr
    cases hfind : UMap.find L (countRegisters L right []) e.1 with
    | none => rw [hfind] at hr; cases hr
    | some found => rw [hfind] at hr; exact List.mem_singleton.mp hr
  have hlen : ∀ e : Register × Int,
      (Intersect.pushEntry L (countRegisters L right []) e).length =
        if 0 < right.flatten.countP (fun r => Register.eq L r e.1) then 1 else 0 := by
    intro e
    simp only [Intersect.pushEntry]
    rcases countRegisters_find_cases L right hr e.1 with ⟨hfind, h2⟩ | ⟨found, hfind, h2⟩
    · rw [hfind]
      have h3 : ¬ 0 < right.flatten.countP (fun r => Register.eq L r e.1) := by omega
      simp only [h3, if_false, List.length_nil]
    · rw [hfind]
      simp only [h2, if_true, List.length_singleton]
  obtain ⟨f1, f2, f3⟩ := UMap.iter_flatMap L hL (countRegisters L left [])
    (Intersect.pushEntry L (countRegisters L right [])) c1 (by
      intro e _ r hr
      rw [hmem e r hr]; exact Register.eq_refl L _)
  simp only [Intersect.collect]
  refine ⟨fun k => ?_, ?_, fun r hr => ?_⟩
  · rw [f1 k]
    rcases countRegisters_find_cases L left hl k with ⟨hfind, h2⟩ | ⟨e, hfind, h2⟩
    · rw [hfind]
      have h3 : ¬ 0 < left.flatten.countP (fun r => Register.eq L r k) := by omega
      simp only [Option.map_none', Option.getD_none, h3, false_and, if_false]
    · rw [hfind]
      have hcong : right.flatten.countP (fun r => Register.eq L r e.1) =
          right.flatten.countP (fun r => Register.eq L r k) := by
        congr 1; funext r
        exact Register.eq_congr_right L (UMap.find_key L _ _ _ hfind) r
      simp only [Option.map_some', Option.getD_some, h2, true_and, hlen e, hcong]
  · have := f2 (fun e he => by
      have := c2 e he
      have h3 := hlen e
      split at h3 <;> omega)
    rw [c3] at this
    omega
  · obtain ⟨e, he, hre⟩ := f3 r hr
    rw [hmem e r hre]
    exact List.mem_append_left _ (c5 e he)

/-- What `Except` collects before sorting. -/
theorem Except.except_collect (L : StdLib) (hL : L.Conforms) (left right : List Tuple)
    (hl : left.flatten.length < 2147483648) (hr : right.flatten.length < 2147483648) :
    (∀ k, (Except.collect L left right).countP (fun r => Register.eq L r k) =
      if 0 < left.flatten.countP (fun r => Register.eq L r k) ∧
          right.flatten.countP (fun r => Register.eq L r k) = 0 then 1 else 0) ∧
    (Except.collect L left right).length ≤ left.flatten.length ∧
    (∀ r ∈ Except.collect L left right, r ∈ left.flatten ++ right.flatten) := by
  obtain ⟨c1, c2, c3, _, c5⟩ := countRegisters_spec L left hl
  have hmem : ∀ (e : Register × Int) (r : Register),
      r ∈ Except.pushEntry L (countRegisters L right []) e → r = e.1 := by
    intro e r hr
    simp only [Except.pushEntry] at hr
    cases hfind : UMap.find L (countRegisters L right []) e.1 with
    | none => rw [hfind] at hr; exact List.mem_singleton.mp hr
    | some found => rw [hfind] at hr; cases hr
  have hlen : ∀ e : Register × Int,
      (Except.pushEntry L (countRegisters L right []) e).length =
        if right.flatten.countP (fun r => Register.eq L r e.1) = 0 then 1 else 0 := by
    intro e
    simp only [Except.pushEntry]
    rcases countRegisters_find_cases L right hr e.1 with ⟨hfind, h2⟩ | ⟨found, hfind, h2⟩
    · rw [hfind]
      simp only [h2, if_true, List.length_singleton]
    · rw [hfind]
      have h3 : ¬ right.flatten.countP (fun r => Register.eq L r e.1) = 0 := by omega
      simp only [h3, if_false, List.length_nil]
  obtain ⟨f1, f2, f3⟩ := UMap.iter_flatMap L hL (countRegisters L left [])
    (Except.pushEntry L (countRegisters L right [])) c1 (by
      intro e _ r hr
      rw [hmem e r hr]; exact Register.eq_refl L _)
  simp only [Except.collect]
  refine ⟨fun k => ?_, ?_, fun r hr => ?_⟩
  · rw [f1 k]
    rcases countRegisters_find_cases L left hl k with ⟨hfind, h2⟩ | ⟨e, hfind, h2⟩
    · rw [hfind]
      have h3 : ¬ 0 < left.flatten.countP (fun r => Register.eq L r k) := by omega
      simp only [Option.map_none', Option.getD_none, h3, false_and, if_false]
    · rw [hfind]
      have hcong : right.flatten.countP (fun r => Register.eq L r e.1) =
          right.flatten.countP (fun r => Register.eq L r k) := by
        congr 1; funext r
        exact Register.eq_congr_right L (UMap.find_key L _ _ _ hfind) r
      simp only [Option.map_some', Option.getD_some, h2, true_and, hlen e, hcong]
  · have := f2 (fun e he => by
      have := c2 e he
      have h3 := hlen e
      split at h3 <;> omega)
    rw [c3] at this
    omega
  · obtain ⟨e, he, hre⟩ := f3 r hr
    rw [hmem e r hre]
    exact List.mem_append_left _ (c5 e he)

/-- The run of `Union` over one-column inputs of one variant whose registers survive
their destruction. -/
theorem Union.union_run (L : StdLib) (hL : L.Conforms) (left right : List Tuple)
    (hsc : SetOp.SingleColumn left right) (hsize : left.length + right.length < 2147483648)
    (hsl : Survives L left) (hsr : Survives L right) :
    ∃ regs, Union.run L left right = some (regs.map (fun r => [r])) ∧
      SortedBy SetOp.comp regs ∧
      ∀ k, regs.countP (fun r => Register.eq L r k) =
        if 0 < left.flatten.countP (fun r => Register.eq L r k) +
          right.flatten.countP (fun r => Register.eq L r k) then 1 else 0 := by
  have hl := SetOp.flatten_length_of_single left hsc.left
  have hr := SetOp.flatten_length_of_single right hsc.right
  obtain ⟨c1, c2, c3⟩ := Union.union_collect L hL left right (by omega)
  obtain ⟨regs, h1, h2, h3⟩ := SetOp.run_sorted L hL (Union.collect L) left right hsc
    hsize c2 c3 (fun r hr => Survives.flatten hsl hsr r (c3 r hr))
  exact ⟨regs, h1, h3, fun k => by rw [h2.countP_eq, c1 k]⟩

/-- The run of `Intersect` over one-column inputs of one variant whose registers survive
their destruction. -/
theorem Intersect.intersect_run (L : StdLib) (hL : L.Conforms) (left right : List Tuple)
    (hsc : SetOp.SingleColumn left right) (hsize : left.length + right.length < 2147483648)
    (hsl : Survives L left) (hsr : Survives L right) :
    ∃ regs, Intersect.run L left right = some (regs.map (fun r => [r])) ∧
      SortedBy SetOp.comp regs ∧
      ∀ k, regs.countP (fun r => Register.eq L r k) =
        if 0 < left.flatten.countP (fun r => Register.eq L r k) ∧
          0 < right.flatten.countP (fun r => Register.eq L r k) then 1 else 0 := by
  have hl := SetOp.flatten_length_of_single left hsc.left
  have hr := SetOp.flatten_length_of_single right hsc.right
  obtain ⟨c1, c2, c3⟩ := Intersect.intersect_collect L hL left right (by omega) (by omega)
  obtain ⟨regs, h1, h2, h3⟩ := SetOp.run_sorted L hL (Intersect.collect L) left right hsc
    hsize (by omega) c3 (fun r hr => Survives.flatten hsl hsr r (c3 r hr))
  exact ⟨regs, h1, h3, fun k => by rw [h2.countP_eq, c1 k]⟩

/-- The run of `Except` over one-column inputs of one variant whose registers survive
their destruction. -/
theorem Except.except_run (L : StdLib) (hL : L.Conforms) (left right : List Tuple)
    (hsc : SetOp.SingleColumn left right) (hsize : left.length + right.length < 2147483648)
    (hsl : Survives L left) (hsr : Survives L right) :
    ∃ regs, Except.run L left right = some (regs.map (fun r => [r])) ∧
      SortedBy SetOp.comp regs ∧
      ∀ k, regs.countP (fun r => Register.eq L r k) =
        if 0 < left.flatten.countP (fun r => Register.eq L r k) ∧
          right.flatten.countP (fun r => Register.eq L r k) = 0 then 1 else 0 := by
  have hl := SetOp.flatten_length_of_single left hsc.left
  have hr := SetOp.flatten_length_of_single right hsc.right
  obtain ⟨c1, c2, c3⟩ := Except.except_collect L hL left right (by omega) (by omega)
  obtain ⟨regs, h1, h2, h3⟩ := SetOp.run_sorted L hL (Except.collect L) left right hsc
    hsize (by omega) c3 (fun r hr => Survives.flatten hsl hsr r (c3 r hr))
  exact ⟨regs, h1, h3, fun k => by rw [h2.countP_eq, c1 k]⟩

/-- C11 (set semantics of Union, Intersect, Except), evaluated on the code: the
`get_output` of the three operators destroys the registers to which it returns pointers,
so over the inputs `[("abcdefghijklmnop")]` and `[("abcdefghijklmnop")]` (`[]` on the
right for `Except`) the first call of `next` returns true, the consumer reads the tuple
from freed memory, and what the operators emit is undefined.  Over inputs of one column and one variant whose registers survive their
destruction (integers, strings kept in place), each of the three operators returns, and
for every `t` the number of emitted tuples `==` to `t` is 1 when the condition of the
operator holds and 0 otherwise: `L(t) + R(t) > 0` for `Union`, `L(t) > 0` and `R(t) > 0`
for `Intersect`, `L(t) > 0` and `R(t) = 0` for `Except`; so no value is emitted twice. -/
theorem SetSemantics_multiplicity (L : StdLib) (hL : L.Conforms) :
    (∀ left right : List Tuple, SetOp.SingleColumn left right →
      left.length + right.length < 2147483648 → Survives L left → Survives L right →
      ∃ outU outI outE,
        Union.run L left right = some outU ∧
        Intersect.run L left right = some outI ∧
        Except.run L left right = some outE ∧
        ∀ t : Tuple,
          (SetOp.mult L outU t =
            if 0 < SetOp.mult L left t + SetOp.mult L right t then 1 else 0) ∧
          (SetOp.mult L outI t =
            if 0 < SetOp.mult L left t ∧ 0 < SetOp.mult L right t then 1 else 0) ∧
          (SetOp.mult L outE t =
            if 0 < SetOp.mult L left t ∧ SetOp.mult L right t = 0 then 1 else 0) ∧
          SetOp.mult L outU t ≤ 1 ∧ SetOp.mult L outI t ≤ 1 ∧ SetOp.mult L outE t ≤ 1) ∧
    (Union.next refLib (SetOp.mk0 [[Register.str (ascii "abcdefghijklmnop")]]
      [[Register.str (ascii "abcdefghijklmnop")]])).1 = true ∧
    (SetOp.get_output refLib
      (Union.next refLib (SetOp.mk0 [[Register.str (ascii "abcdefghijklmnop")]]
        [[Register.str (ascii "abcdefghijklmnop")]])).2).1 = [Outcome.undefined] ∧
    Union.run refLib [[Register.str (ascii "abcdefghijklmnop")]]
      [[Register.str (ascii "abcdefghijklmnop")]] = none ∧
    (Intersect.next refLib (SetOp.mk0 [[Register.str (ascii "abcdefghijklmnop")]]
      [[Register.str (ascii "abcdefghijklmnop")]])).1 = true ∧
    (SetOp.get_output refLib
      (Intersect.next refLib (SetOp.mk0 [[Register.str (ascii "abcdefghijklmnop")]]
        [[Register.str (ascii "abcdefghijklmnop")]])).2).1 = [Outcome.undefined] ∧
    Intersect.run refLib [[Register.str (ascii "abcdefghijklmnop")]]
      [[Register.str (ascii "abcdefghijklmnop")]] = none ∧
    (Except.next refLib (SetOp.mk0 [[Register.str (ascii "abcdefghijklmnop")]] [])).1 = true ∧
    (SetOp.get_output refLib
      (Except.next refLib (SetOp.mk0 [[Register.str (ascii "abcdefghijklmnop")]] [])).2).1 =
      [Outcome.undefined] ∧
    Except.run refLib [[Register.str (ascii "abcdefghijklmnop")]] [] = none := by
  refine ⟨?_, by decide, by decide, by decide, by decide, by decide, by decide, by decide,
    by decide, by decide⟩
  intro left right hsc hsize hsl hsr
  obtain ⟨ru, u1, _, u3⟩ := Union.union_run L hL left right hsc hsize hsl hsr
  obtain ⟨ri, i1, _, i3⟩ := Intersect.intersect_run L hL left right hsc hsize hsl hsr
  obtain ⟨re, e1, _, e3⟩ := Except.except_run L hL left right hsc hsize hsl hsr
  refine ⟨_, _, _, u1, i1, e1, fun t => ?_⟩
  have hu := SetOp.mult_of_count L left right hsc ru
    (fun a b => if 0 < a + b then 1 else 0) rfl u3 t
  have hi := SetOp.mult_of_count L left right hsc ri
    (fun a b => if 0 < a ∧ 0 < b then 1 else 0) rfl i3 t
  have he := SetOp.mult_of_count L left right hsc re
    (fun a b => if 0 < a ∧ b = 0 then 1 else 0) rfl e3 t
  refine ⟨hu, hi, he, ?_, ?_, ?_⟩
  · rw [hu]; split <;> omega
  · rw [hi]; split <;> omega
  · rw [he]; split <;> omega

/-- C11 witness, reference library: left `[(2),(1),(2)]`, right `[(2),(3),(3)]`. -/
theorem SetSemantics_multiplicity_witness :
    refLib.Conforms ∧
    SetOp.SingleColumn [[Register.int 2], [Register.int 1], [Register.int 2]]
      [[Register.int 2], [Register.int 3], [Register.int 3]] ∧
    (∃ outU outI outE,
      Union.run refLib [[Register.int 2], [Register.int 1], [Register.int 2]]
        [[Register.int 2], [Register.int 3], [Register.int 3]] = some outU ∧
      Intersect.run refLib [[Register.int 2], [Register.int 1], [Register.int 2]]
        [[Register.int 2], [Register.int 3], [Register.int 3]] = some outI ∧
      Except.run refLib [[Register.int 2], [Register.int 1], [Register.int 2]]
        [[Register.int 2], [Register.int 3], [Register.int 3]] = some outE ∧
      ∀ t : Tuple,
        (SetOp.mult refLib outU t =
          if 0 < SetOp.mult refLib [[Register.int 2], [Register.int 1], [Register.int 2]] t +
            SetOp.mult refLib [[Register.int 2], [Register.int 3], [Register.int 3]] t
          then 1 else 0) ∧
        (SetOp.mult refLib outI t =
          if 0 < SetOp.mult refLib [[Register.int 2], [Register.int 1], [Register.int 2]] t ∧
            0 < SetOp.mult refLib [[Register.int 2], [Register.int 3], [Register.int 3]] t
          then 1 else 0) ∧
        (SetOp.mult refLib outE t =
          if 0 < SetOp.mult refLib [[Register.int 2], [Register.int 1], [Register.int 2]] t ∧
            SetOp.mult refLib [[Register.int 2], [Register.int 3], [Register.int 3]] t = 0
          then 1 else 0) ∧
        SetOp.mult refLib outU t ≤ 1 ∧ SetOp.mult refLib outI t ≤ 1 ∧
        SetOp.mult refLib outE t ≤ 1) ∧
    Union.run refLib [[Register.int 2], [Register.int 1], [Register.int 2]]
      [[Register.int 2], [Register.int 3], [Register.int 3]] =
      some [[Register.int 1], [Register.int 2], [Register.int 3]] ∧
    Intersect.run refLib [[Register.int 2], [Register.int 1], [Register.int 2]]
      [[Register.int 2], [Register.int 3], [Register.int 3]] = some [[Register.int 2]] ∧
    Except.run refLib [[Register.int 2], [Register.int 1], [Register.int 2]]
      [[Register.int 2], [Register.int 3], [Register.int 3]] = some [[Register.int 1]] :=
  ⟨refLib_conforms, by unfold SetOp.SingleColumn; decide,
    (SetSemantics_multiplicity refLib refLib_conforms).1 _ _
      (by unfold SetOp.SingleColumn; decide) (by norm_num)
      (by unfold Survives; decide) (by unfold Survives; decide),
    by decide, by decide, by decide⟩

/-- C12 (set operators on tuples of several columns): the six operators push every
register of every input tuple into one sequence and emit one register per tuple.  On the
two-column inputs `[(1,2)]` and `[(2,3)]` the emitted tuples have one column, none of
them is an input tuple, and `Intersect` finds the two disjoint inputs to have the tuple
`(2)` in common. -/
theorem SetOps_flatten_columns :
    Union.run refLib [[Register.int 1, Register.int 2]] [[Register.int 2, Register.int 3]] =
      some [[Register.int 1], [Register.int 2], [Register.int 3]] ∧
    UnionAll.run refLib [[Register.int 1, Register.int 2]] [[Register.int 2, Register.int 3]] =
      some [[Register.int 1], [Register.int 2], [Register.int 2], [Register.int 3]] ∧
    Intersect.run refLib [[Register.int 1, Register.int 2]] [[Register.int 2, Register.int 3]] =
      some [[Register.int 2]] ∧
    IntersectAll.run refLib [[Register.int 1, Register.int 2]]
      [[Register.int 2, Register.int 3]] = some [[Register.int 2]] ∧
    Except.run refLib [[Register.int 1, Register.int 2]] [[Register.int 2, Register.int 3]] =
      some [[Register.int 1]] ∧
    ExceptAll.run refLib [[Register.int 1, Register.int 2]] [[Register.int 2, Register.int 3]] =
      some [[Register.int 1]] := by
  decide

/-- C14 (SUM is a 64-bit sum): the sums are kept in a map of `int`, and every summand is
cast to `int`.  For the one tuple `("g", 4294967296)` the emitted sum is `0`, and for
`("g", 3000000000)` it is `-1294967296`; both values and sums fit in 64 bits. -/
theorem HashAggregation_sum_truncated :
    HashAggregation.run refLib [0]
        [AggrFunc.mk AggrFunc.Func.SUM 1, AggrFunc.mk AggrFunc.Func.COUNT 1]
        [[Register.str (ascii "g"), Register.int 4294967296]] =
      some [[Register.str (ascii "g"), Register.int 0, Register.int 1]] ∧
    HashAggregation.run refLib [0]
        [AggrFunc.mk AggrFunc.Func.SUM 1, AggrFunc.mk AggrFunc.Func.COUNT 1]
        [[Register.str (ascii "g"), Register.int 3000000000]] =
      some [[Register.str (ascii "g"), Register.int (-1294967296), Register.int 1]] ∧
    isInt64 4294967296 ∧ isInt64 3000000000 := by
  refine ⟨by decide, by decide, ?_, ?_⟩ <;> unfold isInt64 <;> omega

/-- C15 (output layout): a row of a grouped aggregation is always `[key, sum, count]` and
a group-less row `[min]` or `[min, max]`, whatever aggregates are configured and in
whatever order.  With `[COUNT, SUM]` the sum still comes first; with `[SUM]` alone the row
has three columns; with `[COUNT]` or `[MAX]` alone nothing is emitted; with `[MAX, MIN]`
the minimum still comes first. -/
theorem HashAggregation_layout_fixed :
    HashAggregation.run refLib [0]
        [AggrFunc.mk AggrFunc.Func.COUNT 1, AggrFunc.mk AggrFunc.Func.SUM 1]
        [[Register.str (ascii "g1"), Register.int 10]] =
      some [[Register.str (ascii "g1"), Register.int 10, Register.int 1]] ∧
    HashAggregation.run refLib [0] [AggrFunc.mk AggrFunc.Func.SUM 1]
        [[Register.str (ascii "g1"), Register.int 10]] =
      some [[Register.str (ascii "g1"), Register.int 10, Register.int 0]] ∧
    HashAggregation.run refLib [0] [AggrFunc.mk AggrFunc.Func.COUNT 1]
        [[Register.str (ascii "g1"), Register.int 10]] = some [] ∧
    HashAggregation.run refLib [] [AggrFunc.mk AggrFunc.Func.MAX 0]
        [[Register.int 1], [Register.int 2]] = some [] ∧
    HashAggregation.run refLib []
        [AggrFunc.mk AggrFunc.Func.MAX 0, AggrFunc.mk AggrFunc.Func.MIN 0]
        [[Register.int 1], [Register.int 2]] = some [[Register.int 1, Register.int 2]] := by
  decide

/-- C16 (groups keyed by the whole group-by tuple): every group-by register of a tuple is
a key of its own.  With the group-by list `[0, 1]` the one tuple `(1, 2, 10)` yields the
two rows `(1, 10, 1)` and `(2, 10, 1)`, and the tuples `(1, 2, 10)` and `(1, 3, 5)`, which
differ on column 1, are summed under the key `1`. -/
theorem HashAggregation_keys_per_column :
    HashAggregation.run refLib [0, 1]
        [AggrFunc.mk AggrFunc.Func.SUM 2, AggrFunc.mk AggrFunc.Func.COUNT 2]
        [[Register.int 1, Register.int 2, Register.int 10]] =
      some [[Register.int 1, Register.int 10, Register.int 1],
        [Register.int 2, Register.int 10, Register.int 1]] ∧
    HashAggregation.run refLib [0, 1]
        [AggrFunc.mk AggrFunc.Func.SUM 2, AggrFunc.mk AggrFunc.Func.COUNT 2]
        [[Register.int 1, Register.int 2, Register.int 10],
          [Register.int 1, Register.int 3, Register.int 5]] =
      some [[Register.int 1, Register.int 15, Register.int 2],
        [Register.int 2, Register.int 10, Register.int 1],
        [Register.int 3, Register.int 5, Register.int 1]] := by
  decide

/-- The locals after draining `input` with the aggregates `[MIN(a), MAX(b)]`: the maps
stay as they are, and the two optionals run over the columns `a` and `b`. -/
theorem HashAggregation.drain_min_max (L : StdLib) (G : List Nat) (a b : Nat)
    (input : List Tuple) :
    ∀ acc : HashAggregation.Locals,
      input.foldl (fun acc regs =>
        [AggrFunc.mk AggrFunc.Func.MIN a, AggrFunc.mk AggrFunc.Func.MAX b].foldl
          (HashAggregation.step L G regs) acc) acc =
      ⟨acc.countMap, acc.sumMap,
        (input.map (fun regs => regAt regs a)).foldl HashAggregation.updateMin acc.minRegister,
        (input.map (fun regs => regAt regs b)).foldl HashAggregation.updateMax
          acc.maxRegister⟩ := by
  induction input with
  | nil => intro acc; rfl
  | cons regs rest ih =>
    intro acc
    rw [List.foldl_cons, ih]
    simp only [List.foldl_cons, List.foldl_nil, HashAggregation.step, List.map_cons]

/-- A running extremum: folding `pick`, which replaces the held register by a new one
exactly when `cmp new held`, over registers on which `cmp` is irreflexive and
transitive, ends with a register `m` of the sequence such that `cmp x m` holds of no
register `x` of the sequence. -/
theorem HashAggregation.foldl_pick (cmp : Register → Register → Bool)
    (pick : Option Register → Register → Option Register)
    (hsome : ∀ m r, pick (some m) r = if cmp r m then some r else some m)
    (l : List Register) (hirr : ∀ x ∈ l, cmp x x = false)
    (htr : ∀ x ∈ l, ∀ y ∈ l, ∀ z ∈ l, cmp x y = true → cmp y z = true → cmp x z = true) :
    ∀ (xs seen : List Register) (m : Register), (∀ x ∈ seen ++ xs, x ∈ l) →
      m ∈ seen → (∀ x ∈ seen, cmp x m = false) →
      ∃ m2, xs.foldl pick (some m) = some m2 ∧ m2 ∈ seen ++ xs ∧
        ∀ x ∈ seen ++ xs, cmp x m2 = false := by
  intro xs
  induction xs with
  | nil =>
    intro seen m _ hm hall
    exact ⟨m, rfl, by simpa using hm, by simpa using hall⟩
  | cons r rs ih =>
    intro seen m hl hm hall
    have hl2 : ∀ x ∈ (seen ++ [r]) ++ rs, x ∈ l := by
      intro x hx; apply hl; simpa using hx
    have hrl : r ∈ l := hl r (by simp)
    have hml : m ∈ l := hl m (List.mem_append_left _ hm)
    rw [List.foldl_cons, hsome]
    by_cases hc : cmp r m = true
    · simp only [hc, if_true]
      obtain ⟨m2, h1, h2, h3⟩ := ih (seen ++ [r]) r hl2 (by simp) (by
        intro x hx
        rcases List.mem_append.mp hx with hx | hx
        · cases hxr : cmp x r
          · rfl
          · have := htr x (hl x (List.mem_append_left _ hx)) r hrl m hml hxr hc
            rw [hall x hx] at this
            cases this
        · rw [List.mem_singleton.mp hx]; exact hirr r hrl)
      exact ⟨m2, h1, by simpa using h2, fun x hx => h3 x (by simpa using hx)⟩
    · have hcf : cmp r m = false := Bool.eq_false_iff.mpr hc
      simp only [hcf, Bool.false_eq_true, if_false]
      obtain ⟨m2, h1, h2, h3⟩ := ih (seen ++ [r]) m hl2 (List.mem_append_left _ hm) (by
        intro x hx
        rcases List.mem_append.mp hx with hx | hx
        · exact hall x hx
        · rw [List.mem_singleton.mp hx]; exact hcf)
      exact ⟨m2, h1, by simpa using h2, fun x hx => h3 x (by simpa using hx)⟩

/-- The running minimum over a non-empty sequence of registers of one variant. -/
theorem HashAggregation.foldl_updateMin (r : Register) (rs : List Register)
    (ht : ∀ x ∈ r :: rs, ∀ y ∈ r :: rs, Register.sameType x y = true) :
    ∃ m, (r :: rs).foldl HashAggregation.updateMin none = some m ∧ m ∈ r :: rs ∧
      ∀ x ∈ r :: rs, Register.lt x m = false := by
  have hsw := SetOp.lt_strictWeak (r :: rs) ht
  have := HashAggregation.foldl_pick Register.lt HashAggregation.updateMin
    (fun _ _ => rfl) (r :: rs) hsw.irrefl hsw.trans rs [r] r (by simp) (by simp) (by
      intro x hx
      rw [List.mem_singleton.mp hx]
      exact hsw.irrefl r (List.mem_cons_self _ _))
  simpa [HashAggregation.updateMin] using this

/-- The running maximum over a non-empty sequence of registers of one variant. -/
theorem HashAggregation.foldl_updateMax (r : Register) (rs : List Register)
    (ht : ∀ x ∈ r :: rs, ∀ y ∈ r :: rs, Register.sameType x y = true) :
    ∃ m, (r :: rs).foldl HashAggregation.updateMax none = some m ∧ m ∈ r :: rs ∧
      ∀ x ∈ r :: rs, Register.gt x m = false := by
  have := HashAggregation.foldl_pick Register.gt HashAggregation.updateMax
    (fun _ _ => rfl) (r :: rs) (fun x _ => Register.gt_irrefl x)
    (fun x hx y hy z hz h1 h2 => Register.gt_trans (ht x hx y hy) (ht y hy z hz) h1 h2)
    rs [r] r (by simp) (by simp) (by
      intro x hx
      rw [List.mem_singleton.mp hx]
      exact Register.gt_irrefl r)
  simpa [HashAggregation.updateMax] using this

/-- Once the rows are handed out, every call of `next` returns false. -/
theorem HashAggregation.next_exhausted (L : StdLib) (G : List Nat) (F : List AggrFunc) :
    ∀ (k : Nat) (out : List Register),
      (HashAggregation.next L
        (HashAggregation.after L k ⟨[], true, 0, 0, [], G, F, out⟩)).1 = false := by
  have hnext : ∀ out : List Register,
      HashAggregation.next L ⟨[], true, 0, 0, [], G, F, out⟩ =
        (false, ⟨[], true, 0, 0, [], G, F, []⟩) := by
    intro out
    simp [HashAggregation.next, HashAggregation.materialize, HashAggregation.emit,
      HashAggregation.Locals.init]
  intro k
  induction k with
  | zero => intro out; rw [HashAggregation.after, hnext]
  | succ k ih => intro out; rw [HashAggregation.after, hnext]; exact ih []

/-- C17 (group-less MIN/MAX): with no group-by attribute and the aggregates
`[MIN(a), MAX(b)]`, over a non-empty input whose columns `a` and `b` exist and are each of
one variant, the first `next` returns true with the output `[mn, mx]`, where `mn` is a
register of column `a` than which none is smaller and `mx` a register of column `b` than
which none is greater; every later `next` returns false, so the run emits this one row. -/
theorem HashAggregation_min_max (L : StdLib) (a b : Nat) (input : List Tuple)
    (hne : input ≠ [])
    (hrange : ∀ regs ∈ input, a < regs.length ∧ b < regs.length)
    (hta : ∀ r1 ∈ input, ∀ r2 ∈ input, Register.sameType (regAt r1 a) (regAt r2 a) = true)
    (htb : ∀ r1 ∈ input, ∀ r2 ∈ input, Register.sameType (regAt r1 b) (regAt r2 b) = true) :
    ∃ mn mx : Register,
      (HashAggregation.next L (HashAggregation.mk0 input []
        [AggrFunc.mk AggrFunc.Func.MIN a, AggrFunc.mk AggrFunc.Func.MAX b])).1 = true ∧
      (HashAggregation.get_output (HashAggregation.next L (HashAggregation.mk0 input []
        [AggrFunc.mk AggrFunc.Func.MIN a, AggrFunc.mk AggrFunc.Func.MAX b])).2).1 = [mn, mx] ∧
      (∃ regs ∈ input, mn = regAt regs a) ∧
      (∀ regs ∈ input, Register.lt (regAt regs a) mn = false) ∧
      (∃ regs ∈ input, mx = regAt regs b) ∧
      (∀ regs ∈ input, Register.gt (regAt regs b) mx = false) ∧
      (∀ k, 1 ≤ k → (HashAggregation.next L (HashAggregation.after L k
        (HashAggregation.mk0 input []
          [AggrFunc.mk AggrFunc.Func.MIN a, AggrFunc.mk AggrFunc.Func.MAX b]))).1 = false) ∧
      HashAggregation.run L []
        [AggrFunc.mk AggrFunc.Func.MIN a, AggrFunc.mk AggrFunc.Func.MAX b] input =
        some [[mn, mx]] := by
  obtain ⟨t, ts, rfl⟩ : ∃ t ts, input = t :: ts := by
    cases input with
    | nil => exact absurd rfl hne
    | cons t ts => exact ⟨t, ts, rfl⟩
  have hcol : ∀ (c : Nat) (x : Register), x ∈ (t :: ts).map (fun regs => regAt regs c) →
      ∃ regs ∈ t :: ts, x = regAt regs c := by
    intro c x hx
    obtain ⟨regs, h1, h2⟩ := List.mem_map.mp hx
    exact ⟨regs, h1, h2.symm⟩
  obtain ⟨mn, n1, n2, n3⟩ := HashAggregation.foldl_updateMin (regAt t a)
    (ts.map (fun regs => regAt regs a)) (by
      intro x hx y hy
      obtain ⟨r1, h1, rfl⟩ := hcol a x (by simpa using hx)
      obtain ⟨r2, h2, rfl⟩ := hcol a y (by simpa using hy)
      exact hta r1 h1 r2 h2)
  obtain ⟨mx, m1, m2, m3⟩ := HashAggregation.foldl_updateMax (regAt t b)
    (ts.map (fun regs => regAt regs b)) (by
      intro x hx y hy
      obtain ⟨r1, h1, rfl⟩ := hcol b x (by simpa using hx)
      obtain ⟨r2, h2, rfl⟩ := hcol b y (by simpa using hy)
      exact htb r1 h1 r2 h2)
  have hdrain : HashAggregation.drain L []
      [AggrFunc.mk AggrFunc.Func.MIN a, AggrFunc.mk AggrFunc.Func.MAX b] (t :: ts) =
      ⟨[], [], some mn, some mx⟩ := by
    rw [HashAggregation.drain, HashAggregation.drain_min_max]
    simp only [HashAggregation.Locals.init, List.map_cons, n1, m1]
  have hnext : HashAggregation.next L (HashAggregation.mk0 (t :: ts) []
      [AggrFunc.mk AggrFunc.Func.MIN a, AggrFunc.mk AggrFunc.Func.MAX b]) =
      (true, ⟨[], true, 0, 0, [], [],
        [AggrFunc.mk AggrFunc.Func.MIN a, AggrFunc.mk AggrFunc.Func.MAX b], [mn, mx]⟩) := by
    simp only [HashAggregation.next, HashAggregation.mk0, Bool.false_eq_true, if_false, hdrain,
      HashAggregation.materialize, HashAggregation.emit, List.length_nil, ne_eq,
      not_true_eq_false, List.nil_append, List.singleton_append]
  refine ⟨mn, mx, by rw [hnext], by rw [hnext]; rfl, ?_, ?_, ?_, ?_, ?_, ?_⟩
  · exact hcol a mn (by simpa using n2)
  · intro regs hregs
    exact n3 _ (by
      have := List.mem_map_of_mem (fun regs => regAt regs a) hregs
      simpa using this)
  · exact hcol b mx (by simpa using m2)
  · intro regs hregs
    exact m3 _ (by
      have := List.mem_map_of_mem (fun regs => regAt regs b) hregs
      simpa using this)
  · intro k hk
    obtain ⟨j, rfl⟩ : ∃ j, k = j + 1 := ⟨k - 1, by omega⟩
    rw [HashAggregation.after, hnext]
    exact HashAggregation.next_exhausted L _ _ j _
  · have h2 := HashAggregation.next_exhausted L []
      [AggrFunc.mk AggrFunc.Func.MIN a, AggrFunc.mk AggrFunc.Func.MAX b] 0 [mn, mx]
    simp only [HashAggregation.after] at h2
    rw [HashAggregation.run, drive]
    simp only [hnext, HashAggregation.get_output]
    rw [drive]
    cases hn : HashAggregation.next L ⟨[], true, 0, 0, [], [],
        [AggrFunc.mk AggrFunc.Func.MIN a, AggrFunc.mk AggrFunc.Func.MAX b], [mn, mx]⟩ with
    | mk fst snd =>
      rw [hn] at h2
      simp only at h2
      subst h2
      rfl

/-- C17 witness, reference library: minimum of column 0 and maximum of column 1 over
`[(2,"b"),(1,"c"),(3,"a")]`. -/
theorem HashAggregation_min_max_witness :
    ([[Register.int 2, Register.str (ascii "b")], [Register.int 1, Register.str (ascii "c")],
      [Register.int 3, Register.str (ascii "a")]] : List Tuple) ≠ [] ∧
    (∃ mn mx : Register,
      (HashAggregation.next refLib (HashAggregation.mk0
        [[Register.int 2, Register.str (ascii "b")], [Register.int 1, Register.str (ascii "c")],
          [Register.int 3, Register.str (ascii "a")]] []
        [AggrFunc.mk AggrFunc.Func.MIN 0, AggrFunc.mk AggrFunc.Func.MAX 1])).1 = true ∧
      (HashAggregation.get_output (HashAggregation.next refLib (HashAggregation.mk0
        [[Register.int 2, Register.str (ascii "b")], [Register.int 1, Register.str (ascii "c")],
          [Register.int 3, Register.str (ascii "a")]] []
        [AggrFunc.mk AggrFunc.Func.MIN 0, AggrFunc.mk AggrFunc.Func.MAX 1])).2).1 = [mn, mx] ∧
      (∃ regs ∈ ([[Register.int 2, Register.str (ascii "b")],
          [Register.int 1, Register.str (ascii "c")],
          [Register.int 3, Register.str (ascii "a")]] : List Tuple), mn = regAt regs 0) ∧
      (∀ regs ∈ ([[Register.int 2, Register.str (ascii "b")],
          [Register.int 1, Register.str (ascii "c")],
          [Register.int 3, Register.str (ascii "a")]] : List Tuple),
        Register.lt (regAt regs 0) mn = false) ∧
      (∃ regs ∈ ([[Register.int 2, Register.str (ascii "b")],
          [Register.int 1, Register.str (ascii "c")],
          [Register.int 3, Register.str (ascii "a")]] : List Tuple), mx = regAt regs 1) ∧
      (∀ regs ∈ ([[Register.int 2, Register.str (ascii "b")],
          [Register.int 1, Register.str (ascii "c")],
          [Register.int 3, Register.str (ascii "a")]] : List Tuple),
        Register.gt (regAt regs 1) mx = false) ∧
      (∀ k, 1 ≤ k → (HashAggregation.next refLib (HashAggregation.after refLib k
        (HashAggregation.mk0
          [[Register.int 2, Register.str (ascii "b")],
            [Register.int 1, Register.str (ascii "c")],
            [Register.int 3, Register.str (ascii "a")]] []
          [AggrFunc.mk AggrFunc.Func.MIN 0, AggrFunc.mk AggrFunc.Func.MAX 1]))).1 = false) ∧
      HashAggregation.run refLib []
        [AggrFunc.mk AggrFunc.Func.MIN 0, AggrFunc.mk AggrFunc.Func.MAX 1]
        [[Register.int 2, Register.str (ascii "b")], [Register.int 1, Register.str (ascii "c")],
          [Register.int 3, Register.str (ascii "a")]] = some [[mn, mx]]) ∧
    HashAggregation.run refLib []
      [AggrFunc.mk AggrFunc.Func.MIN 0, AggrFunc.mk AggrFunc.Func.MAX 1]
      [[Register.int 2, Register.str (ascii "b")], [Register.int 1, Register.str (ascii "c")],
        [Register.int 3, Register.str (ascii "a")]] =
      some [[Register.int 1, Register.str (ascii "c")]] :=
  ⟨by decide,
    HashAggregation_min_max refLib 0 1 _ (by decide) (by decide) (by decide) (by decide),
    by decide⟩

/-- Reading column `b` of a projected tuple is reading the column the list names at
`b`. -/
theorem regAt_map (regs : Tuple) (A : List Nat) (b : Nat) (hb : b < A.length) :
    regAt (A.map (fun i => regAt regs i)) b = regAt regs (A.getD b 0) := by
  simp [regAt, List.getD, List.getElem?_eq_getElem hb]

/-- A successful call of the outer `Projection::next`, with the indices in range and
over registers that survive their destruction by the inner `get_output`. -/
theorem Projection.Nested.nested_next_in_range (L : StdLib) (A B : List Nat) (regs : Tuple)
    (rest : List Tuple) (output_regs : Tuple) (hA : ∀ i ∈ A, i < regs.length)
    (hB : ∀ b ∈ B, b < A.length) (hs : ∀ r ∈ regs, Register.survives L r = true) :
    Projection.Nested.next L ⟨⟨regs :: rest, A, []⟩, B, output_regs⟩ =
      Outcome.value (true, ⟨⟨rest, A, []⟩, B,
        output_regs ++ B.map (fun b => regAt (A.map (fun i => regAt regs i)) b)⟩) := by
  have hinner := Projection.next_in_range regs rest A [] hA
  rw [List.nil_append] at hinner
  have hsurv : ∀ r ∈ A.map (fun i => regAt regs i), Register.survives L r = true := by
    intro r hmem
    obtain ⟨i, hi, rfl⟩ := List.mem_map.mp hmem
    exact hs _ (regAt_mem regs i (hA i hi))
  have hcols := Projection.readColumns_in_range (A.map (fun i => regAt regs i)) B
    (fun b hb => by rw [List.length_map]; exact hB b hb)
  simp only [Projection.Nested.next, hinner, Projection.get_output,
    map_afterDestroy_of_survive L _ hsurv, hcols]

/-- Driving a `Projection` over a `Projection`, both with empty `output_regs`, emits for
every tuple of the child the outer columns of its inner projection, when the indices
are in range and the registers survive their destruction by `get_output`. -/
theorem Projection.Nested.nested_drive_eq (L : StdLib) (A B : List Nat)
    (hB : ∀ b ∈ B, b < A.length) :
    ∀ (input : List Tuple) (fuel : Nat), input.length < fuel →
      (∀ regs ∈ input, ∀ i ∈ A, i < regs.length) → Survives L input →
      driveRead (Projection.Nested.next L) (Projection.Nested.get_output L) fuel
          ⟨⟨input, A, []⟩, B, []⟩ =
        some (input.map (fun regs =>
          B.map (fun b => regAt (A.map (fun i => regAt regs i)) b))) := by
  intro input
  induction input with
  | nil =>
    intro fuel hf _ _
    obtain ⟨f, rfl⟩ : ∃ f, fuel = f + 1 := ⟨fuel - 1, by omega⟩
    have hnext : Projection.Nested.next L ⟨⟨[], A, []⟩, B, []⟩ =
        Outcome.value (false, ⟨⟨[], A, []⟩, B, []⟩) := rfl
    rw [driveRead]
    simp only [hnext, List.map_nil]
  | cons regs rest ih =>
    intro fuel hf hr hs
    obtain ⟨f, rfl⟩ : ∃ f, fuel = f + 1 := ⟨fuel - 1, by omega⟩
    simp only [List.length_cons] at hf
    have hih := ih f (by omega) (fun t ht => hr t (List.mem_cons_of_mem _ ht))
      (fun t ht => hs t (List.mem_cons_of_mem _ ht))
    have hin := hr regs (List.mem_cons_self _ _)
    have hsr := hs regs (List.mem_cons_self _ _)
    have hnext := Projection.Nested.nested_next_in_range L A B regs rest [] hin hB hsr
    rw [List.nil_append] at hnext
    have hread : readHandles ((B.map (fun b => regAt (A.map (fun i => regAt regs i)) b)).map
        (Register.afterDestroy L)) =
        some (B.map (fun b => regAt (A.map (fun i => regAt regs i)) b)) := by
      apply readHandles_survive
      intro r hmem
      obtain ⟨b, hb, rfl⟩ := List.mem_map.mp hmem
      have hlt : b < (A.map (fun i => regAt regs i)).length := by
        rw [List.length_map]; exact hB b hb
      obtain ⟨i, hi, he⟩ := List.mem_map.mp (regAt_mem _ b hlt)
      rw [← he]
      exact hsr _ (regAt_mem regs i (hin i hi))
    rw [driveRead]
    simp only [hnext, Projection.Nested.get_output, hread, hih, List.map_cons]

/-- C21 (Projection composition), evaluated on the code: the outer `Projection::next`
reads its columns through the pointers that the inner `get_output` returned, after the
inner `get_output` has destroyed the registers; over the input `[("abcdefghijklmnop")]`
with `A = [0]` and `B = [0]` the outer `next` reads freed memory, and what the pair of
operators emits is undefined.  For index lists `A` in range of the input tuples and `B`
in range of `A`, and over registers that survive their destruction (integers, strings
kept in place), a `Projection` with list `B` over a `Projection` with list `A` over `S`
returns the same tuple sequence as one `Projection` over `S` with the composed list
`[A[B[0]], A[B[1]], …]`; so does a `Projection` with list `B` over the tuples the
`Projection` with list `A` emits. -/
theorem Projection_composition :
    (∀ (L : StdLib) (A B : List Nat) (S : List Tuple),
      (∀ regs ∈ S, ∀ i ∈ A, i < regs.length) → (∀ b ∈ B, b < A.length) → Survives L S →
      (∃ out, Projection.run L (B.map (fun b => A.getD b 0)) S = some out ∧
        Projection.Nested.run L A B S = some out ∧
        List.Forall₂
          (fun regs o => List.Forall₂ (fun b r => regs[A.getD b 0]? = some r) B o) S out) ∧
      (∃ mid out, Projection.run L A S = some mid ∧ Projection.run L B mid = some out ∧
        Projection.run L (B.map (fun b => A.getD b 0)) S = some out)) ∧
    Projection.Nested.next refLib
      (Projection.Nested.mk0 [[Register.str (ascii "abcdefghijklmnop")]] [0] [0]) =
      Outcome.undefined ∧
    Projection.Nested.run refLib [0] [0] [[Register.str (ascii "abcdefghijklmnop")]] = none := by
  refine ⟨?_, by decide, by decide⟩
  intro L A B S hA hB hS
  have key : S.map (fun regs => B.map (fun b => regAt (A.map (fun i => regAt regs i)) b)) =
      S.map (fun regs => (B.map (fun b => A.getD b 0)).map (fun i => regAt regs i)) := by
    apply List.map_congr_left
    intro regs _
    rw [List.map_map]
    apply List.map_congr_left
    intro b hb
    exact regAt_map regs A b (hB b hb)
  have hmemA : ∀ b ∈ B, A.getD b 0 ∈ A := by
    intro b hb
    have hlt := hB b hb
    rw [List.getD_eq_getElem _ _ hlt]
    exact List.getElem_mem hlt
  have hcomp : ∀ regs ∈ S, ∀ i ∈ B.map (fun b => A.getD b 0), i < regs.length := by
    intro regs hregs i hi
    obtain ⟨b, hb, rfl⟩ := List.mem_map.mp hi
    exact hA regs hregs _ (hmemA b hb)
  have hrun := Projection.projection_run_eq L (B.map (fun b => A.getD b 0)) S hcomp hS
  constructor
  · refine ⟨_, hrun, ?_, ?_⟩
    · rw [Projection.Nested.run, Projection.Nested.mk0, Projection.mk0,
        Projection.Nested.nested_drive_eq L A B hB S _ (Nat.lt_succ_self _) hA hS, key]
    · rw [List.forall₂_map_right_iff]
      apply List.forall₂_same.mpr
      intro regs hregs
      rw [List.map_map, List.forall₂_map_right_iff]
      apply List.forall₂_same.mpr
      intro b hb
      exact regAt_of_lt regs _ (hA regs hregs _ (hmemA b hb))
  · have hmidr : ∀ regs ∈ S.map (fun regs => A.map (fun i => regAt regs i)),
        ∀ b ∈ B, b < regs.length := by
      intro m hm b hb
      obtain ⟨regs, _, rfl⟩ := List.mem_map.mp hm
      rw [List.length_map]
      exact hB b hb
    have hmids : Survives L (S.map (fun regs => A.map (fun i => regAt regs i))) := by
      intro m hm r hr
      obtain ⟨regs, hregs, rfl⟩ := List.mem_map.mp hm
      obtain ⟨i, hi, rfl⟩ := List.mem_map.mp hr
      exact hS regs hregs _ (regAt_mem regs i (hA regs hregs i hi))
    refine ⟨_, _, Projection.projection_run_eq L A S hA hS,
      Projection.projection_run_eq L B _ hmidr hmids, ?_⟩
    rw [hrun, List.map_map, ← key]
    rfl

/-- C21 witness: `A = [1, 0, 1]` and `B = [2, 0]` over `[(1,"a"),(2,"b")]`; the composed
list is `[1, 1]`. -/
theorem Projection_composition_witness :
    (∀ regs ∈ ([[Register.int 1, Register.str (ascii "a")],
        [Register.int 2, Register.str (ascii "b")]] : List Tuple),
      ∀ i ∈ [1, 0, 1], i < regs.length) ∧
    (∀ b ∈ [2, 0], b < [1, 0, 1].length) ∧
    Survives refLib
      [[Register.int 1, Register.str (ascii "a")], [Register.int 2, Register.str (ascii "b")]] ∧
    ((∃ out, Projection.run refLib ([2, 0].map (fun b => [1, 0, 1].getD b 0))
        [[Register.int 1, Register.str (ascii "a")],
          [Register.int 2, Register.str (ascii "b")]] = some out ∧
      Projection.Nested.run refLib [1, 0, 1] [2, 0]
        [[Register.int 1, Register.str (ascii "a")],
          [Register.int 2, Register.str (ascii "b")]] = some out ∧
      List.Forall₂
        (fun regs o => List.Forall₂ (fun b r => regs[[1, 0, 1].getD b 0]? = some r) [2, 0] o)
        [[Register.int 1, Register.str (ascii "a")],
          [Register.int 2, Register.str (ascii "b")]] out) ∧
    (∃ mid out, Projection.run refLib [1, 0, 1]
        [[Register.int 1, Register.str (ascii "a")],
          [Register.int 2, Register.str (ascii "b")]] = some mid ∧
      Projection.run refLib [2, 0] mid = some out ∧
      Projection.run refLib ([2, 0].map (fun b => [1, 0, 1].getD b 0))
        [[Register.int 1, Register.str (ascii "a")],
          [Register.int 2, Register.str (ascii "b")]] = some out)) ∧
    Projection.Nested.run refLib [1, 0, 1] [2, 0]
      [[Register.int 1, Register.str (ascii "a")],
        [Register.int 2, Register.str (ascii "b")]] =
      some [[Register.str (ascii "a"), Register.str (ascii "a")],
        [Register.str (ascii "b"), Register.str (ascii "b")]] :=
  ⟨by decide, by decide, by unfold Survives; decide,
    Projection_composition.1 refLib _ _ _ (by decide) (by decide)
      (by unfold Survives; decide),
    by decide⟩

/-- C22 (Projection rejects out-of-range indices), evaluated on the code:
`Projection::next` reads `*regs[attr_index]` without a check, and no path of it reports
an error.  When a configured index is not below the arity of the tuple the child
delivers, the call of `next` reads the vector of pointers out of range and is
undefined, whatever the other indices; it never ends in a reported error.  So on the
tuple `(7)` with the index list `[1]` the call of `next` is undefined, and so is what a
consumer of the `Projection` receives. -/
theorem Projection_out_of_range_undefined :
    (∀ (attr_indexes : List Nat) (regs : Tuple) (rest : List Tuple) (output_regs : Tuple),
      (∃ i ∈ attr_indexes, regs.length ≤ i) →
      Projection.next ⟨regs :: rest, attr_indexes, output_regs⟩ = Outcome.undefined) ∧
    (∀ s : Projection, Projection.next s ≠ Outcome.reported) ∧
    ¬ (1 < ([Register.int 7] : Tuple).length) ∧
    Projection.next (Projection.mk0 [[Register.int 7]] [1]) = Outcome.undefined ∧
    (∀ L : StdLib, Projection.run L [1] [[Register.int 7]] = none) := by
  refine ⟨?_, ?_, by decide, by decide, fun L => rfl⟩
  · intro attr_indexes regs rest output_regs h
    have hcols := Projection.readColumns_out_of_range (regs.map Outcome.value) attr_indexes
      (by simpa only [List.length_map] using h)
    simp only [Projection.next, hcols]
  · intro s
    cases hin : s.input with
    | nil => simp [Projection.next, hin]
    | cons regs rest =>
      have hnr := Projection.readColumns_not_reported (regs.map Outcome.value) s.attr_indexes
      cases hcols : Projection.readColumns (regs.map Outcome.value) s.attr_indexes with
      | value columns => simp [Projection.next, hin, hcols]
      | reported => exact absurd hcols hnr
      | undefined => simp [Projection.next, hin, hcols]

/-- C22 witness: the index list `[0, 5]` over the tuple `(7, 8)`. -/
theorem Projection_out_of_range_undefined_witness :
    (∃ i ∈ [0, 5], ([Register.int 7, Register.int 8] : Tuple).length ≤ i) ∧
    Projection.next ⟨[Register.int 7, Register.int 8] :: [], [0, 5], []⟩ = Outcome.undefined :=
  ⟨⟨5, by decide, by decide⟩,
    Projection_out_of_range_undefined.1 [0, 5] [Register.int 7, Register.int 8] [] []
      ⟨5, by decide, by decide⟩⟩

/-- C28 (output slot convention): `Projection` and the six set operators append the
current tuple to `output_regs` in `next` and clear `output_regs` only in `get_output`.
After two successful calls of `next` without a `get_output` in between, `get_output`
returns the columns of both tuples; and a second `get_output` after the same `next`
returns no column. -/
theorem OutputSlot_accumulates :
    Projection.next (Projection.mk0 [[Register.int 1], [Register.int 2]] [0]) =
      Outcome.value (true, ⟨[[Register.int 2]], [0], [Register.int 1]⟩) ∧
    Projection.next ⟨[[Register.int 2]], [0], [Register.int 1]⟩ =
      Outcome.value (true, ⟨[], [0], [Register.int 1, Register.int 2]⟩) ∧
    (Projection.get_output refLib ⟨[], [0], [Register.int 1, Register.int 2]⟩).1 =
      [Outcome.value (Register.int 1), Outcome.value (Register.int 2)] ∧
    (Projection.get_output refLib
      (Projection.get_output refLib ⟨[[Register.int 2]], [0], [Register.int 1]⟩).2).1 = [] ∧
    (SetOp.get_output refLib (Union.next refLib (Union.next refLib
      (SetOp.mk0 [[Register.int 1]] [[Register.int 2]])).2).2).1 =
      [Outcome.value (Register.int 1), Outcome.value (Register.int 2)] ∧
    (SetOp.get_output refLib (SetOp.get_output refLib (Union.next refLib
      (SetOp.mk0 [[Register.int 1]] [[Register.int 2]])).2).2).1 = [] ∧
    (SetOp.get_output refLib (UnionAll.next refLib (UnionAll.next refLib
      (SetOp.mk0 [[Register.int 1]] [[Register.int 2]])).2).2).1 =
      [Outcome.value (Register.int 1), Outcome.value (Register.int 2)] ∧
    (SetOp.get_output refLib (Intersect.next refLib (Intersect.next refLib
      (SetOp.mk0 [[Register.int 1], [Register.int 2]]
        [[Register.int 1], [Register.int 2]])).2).2).1 =
      [Outcome.value (Register.int 1), Outcome.value (Register.int 2)] ∧
    (SetOp.get_output refLib (IntersectAll.next refLib (IntersectAll.next refLib
      (SetOp.mk0 [[Register.int 1], [Register.int 2]]
        [[Register.int 1], [Register.int 2]])).2).2).1 =
      [Outcome.value (Register.int 1), Outcome.value (Register.int 2)] ∧
    (SetOp.get_output refLib (Except.next refLib (Except.next refLib
      (SetOp.mk0 [[Register.int 1], [Register.int 2]] [[Register.int 3]])).2).2).1 =
      [Outcome.value (Register.int 1), Outcome.value (Register.int 2)] ∧
    (SetOp.get_output refLib (ExceptAll.next refLib (ExceptAll.next refLib
      (SetOp.mk0 [[Register.int 1], [Register.int 2]] [[Register.int 3]])).2).2).1 =
      [Outcome.value (Register.int 1), Outcome.value (Register.int 2)] ∧
    (Union.next refLib (Union.next refLib
      (SetOp.mk0 [[Register.int 1]] [[Register.int 2]])).2).1 = true := by
  decide

/-- The string built by the loop of `Print::next`, from any start. -/
theorem Print.foldl_format (regs : Tuple) :
    ∀ str : List Byte,
      regs.foldl (fun str reg => str ++ (Print.render reg ++ ascii ",")) str =
        str ++ (regs.map (fun reg => Print.render reg ++ [(44 : Byte)])).flatten := by
  induction regs with
  | nil => intro str; simp
  | cons r rs ih =>
    intro str
    rw [List.foldl_cons, ih]
    simp only [List.map_cons, List.flatten_cons, List.append_assoc]
    rfl

/-- Dropping the last comma of the columns, each followed by a comma, leaves the columns
joined by commas. -/
theorem Print.dropLast_commas (x : List Byte) (xs : List (List Byte)) :
    ((x :: xs).map (fun c => c ++ [(44 : Byte)])).flatten.dropLast =
      List.intercalate [(44 : Byte)] (x :: xs) := by
  induction xs generalizing x with
  | nil => simp [List.intercalate, List.intersperse]
  | cons y ys ih =>
    have h := ih y
    have hne : ((y :: ys).map (fun c => c ++ [(44 : Byte)])).flatten ≠ [] := by
      simp
    rw [List.map_cons, List.flatten_cons, List.dropLast_append_of_ne_nil _ hne, h]
    simp [List.intercalate, List.intersperse]

/-- The bytes `Print::next` writes for one tuple are the line of the specification. -/
theorem Print.next_cons (regs : Tuple) (rest : List Tuple) (stream : List Byte) :
    Print.next ⟨regs :: rest, stream⟩ = (true, ⟨rest, stream ++ Print.specLine regs⟩) := by
  cases regs with
  | nil => simp [Print.next, Print.specLine]
  | cons r rs =>
    have hfmt : Print.format (r :: rs) =
        ((r :: rs).map (fun reg => Print.render reg ++ [(44 : Byte)])).flatten := by
      rw [Print.format, Print.foldl_format]; rfl
    have hdl := Print.dropLast_commas (Print.render r) (rs.map Print.render)
    rw [← List.map_cons, List.map_map] at hdl
    have hcomp : ((fun c => c ++ [(44 : Byte)]) ∘ Print.render) =
        (fun reg => Print.render reg ++ [(44 : Byte)]) := rfl
    rw [hcomp] at hdl
    simp only [Print.next, List.length_cons, ne_eq, Nat.add_one_ne_zero, not_false_eq_true,
      if_true, Print.specLine, hfmt]
    rw [← List.dropLast_eq_take, hdl]

/-- Driving a `Print` to exhaustion appends the lines of the child's tuples, in order. -/
theorem Print.exhaust_eq :
    ∀ (input : List Tuple) (stream : List Byte) (fuel : Nat), input.length < fuel →
      Print.exhaust fuel ⟨input, stream⟩ =
        some ⟨[], stream ++ (input.map Print.specLine).flatten⟩ := by
  intro input
  induction input with
  | nil =>
    intro stream fuel hf
    obtain ⟨f, rfl⟩ : ∃ f, fuel = f + 1 := ⟨fuel - 1, by omega⟩
    simp [Print.exhaust, Print.next]
  | cons regs rest ih =>
    intro stream fuel hf
    obtain ⟨f, rfl⟩ : ∃ f, fuel = f + 1 := ⟨fuel - 1, by omega⟩
    simp only [List.length_cons] at hf
    rw [Print.exhaust, Print.next_cons]
    simp only [ih (stream ++ Print.specLine regs) f (by omega), List.map_cons,
      List.flatten_cons, List.append_assoc]

/-- C23 (Print format): driven to exhaustion, `Print` has written the concatenation,
over the tuples of the child in order, of nothing for an empty tuple and otherwise the
columns (an `INT64` register in decimal, a `CHAR16` register as its bytes) joined by
single commas and followed by one newline; `next` returns true exactly when the child
has a tuple left, and `get_output` is empty.  The tuples `(1,"a")`, `()`, `(-2,"b")`
print as `1,a\n-2,b\n`. -/
theorem Print_format :
    (∀ input : List Tuple,
      Print.run input = some ((input.map Print.specLine).flatten)) ∧
    (∀ s : Print, (Print.next s).1 = !s.input.isEmpty ∧ (Print.get_output s).1 = [] ∧
      (Print.get_output s).2 = s) ∧
    (∀ (regs : Tuple) (rest : List Tuple) (stream : List Byte),
      (Print.next ⟨regs :: rest, stream⟩).2 = ⟨rest, stream ++ Print.specLine regs⟩) ∧
    Print.run [[Register.int 1, Register.str (ascii "a")], [],
        [Register.int (-2), Register.str (ascii "b")]] =
      some [49, 44, 97, 10, 45, 50, 44, 98, 10] ∧
    Print.specLine [Register.int (-2), Register.str (ascii "b")] = [45, 50, 44, 98, 10] ∧
    Print.specLine [] = [] := by
  refine ⟨fun input => ?_, fun s => ⟨?_, rfl, rfl⟩, fun regs rest stream => ?_,
    by decide, by decide, by decide⟩
  · rw [Print.run, Print.mk0, Print.exhaust_eq input [] _ (Nat.lt_succ_self _)]
    simp
  · obtain ⟨input, stream⟩ := s
    cases input with
    | nil => rfl
    | cons regs rest => rw [Print.next_cons]; rfl
  · rw [Print.next_cons]

/-- With the identity as hash of integers and 64-bit hashes of strings, every string is
`==` to some integer. -/
theorem Register.eq_int_str (L : StdLib)
    (hi : ∀ v, isInt64 v → L.hashInt v = (v % 18446744073709551616).toNat)
    (hs : ∀ s, L.hashStr s < 18446744073709551616) (s : List Byte) :
    ∃ v, isInt64 v ∧
      Register.eq L (Register.from_int v) (Register.from_string s) = true ∧
      Register.ne L (Register.from_int v) (Register.from_string s) = false := by
  have h := hs s
  by_cases hlt : L.hashStr s < 9223372036854775808
  · have hv : isInt64 (L.hashStr s : Int) := by unfold isInt64; omega
    have he : L.hashInt (L.hashStr s : Int) = L.hashStr s := by rw [hi _ hv]; omega
    exact ⟨_, hv, by simp [Register.eq, Register.from_int, Register.from_string,
      Register.get_hash, he], by simp [Register.ne, Register.from_int, Register.from_string,
      Register.get_hash, he]⟩
  · have hv : isInt64 ((L.hashStr s : Int) - 18446744073709551616) := by unfold isInt64; omega
    have he : L.hashInt ((L.hashStr s : Int) - 18446744073709551616) = L.hashStr s := by
      rw [hi _ hv]; omega
    exact ⟨_, hv, by simp [Register.eq, Register.from_int, Register.from_string,
      Register.get_hash, he], by simp [Register.ne, Register.from_int, Register.from_string,
      Register.get_hash, he]⟩

theorem lib64_hashInt (v : Int) : lib64.hashInt v = (v % 18446744073709551616).toNat := rfl

theorem lib64_hashStr_lt (s : List Byte) : lib64.hashStr s < 18446744073709551616 := by
  show polyHash s % 18446744073709551616 < 18446744073709551616
  exact Nat.mod_lt _ (by norm_num)

/-- C24 (cross-variant equality is false): `operator==` compares the hashes, and
`get_hash` does not mix in the variant.  With the reference library `from_int(98)` is
`==` to `from_string("a")`; and in every library that hashes an integer to itself and a
string to a 64-bit value, every string is `==` to some integer. -/
theorem Register_cross_variant_collision :
    Register.eq refLib (Register.from_int 98) (Register.from_string (ascii "a")) = true ∧
    Register.ne refLib (Register.from_int 98) (Register.from_string (ascii "a")) = false ∧
    isInt64 98 ∧ (ascii "a").length ≤ 16 ∧
    (∀ L : StdLib, (∀ v, isInt64 v → L.hashInt v = (v % 18446744073709551616).toNat) →
      (∀ s, L.hashStr s < 18446744073709551616) →
      ∀ s : List Byte, ∃ v, isInt64 v ∧
        Register.eq L (Register.from_int v) (Register.from_string s) = true ∧
        Register.ne L (Register.from_int v) (Register.from_string s) = false) ∧
    (∀ v, isInt64 v → lib64.hashInt v = (v % 18446744073709551616).toNat) ∧
    (∀ s, lib64.hashStr s < 18446744073709551616) := by
  refine ⟨by decide, by decide, by unfold isInt64; omega, by decide,
    fun L hi hs s => Register.eq_int_str L hi hs s, fun v _ => lib64_hashInt v,
    lib64_hashStr_lt⟩

/-- Among the strings of nine bytes two have the same 64-bit hash. -/
theorem Register.str_collision (L : StdLib) (hs : ∀ s, L.hashStr s < 18446744073709551616) :
    ∃ s1 s2 : List Byte, s1.length ≤ 16 ∧ s2.length ≤ 16 ∧ s1 ≠ s2 ∧
      Register.eq L (Register.from_string s1) (Register.from_string s2) = true := by
  have hcard : Fintype.card (Fin 18446744073709551616) < Fintype.card (Fin 9 → Byte) := by
    simp only [Fintype.card_fin, Fintype.card_fun]
    norm_num
  obtain ⟨w1, w2, hne, heq⟩ := Fintype.exists_ne_map_eq_of_card_lt
    (fun w : Fin 9 → Byte => (⟨L.hashStr (List.ofFn w), hs _⟩ : Fin 18446744073709551616)) hcard
  refine ⟨List.ofFn w1, List.ofFn w2, by simp, by simp, ?_, ?_⟩
  · intro h
    exact hne (List.ofFn_injective h)
  · have := congrArg Fin.val heq
    simp only at this
    simp only [Register.eq, Register.from_string, Register.get_hash, this, beq_self_eq_true]

/-- C25 (same-variant equality is value equality): `operator==` is equality of the
hashes.  `!=` is its negation and equal values are `==`; two integers are `==` exactly
when they are equal if the hash of integers has no collision.  But whatever the 64-bit
hash of strings, two different strings of at most 16 bytes are `==`; with the library
`lib64` these are `"a"` and the eight bytes `248, 26, 200, 68, 200, 26, 248, 98`. -/
theorem Register_equality_is_hash_equality :
    (∀ (L : StdLib) (r1 r2 : Register), Register.ne L r1 r2 = !Register.eq L r1 r2) ∧
    (∀ (L : StdLib) (r : Register), Register.eq L r r = true) ∧
    (∀ L : StdLib, L.IntHashInjective → ∀ a b : Int, isInt64 a → isInt64 b →
      (Register.eq L (Register.from_int a) (Register.from_int b) = true ↔ a = b)) ∧
    (∀ L : StdLib, (∀ s, L.hashStr s < 18446744073709551616) →
      ∃ s1 s2 : List Byte, s1.length ≤ 16 ∧ s2.length ≤ 16 ∧ s1 ≠ s2 ∧
        Register.eq L (Register.from_string s1) (Register.from_string s2) = true) ∧
    (∀ s, lib64.hashStr s < 18446744073709551616) ∧
    Register.eq lib64 (Register.from_string (ascii "a"))
      (Register.from_string [248, 26, 200, 68, 200, 26, 248, 98]) = true ∧
    Register.ne lib64 (Register.from_string (ascii "a"))
      (Register.from_string [248, 26, 200, 68, 200, 26, 248, 98]) = false ∧
    ascii "a" ≠ [248, 26, 200, 68, 200, 26, 248, 98] ∧
    ([248, 26, 200, 68, 200, 26, 248, 98] : List Byte).length ≤ 16 := by
  refine ⟨fun L r1 r2 => ?_, fun L r => Register.eq_refl L r, fun L hL a b ha hb => ?_,
    fun L hs => Register.str_collision L hs, lib64_hashStr_lt, by decide, by decide, by decide,
    by decide⟩
  · simp [Register.ne, Register.eq, bne]
  · rw [Register.from_int, Register.from_int, Register.eq_int_of_injective L hL a b ha hb]
    simp

/-- The sign of `std::string::compare` is negative exactly when the first string is
smaller in the lexicographic order of the bytes. -/
theorem strCompare_neg_iff (s t : List Byte) :
    strCompare s t < 0 ↔ List.Lex (fun a b : Byte => a < b) s t := by
  induction s generalizing t with
  | nil =>
    cases t with
    | nil => simp [strCompare]
    | cons b bs => simp [strCompare, List.Lex.nil]
  | cons a as ih =>
    cases t with
    | nil => simp [strCompare]
    | cons b bs =>
      by_cases h1 : a < b
      · simp only [strCompare, h1, if_true]
        exact ⟨fun _ => List.Lex.rel h1, fun _ => by omega⟩
      · by_cases h2 : b < a
        · simp only [strCompare, h1, if_false, h2, if_true]
          constructor
          · intro h; omega
          · intro h
            cases h with
            | cons h3 => exact absurd h2 (lt_irrefl _)
            | rel h3 => exact absurd h3 h1
        · have hab : a = b := le_antisymm (not_lt.mp h2) (not_lt.mp h1)
          subst hab
          simp only [strCompare, h1, if_false, ih bs]
          exact List.Lex.cons_iff.symm

/-- C26 (Register ordering): `<` on two integers is the arithmetic order and on two
strings the lexicographic order of the bytes; on registers of one variant `>`, `<=` and
`>=` agree with `<`, and `<` is irreflexive, transitive and total. -/
theorem Register_order :
    (∀ a b : Int, Register.lt (Register.from_int a) (Register.from_int b) = decide (a < b)) ∧
    (∀ s t : List Byte,
      Register.lt (Register.from_string s) (Register.from_string t) = true ↔
        List.Lex (fun a b : Byte => a < b) s t) ∧
    (∀ r1 r2 : Register, Register.sameType r1 r2 = true →
      Register.gt r1 r2 = Register.lt r2 r1 ∧
      Register.le r1 r2 = !Register.lt r2 r1 ∧
      Register.ge r1 r2 = !Register.lt r1 r2 ∧
      Register.lt r1 r1 = false ∧
      (r1 ≠ r2 → Register.lt r1 r2 = true ∨ Register.lt r2 r1 = true) ∧
      ∀ r3 : Register, Register.sameType r2 r3 = true →
        Register.lt r1 r2 = true → Register.lt r2 r3 = true → Register.lt r1 r3 = true) := by
  refine ⟨fun a b => rfl, fun s t => ?_, fun r1 r2 h => ?_⟩
  · rw [← strCompare_neg_iff]
    simp [Register.lt, Register.from_string, Register.get_type, Register.as_string]
  · have hsym : Register.sameType r2 r1 = true := by
      simp only [Register.sameType, beq_iff_eq] at h ⊢
      exact h.symm
    have h11 : Register.sameType r1 r1 = true := by simp [Register.sameType]
    refine ⟨(Register.lt_eq_gt r2 r1 hsym).symm, ?_, ?_, ?_, ?_, ?_⟩
    · cases r1 with
      | int a =>
        cases r2 with
        | int b =>
          simp only [Register.le, Register.lt, Register.get_type, Register.as_int, if_true]
          exact decide_le_eq_not_lt b a
        | str t => simp [Register.sameType, Register.get_type] at h
      | str s =>
        cases r2 with
        | int b => simp [Register.sameType, Register.get_type] at h
        | str t =>
          have hsw := strCompare_swap s t
          simp only [Register.le, Register.lt, Register.get_type, Register.as_string,
            if_false, reduceCtorEq]
          by_cases hc : strCompare s t ≤ 0
          · have : ¬ strCompare t s < 0 := by omega
            simp [hc, this]
          · have : strCompare t s < 0 := by omega
            simp [hc, this]
    · cases r1 with
      | int a =>
        cases r2 with
        | int b =>
          simp only [Register.ge, Register.lt, Register.get_type, Register.as_int, if_true]
          exact decide_le_eq_not_lt a b
        | str t => simp [Register.sameType, Register.get_type] at h
      | str s =>
        cases r2 with
        | int b => simp [Register.sameType, Register.get_type] at h
        | str t =>
          simp only [Register.ge, Register.lt, Register.get_type, Register.as_string,
            if_false, reduceCtorEq]
          by_cases hc : strCompare s t ≥ 0
          · have : ¬ strCompare s t < 0 := by omega
            simp [hc, this]
          · have : strCompare s t < 0 := by omega
            simp [hc, this]
    · rw [Register.lt_eq_gt r1 r1 h11]; exact Register.gt_irrefl r1
    · intro hne
      by_contra hcon
      simp only [not_or, Bool.not_eq_true] at hcon
      rw [Register.lt_eq_gt r1 r2 h, Register.lt_eq_gt r2 r1 hsym] at hcon
      exact hne (Register.eq_of_not_gt h hcon.2 hcon.1)
    · intro r3 h23 h12 h23lt
      have h13 : Register.sameType r1 r3 = true := by
        simp only [Register.sameType, beq_iff_eq] at h h23 ⊢
        rw [h, h23]
      rw [Register.lt_eq_gt r1 r2 h] at h12
      rw [Register.lt_eq_gt r2 r3 h23] at h23lt
      rw [Register.lt_eq_gt r1 r3 h13]
      have h32 : Register.sameType r3 r2 = true := by
        simp only [Register.sameType, beq_iff_eq] at h23 ⊢
        exact h23.symm
      exact Register.gt_trans h32 hsym h23lt h12

/-- C26 witness: the integers `-3` and `5`, and the strings `"ab"` and `"b"`. -/
theorem Register_order_witness :
    Register.sameType (Register.from_string (ascii "ab")) (Register.from_string (ascii "b")) =
      true ∧
    (Register.gt (Register.from_string (ascii "ab")) (Register.from_string (ascii "b")) =
        Register.lt (Register.from_string (ascii "b")) (Register.from_string (ascii "ab")) ∧
      Register.le (Register.from_string (ascii "ab")) (Register.from_string (ascii "b")) =
        !Register.lt (Register.from_string (ascii "b")) (Register.from_string (ascii "ab")) ∧
      Register.ge (Register.from_string (ascii "ab")) (Register.from_string (ascii "b")) =
        !Register.lt (Register.from_string (ascii "ab")) (Register.from_string (ascii "b")) ∧
      Register.lt (Register.from_string (ascii "ab")) (Register.from_string (ascii "ab")) =
        false ∧
      (Register.from_string (ascii "ab") ≠ Register.from_string (ascii "b") →
        Register.lt (Register.from_string (ascii "ab")) (Register.from_string (ascii "b")) =
            true ∨
          Register.lt (Register.from_string (ascii "b")) (Register.from_string (ascii "ab")) =
            true) ∧
      ∀ r3 : Register, Register.sameType (Register.from_string (ascii "b")) r3 = true →
        Register.lt (Register.from_string (ascii "ab")) (Register.from_string (ascii "b")) =
          true →
        Register.lt (Register.from_string (ascii "b")) r3 = true →
        Register.lt (Register.from_string (ascii "ab")) r3 = true) ∧
    Register.lt (Register.from_int (-3)) (Register.from_int 5) = true ∧
    Register.lt (Register.from_string (ascii "ab")) (Register.from_string (ascii "b")) = true ∧
    Register.le (Register.from_int 5) (Register.from_int 5) = true ∧
    Register.ge (Register.from_int (-3)) (Register.from_int 5) = false :=
  ⟨by decide, Register_order.2.2 _ _ (by decide), by decide, by decide, by decide, by decide⟩

/-- A `Sort` whose `next` returned false is materialised and has no tuple left. -/
theorem SortOp.sort_next_false (L : StdLib) (s : SortOp) (h : (SortOp.next L s).1 = false) :
    (SortOp.next L s).2.isFinished = true ∧
    ¬ ((SortOp.next L s).2.current_index < (SortOp.next L s).2.registers.length) := by
  have hfin : (SortOp.materialize L s).isFinished = true := by
    unfold SortOp.materialize
    split
    · assumption
    · rfl
  unfold SortOp.next at h ⊢
  simp only at h ⊢
  cases hget : (SortOp.materialize L s).registers[(SortOp.materialize L s).current_index]? with
  | some regs => rw [hget] at h; simp at h
  | none =>
    simp only
    refine ⟨hfin, ?_⟩
    intro hlt
    rw [List.getElem?_eq_getElem hlt] at hget
    cases hget

/-- Every call of `next` on a materialised `Sort` without a tuple left returns false. -/
theorem SortOp.sort_after_exhausted (L : StdLib) :
    ∀ (k : Nat) (s : SortOp), s.isFinished = true →
      ¬ (s.current_index < s.registers.length) →
      (SortOp.next L (SortOp.after L k s)).1 = false := by
  intro k
  induction k with
  | zero =>
    intro s hf hn
    rw [SortOp.after, (SortOp.next_finished L s hf).1]
    simp [hn]
  | succ k ih =>
    intro s hf hn
    obtain ⟨_, h2, h3, h4⟩ := SortOp.next_finished L s hf
    rw [if_neg hn] at h4
    rw [SortOp.after]
    exact ih _ h2 (by rw [h3, h4]; exact hn)

/-- A call of `next` on a finished `HashAggregation` whose rows are handed out returns
false and changes nothing but `output_regs`. -/
theorem HashAggregation.agg_next_of_exhausted (L : StdLib) (s : HashAggregation)
    (hf : s.isFinished = true) (hn : ¬ (s.counter < s.numberOfKeys)) :
    HashAggregation.next L s = (false, { s with output_regs := [] }) := by
  simp [HashAggregation.next, HashAggregation.materialize, HashAggregation.emit,
    HashAggregation.Locals.init, hf, hn]

/-- A `HashAggregation` whose `next` returned false is finished and has handed out its
rows. -/
theorem HashAggregation.agg_next_false (L : StdLib) (s : HashAggregation)
    (h : (HashAggregation.next L s).1 = false) :
    (HashAggregation.next L s).2.isFinished = true ∧
    ¬ ((HashAggregation.next L s).2.counter < (HashAggregation.next L s).2.numberOfKeys) := by
  have hfin : ∀ (locals : HashAggregation.Locals) (s0 : HashAggregation),
      (HashAggregation.materialize L locals s0).isFinished = true := by
    intro locals s0
    unfold HashAggregation.materialize
    split
    · assumption
    · split <;> rfl
  unfold HashAggregation.next at h ⊢
  simp only at h ⊢
  generalize (if s.isFinished = true then HashAggregation.Locals.init
    else HashAggregation.drain L s.group_by_attrs s.aggr_funcs s.input) = locals at h ⊢
  have hf := hfin locals { s with output_regs := [] }
  generalize HashAggregation.materialize L locals { s with output_regs := [] } = s1 at h hf ⊢
  unfold HashAggregation.emit at h ⊢
  cases hmin : locals.minRegister with
  | some mn => rw [hmin] at h; simp at h
  | none =>
    rw [hmin] at h
    simp only at h ⊢
    by_cases hc : s1.counter < s1.numberOfKeys
    · rw [if_pos hc] at h; simp at h
    · rw [if_neg hc]
      exact ⟨hf, hc⟩

theorem HashAggregation.agg_after_exhausted (L : StdLib) :
    ∀ (k : Nat) (s : HashAggregation), s.isFinished = true →
      ¬ (s.counter < s.numberOfKeys) →
      (HashAggregation.next L (HashAggregation.after L k s)).1 = false := by
  intro k
  induction k with
  | zero =>
    intro s hf hn
    rw [HashAggregation.after, HashAggregation.agg_next_of_exhausted L s hf hn]
  | succ k ih =>
    intro s hf hn
    rw [HashAggregation.after, HashAggregation.agg_next_of_exhausted L s hf hn]
    exact ih _ hf hn

/-- A call of `next` on a finished set operator whose registers are handed out returns
false and leaves the state as it is. -/
theorem SetOp.set_next_of_exhausted (L : StdLib)
    (collect : List Tuple → List Tuple → List Register) (s : SetOp)
    (hf : s.isFinished = true) (hn : ¬ (s.counter < wrapInt32 s.registers.length)) :
    SetOp.next L collect s = (false, s) := by
  simp [SetOp.next, SetOp.materialize, SetOp.emit, hf, hn]

/-- A set operator whose `next` returned false is finished and has handed out its
registers. -/
theorem SetOp.set_next_false (L : StdLib) (collect : List Tuple → List Tuple → List Register)
    (s : SetOp) (h : (SetOp.next L collect s).1 = false) :
    (SetOp.next L collect s).2.isFinished = true ∧
    ¬ ((SetOp.next L collect s).2.counter <
      wrapInt32 (SetOp.next L collect s).2.registers.length) := by
  have hfin : (SetOp.materialize L collect s).isFinished = true := by
    unfold SetOp.materialize
    split
    · assumption
    · rfl
  unfold SetOp.next at h ⊢
  generalize SetOp.materialize L collect s = s1 at h hfin ⊢
  unfold SetOp.emit at h ⊢
  by_cases hc : s1.counter < wrapInt32 s1.registers.length
  · rw [if_pos hc] at h; simp at h
  · rw [if_neg hc]
    exact ⟨hfin, hc⟩

theorem SetOp.set_after_exhausted (L : StdLib)
    (collect : List Tuple → List Tuple → List Register) :
    ∀ (gets : List Bool) (s : SetOp), s.isFinished = true →
      ¬ (s.counter < wrapInt32 s.registers.length) →
      (SetOp.next L collect (SetOp.after L collect gets s)).1 = false := by
  intro gets
  induction gets with
  | nil =>
    intro s hf hn
    rw [SetOp.after, SetOp.set_next_of_exhausted L collect s hf hn]
  | cons g gs ih =>
    intro s hf hn
    rw [SetOp.after, SetOp.set_next_of_exhausted L collect s hf hn]
    cases g
    · exact ih s hf hn
    · exact ih _ hf hn

theorem SetOp.set_sticky (L : StdLib) (collect : List Tuple → List Tuple → List Register)
    (s : SetOp) (h : (SetOp.next L collect s).1 = false) (gets : List Bool) :
    (SetOp.next L collect (SetOp.after L collect gets (SetOp.next L collect s).2)).1 = false :=
  SetOp.set_after_exhausted L collect gets _ (SetOp.set_next_false L collect s h).1
    (SetOp.set_next_false L collect s h).2

/-- C27 (exhaustion is sticky): for `Sort`, `HashAggregation` and the six set operators,
in any state, once `next` has returned false every later call of `next` returns false;
for the set operators also when `get_output` is called between the calls. -/
theorem Exhaustion_sticky (L : StdLib) :
    (∀ s : SortOp, (SortOp.next L s).1 = false →
      ∀ k, (SortOp.next L (SortOp.after L k (SortOp.next L s).2)).1 = false) ∧
    (∀ s : HashAggregation, (HashAggregation.next L s).1 = false →
      ∀ k, (HashAggregation.next L
        (HashAggregation.after L k (HashAggregation.next L s).2)).1 = false) ∧
    (∀ s : SetOp, (Union.next L s).1 = false → ∀ gets,
      (Union.next L (SetOp.after L (Union.collect L) gets (Union.next L s).2)).1 = false) ∧
    (∀ s : SetOp, (UnionAll.next L s).1 = false → ∀ gets,
      (UnionAll.next L (SetOp.after L (UnionAll.collect L) gets (UnionAll.next L s).2)).1 =
        false) ∧
    (∀ s : SetOp, (Intersect.next L s).1 = false → ∀ gets,
      (Intersect.next L (SetOp.after L (Intersect.collect L) gets (Intersect.next L s).2)).1 =
        false) ∧
    (∀ s : SetOp, (IntersectAll.next L s).1 = false → ∀ gets,
      (IntersectAll.next L
        (SetOp.after L (IntersectAll.collect L) gets (IntersectAll.next L s).2)).1 = false) ∧
    (∀ s : SetOp, (Except.next L s).1 = false → ∀ gets,
      (Except.next L (SetOp.after L (Except.collect L) gets (Except.next L s).2)).1 = false) ∧
    (∀ s : SetOp, (ExceptAll.next L s).1 = false → ∀ gets,
      (ExceptAll.next L (SetOp.after L (ExceptAll.collect L) gets (ExceptAll.next L s).2)).1 =
        false) := by
  refine ⟨fun s h k => ?_, fun s h k => ?_, fun s h gets => SetOp.set_sticky L _ s h gets,
    fun s h gets => SetOp.set_sticky L _ s h gets, fun s h gets => SetOp.set_sticky L _ s h gets,
    fun s h gets => SetOp.set_sticky L _ s h gets, fun s h gets => SetOp.set_sticky L _ s h gets,
    fun s h gets => SetOp.set_sticky L _ s h gets⟩
  · exact SortOp.sort_after_exhausted L k _ (SortOp.sort_next_false L s h).1 (SortOp.sort_next_false L s h).2
  · exact HashAggregation.agg_after_exhausted L k _ (HashAggregation.agg_next_false L s h).1
      (HashAggregation.agg_next_false L s h).2

/-- C27 witness, reference library: a `Sort` and a `HashAggregation` over no tuple, and a
`Union` that has emitted its one register. -/
theorem Exhaustion_sticky_witness :
    (SortOp.next refLib (SortOp.mk0 [] [⟨0, true⟩])).1 = false ∧
    (SortOp.next refLib (SortOp.after refLib 3
      (SortOp.next refLib (SortOp.mk0 [] [⟨0, true⟩])).2)).1 = false ∧
    (HashAggregation.next refLib (HashAggregation.mk0 [] [0]
      [AggrFunc.mk AggrFunc.Func.SUM 1])).1 = false ∧
    (HashAggregation.next refLib (HashAggregation.after refLib 3
      (HashAggregation.next refLib (HashAggregation.mk0 [] [0]
        [AggrFunc.mk AggrFunc.Func.SUM 1])).2)).1 = false ∧
    (Union.next refLib (Union.next refLib (SetOp.mk0 [[Register.int 1]] [])).2).1 = false ∧
    (Union.next refLib (SetOp.after refLib (Union.collect refLib) [true, false, true]
      (Union.next refLib (Union.next refLib (SetOp.mk0 [[Register.int 1]] [])).2).2)).1 =
      false :=
  ⟨by decide, (Exhaustion_sticky refLib).1 _ (by decide) 3,
    by decide, (Exhaustion_sticky refLib).2.1 _ (by decide) 3,
    by decide, (Exhaustion_sticky refLib).2.2.1 _ (by decide) [true, false, true]⟩

/-- C29 (Sort without a descending criterion): when no criterion has `desc` set, no pass
of `std::sort` runs and `Sort` emits the tuples of the child unchanged, in the order of
the child; so for the empty list of criteria. -/
theorem Sort_no_desc_identity (L : StdLib) (criteria : List Criterion) (input : List Tuple)
    (h : ∀ c ∈ criteria, c.desc = false) :
    SortOp.run L criteria input = some input ∧ SortOp.run L [] input = some input := by
  have h1 := SortOp.sortPasses_no_desc L criteria h input
  have h2 := SortOp.sortPasses_no_desc L [] (fun c hc => by cases hc) input
  constructor
  · rw [SortOp.sort_run_eq L criteria input (by rw [h1]), h1]
  · rw [SortOp.sort_run_eq L [] input (by rw [h2]), h2]

/-- C29 witness, reference library: two ascending criteria over `[(2,"b"),(1,"c"),(2,"a")]`. -/
theorem Sort_no_desc_identity_witness :
    (∀ c ∈ ([⟨0, false⟩, ⟨1, false⟩] : List Criterion), c.desc = false) ∧
    (SortOp.run refLib [⟨0, false⟩, ⟨1, false⟩]
        [[Register.int 2, Register.str (ascii "b")], [Register.int 1, Register.str (ascii "c")],
          [Register.int 2, Register.str (ascii "a")]] =
      some [[Register.int 2, Register.str (ascii "b")], [Register.int 1, Register.str (ascii "c")],
        [Register.int 2, Register.str (ascii "a")]] ∧
    SortOp.run refLib []
        [[Register.int 2, Register.str (ascii "b")], [Register.int 1, Register.str (ascii "c")],
          [Register.int 2, Register.str (ascii "a")]] =
      some [[Register.int 2, Register.str (ascii "b")], [Register.int 1, Register.str (ascii "c")],
        [Register.int 2, Register.str (ascii "a")]]) :=
  ⟨by decide, Sort_no_desc_identity refLib _ _ (by decide)⟩

end buzzdb.operators
